import Mathlib

/-!
# Verification of `OzonDevChampionship`

Shallow embedding of

* `src/Super/main.cpp`   : the bit trie `BitTrie<NumberType>` (mex, insertion, lazy xor),
* `src/Easy2/main.cpp`   : `validBracketSequence`,
* `src/Medium1/main.cpp` : `clean_spaces`,
* `src/Medium2/main.cpp` : `searchAcquaintancesChain`,

followed by the theorems about them.

## Conventions of the embedding of `BitTrie`

* `W` is `max_depth_trie_ = sizeof(NumberType) * 8`, the number of bits of `NumberType`.
  A value of type `NumberType` is a natural number below `2 ^ W`; every store into a
  `NumberType` variable that may exceed the range is followed by `% 2 ^ W`.
* A `Node*` is a value of the type `Node`: either `nullptr` or the node pointed to, which
  carries its two children, `is_full_` and `xor_mask_`.  The tree is owned exclusively
  (every node has one parent), so the heap is the tree.
* The back pointer `parent_` is the list of ancestors of the current node (`Path`):
  the head is the parent together with the index of the child slot the current node lives in.
* A method that mutates `*this` returns the new `*this`.  An operation of the trie returns
  its outcome (`Except Error _`) together with the trie after the call, also when it throws:
  a C++ exception does not roll back the writes made before it.
-/

namespace BitTrie

/-- The exceptions thrown by `BitTrie`. -/
inductive Error where
  /-- Thrown by `mex`: `std::out_of_range("Trie is full.")`. -/
  | trie_is_full : Error
  /-- Thrown by `add_number(value)`: `std::range_error("The ID is already taken.")`. -/
  | id_already_taken : Error
  /-- Thrown by `get_child` and `get_or_create_child`: `std::range_error("Invalid index")`. -/
  | invalid_index : Error
deriving DecidableEq, Repr

deriving instance DecidableEq for Except

/-- A pointer to a node of the trie: `nullptr`, or a node with `children_[0]`, `children_[1]`,
`is_full_` and `xor_mask_`. -/
inductive Node where
  | nullptr : Node
  | node (children0 children1 : Node) (is_full : Bool) (xor_mask : Nat) : Node
deriving DecidableEq, Repr

/-- The ancestors of the current node, nearest first: each parent with the index of the slot of
`children_` in which the current node is stored (the chain of `parent_` pointers). -/
abbrev Path := List (Node × Nat)

/-- The node made by `new Node{parent}`: no children, not full, no pending mask. -/
def Node.fresh : Node := .node .nullptr .nullptr false 0

/-- Test `p == nullptr`. -/
def Node.is_null : Node → Bool
  | .nullptr => true
  | .node _ _ _ _ => false

/-- Read `children_[index]` for `index` 0 or 1. -/
def Node.child : Node → Nat → Node
  | .nullptr, _ => .nullptr
  | .node c0 c1 _ _, index => if index = 0 then c0 else c1

/-- Write `children_[index] = c` for `index` 0 or 1. -/
def Node.set_child : Node → Nat → Node → Node
  | .nullptr, _, _ => .nullptr
  | .node c0 c1 f m, index, c => if index = 0 then .node c c1 f m else .node c0 c f m

/-- Read `xor_mask_`. -/
def Node.mask : Node → Nat
  | .nullptr => 0
  | .node _ _ _ m => m

/-- `Node::get_fullness`: returns `is_full_`. -/
def Node.get_fullness : Node → Bool
  | .nullptr => false
  | .node _ _ f _ => f

/-- Write `is_full_ = value`. -/
def Node.set_is_full : Node → Bool → Node
  | .nullptr, _ => .nullptr
  | .node c0 c1 _ m, value => .node c0 c1 value m

/-- `Node::swap_children`: `std::swap(children_[0], children_[1])`. -/
def Node.swap_children : Node → Node
  | .nullptr => .nullptr
  | .node c0 c1 f m => .node c1 c0 f m

/-- The body of the loop of `push_inconsistency` for one child:
`if (node != nullptr) node->xor_mask_ ^= value`, the result stored in a `NumberType`. -/
def Node.xor_into_mask (W : Nat) (value : Nat) : Node → Node
  | .nullptr => .nullptr
  | .node c0 c1 f m => .node c0 c1 f ((m ^^^ value) % 2 ^ W)

/-- `Node::push_inconsistency`: if `xor_mask_ == 0` return; swap the children when bit
`max_depth_trie_ - 1` of the mask is 1; xor `xor_mask_ << 1` into the mask of each child that
exists; set `xor_mask_ = 0`. -/
def Node.push_inconsistency (W : Nat) : Node → Node
  | .nullptr => .nullptr
  | .node c0 c1 f m =>
    if m = 0 then .node c0 c1 f m
    else
      match (if (m >>> (W - 1)) &&& 1 = 1 then
          Node.swap_children (.node c0 c1 f m) else .node c0 c1 f m) with
      | .nullptr => .nullptr
      | .node d0 d1 g k =>
        .node (Node.xor_into_mask W (k <<< 1) d0) (Node.xor_into_mask W (k <<< 1) d1) g 0

/-- `Node::get_child(index)`: throws for `index > 1`; pushes the pending mask of the child when
the child exists; returns the node after the call and the pointer to the child. -/
def Node.get_child (W : Nat) (this : Node) (index : Nat) : Except Error (Node × Node) :=
  if index > 1 then .error .invalid_index
  else if !(this.child index).is_null then
    .ok (this.set_child index ((this.child index).push_inconsistency W),
         (this.child index).push_inconsistency W)
  else .ok (this, this.child index)

/-- `Node::get_or_create_child(index)`: throws for `index > 1`; creates the child when it is
absent, otherwise pushes its pending mask; returns the node after the call and the pointer to
the child. -/
def Node.get_or_create_child (W : Nat) (this : Node) (index : Nat) :
    Except Error (Node × Node) :=
  if index > 1 then .error .invalid_index
  else if (this.child index).is_null then
    .ok (this.set_child index Node.fresh, Node.fresh)
  else
    .ok (this.set_child index ((this.child index).push_inconsistency W),
         (this.child index).push_inconsistency W)

/-- Put the current node back below its ancestors and return the root: the tree seen from
`root_` when `current` has the ancestors `path`. -/
def rebuild : Node → Path → Node
  | current, [] => current
  | current, (parent, index) :: rest => rebuild (parent.set_child index current) rest

/-- `Node::set_fullness(value)` called on the node `this` whose ancestors are `path`: writes
`is_full_`, recomputes the fullness of the parent from the parent's two children and recurses
into the parent only when that differs from the parent's flag.  Returns the root. -/
def set_fullness (value : Bool) : Node → Path → Node
  | this, [] => this.set_is_full value
  | this, (parent, index) :: rest =>
    let parent1 := parent.set_child index (this.set_is_full value)
    let new_parent_fullness :=
      !(parent1.child 0).is_null && !(parent1.child 1).is_null &&
      (parent1.child 0).get_fullness && (parent1.child 1).get_fullness
    if parent1.get_fullness != new_parent_fullness then
      set_fullness new_parent_fullness parent1 rest
    else rebuild parent1 rest

/-- `Node::xor_values(value)`: `xor_mask_ ^= value; push_inconsistency();`. -/
def Node.xor_values (W : Nat) (value : Nat) : Node → Node
  | .nullptr => .nullptr
  | .node c0 c1 f m => Node.push_inconsistency W (.node c0 c1 f ((m ^^^ value) % 2 ^ W))

/-- The C++ expression `a << n` for `a` of type `int` (32 bits, two's complement) holding a
non-negative value: the value congruent to `a * 2 ^ n` modulo `2 ^ 32` in the range of `int`.
For `n >= 32` C++ leaves the expression undefined; the same formula is used there. -/
def int_shl (a n : Nat) : Int := Int.bmod (Int.ofNat (a * 2 ^ n)) (2 ^ 32)

/-- Conversion of an `int` to the unsigned `NumberType` of `W` bits: reduction modulo `2 ^ W`. -/
def int_to_number (W : Nat) (i : Int) : Nat := (i % Int.ofNat (2 ^ W)).toNat

/-- The loop of `BitTrie::mex`, `bit_no + 1` iterations left (the loop variable is `bit_no`).
Returns the outcome and the node `current` after the pushes made by `get_child`.
`result |= bit_value << bit_no` shifts in `int` (`auto bit_value = 0`) and converts to
`NumberType`; for the types narrower than `int` the `|` is evaluated in `int` and truncated by
the assignment, which yields the same bits. -/
def mex_loop (W : Nat) : Nat → Node → Nat → Except Error Nat × Node
  | 0, current, result => (.ok result, current)
  | bit_no + 1, current, result =>
    match Node.get_child W current 0 with
    | .error e => (.error e, current)
    | .ok (current1, left) =>
      if left.is_null then (.ok result, current1)
      else
        match Node.get_child W current1 0 with
        | .error e => (.error e, current1)
        | .ok (current2, left2) =>
          let bit_value := if left2.get_fullness then 1 else 0
          let result1 := result ||| int_to_number W (int_shl bit_value bit_no)
          match Node.get_child W current2 bit_value with
          | .error e => (.error e, current2)
          | .ok (current3, next) =>
            if next.is_null then (.ok result1, current3)
            else
              match Node.get_child W current3 bit_value with
              | .error e => (.error e, current3)
              | .ok (current4, next2) =>
                ((mex_loop W bit_no next2 result1).1,
                 current4.set_child bit_value (mex_loop W bit_no next2 result1).2)

/-- `BitTrie::mex`: throws when the root is full, otherwise runs the loop from the root with
`result = 0`.  Returns the outcome and the root after the call. -/
def mex (W : Nat) (root : Node) : Except Error Nat × Node :=
  if root.get_fullness then (.error .trie_is_full, root)
  else mex_loop W W root 0

/-- The loop of `BitTrie::add_number(value)`, `bit_no + 1` iterations left: descends from
`current` along the bits of `value`, most significant first, recording the ancestors.
Returns an error of `get_or_create_child` if any, the node reached and its ancestors. -/
def descend (W : Nat) (value : Nat) : Nat → Node → Path → Option Error × Node × Path
  | 0, current, path => (none, current, path)
  | bit_no + 1, current, path =>
    let bit_value := (value >>> bit_no) &&& 1
    match Node.get_or_create_child W current bit_value with
    | .error e => (some e, current, path)
    | .ok (current1, next) => descend W value bit_no next ((current1, bit_value) :: path)

/-- `BitTrie::add_number(NumberType value)`: descends to the leaf of `value`, throws when the
leaf is full, otherwise calls `set_fullness(true)` on it.  Returns the outcome and the root
after the call. -/
def add_number_value (W : Nat) (value : Nat) (root : Node) : Except Error Unit × Node :=
  match descend W value W root [] with
  | (some e, current, path) => (.error e, rebuild current path)
  | (none, current, path) =>
    if current.get_fullness then (.error .id_already_taken, rebuild current path)
    else (.ok (), set_fullness true current path)

/-- `BitTrie::add_number()`: `auto id = mex(); add_number(id); return id;`. -/
def add_number (W : Nat) (root : Node) : Except Error Nat × Node :=
  match mex W root with
  | (.error e, root1) => (.error e, root1)
  | (.ok id, root1) =>
    match add_number_value W id root1 with
    | (.error e, root2) => (.error e, root2)
    | (.ok (), root2) => (.ok id, root2)

/-- `BitTrie::xor_all_values(value)`: `root_->xor_values(value)`. -/
def xor_all_values (W : Nat) (value : Nat) (root : Node) : Node :=
  Node.xor_values W value root

/-- The root of a newly constructed trie: `root_{new Node{nullptr}}`. -/
def empty : Node := Node.fresh

/-! ### Clients of the trie and the set it stores -/

/-- A call of one of the three public member functions of `BitTrie`. -/
inductive Op where
  /-- The call `add_number(value)`. -/
  | add_number_value (value : Nat) : Op
  /-- The call `add_number()`. -/
  | add_number : Op
  /-- The call `xor_all_values(value)`. -/
  | xor_all_values (value : Nat) : Op
deriving DecidableEq, Repr

/-- The argument of the call is a value of `NumberType`. -/
def Op.valid (W : Nat) : Op → Bool
  | .add_number_value value => decide (value < 2 ^ W)
  | .add_number => true
  | .xor_all_values value => decide (value < 2 ^ W)

/-- What the caller observes of a call: the value returned or the exception thrown. -/
def Op.observe (W : Nat) (root : Node) : Op → Except Error (Option Nat)
  | .add_number_value value =>
    match (BitTrie.add_number_value W value root).1 with
    | .error e => .error e
    | .ok () => .ok none
  | .add_number =>
    match (BitTrie.add_number W root).1 with
    | .error e => .error e
    | .ok id => .ok (some id)
  | .xor_all_values _ => .ok none

/-- The trie after a call (a caller that catches the exception keeps using the trie). -/
def Op.step (W : Nat) (root : Node) : Op → Node
  | .add_number_value value => (BitTrie.add_number_value W value root).2
  | .add_number => (BitTrie.add_number W root).2
  | .xor_all_values value => BitTrie.xor_all_values W value root

/-- The trie after a sequence of calls. -/
def run (W : Nat) : List Op → Node → Node
  | [], root => root
  | op :: ops, root => run W ops (op.step W root)

/-- The observations of a sequence of calls, in order. -/
def observations (W : Nat) : List Op → Node → List (Except Error (Option Nat))
  | [], _ => []
  | op :: ops, root => op.observe W root :: observations W ops (op.step W root)

/-- The states of the trie a client can produce: the results of sequences of calls with
arguments of type `NumberType` on a newly constructed trie. -/
def Reachable (W : Nat) (root : Node) : Prop :=
  ∃ ops : List Op, (∀ op ∈ ops, op.valid W = true) ∧ run W ops empty = root

/-- Membership of `v` in the set stored below a node of height `h` (the leaves have height 0,
the root has height `W`), `acc` being the xor mask still pending from the ancestors, aligned
like `xor_mask_` (bit `W - 1` is the bit of this node's level).  The pending masks are taken
into account without being pushed: the child looked into is the one selected by the bit of `v`
xor the bit of the mask. -/
def lookup (W : Nat) : Nat → Node → Nat → Nat → Bool
  | _, .nullptr, _, _ => false
  | 0, .node _ _ f _, _, _ => f
  | h + 1, .node c0 c1 _ m, acc, v =>
    if (v.testBit h != (acc ^^^ m).testBit (W - 1)) then
      lookup W h c1 ((acc ^^^ m) <<< 1) v
    else lookup W h c0 ((acc ^^^ m) <<< 1) v

/-- The logical set of the trie: `contains W root v` says that `v` is stored. -/
def contains (W : Nat) (root : Node) (v : Nat) : Bool := lookup W W root 0 v

/-- Number of nodes of the tree. -/
def node_count : Node → Nat
  | .nullptr => 0
  | .node c0 c1 _ _ => node_count c0 + node_count c1 + 1

/-- The tree with every pending mask resolved: `push_inconsistency` applied top-down on every
node of a tree of height `h`. -/
def normalize (W : Nat) : Nat → Node → Node
  | 0, n => Node.push_inconsistency W n
  | h + 1, n =>
    match Node.push_inconsistency W n with
    | .nullptr => .nullptr
    | .node c0 c1 f m => .node (normalize W h c0) (normalize W h c1) f m

/-- Insert the values of a list by `add_number(value)`, in order. -/
def insert_all (W : Nat) : List Nat → Node → Node
  | [], root => root
  | v :: vs, root => insert_all W vs (add_number_value W v root).2

/-- Call `add_number()` `n` times and collect the outcomes, in order. -/
def allocate_many (W : Nat) : Nat → Node → List (Except Error Nat) × Node
  | 0, root => ([], root)
  | n + 1, root =>
    ((add_number W root).1 :: (allocate_many W n (add_number W root).2).1,
     (allocate_many W n (add_number W root).2).2)

/-! ### Invariants -/

/-- The invariant of a subtree of height `h`: the fullness flag of every inner node says that
both children exist and are full, a node of height 0 has no children, and every mask is a
value of `NumberType`. -/
def well_formed (W : Nat) : Nat → Node → Bool
  | _, .nullptr => true
  | 0, .node c0 c1 _ m => c0.is_null && c1.is_null && decide (m < 2 ^ W)
  | h + 1, .node c0 c1 f m =>
    (f == (!c0.is_null && !c1.is_null && c0.get_fullness && c1.get_fullness)) &&
      decide (m < 2 ^ W) && well_formed W h c0 && well_formed W h c1

/-- The invariant of the trie between two calls: the root exists, has no pending mask, and the
tree of height `W` below it is well formed. -/
def invariant (W : Nat) (root : Node) : Bool :=
  !root.is_null && (root.mask == 0) && well_formed W W root

/-- The invariant of the ancestors of the current node during `add_number(value)`, the current
node being of height `h` with fullness flag `child_full`: every ancestor exists and has no
pending mask, the current node sits in the slot selected by the bit of `value`, the sibling
subtree is well formed, the flag of the parent agrees with the flags of the sibling and of the
current node, and the topmost ancestor has height `W`. -/
def path_ok (W value : Nat) : Nat → Bool → Path → Bool
  | h, _, [] => h == W
  | h, child_full, (parent, index) :: rest =>
    !parent.is_null && (parent.mask == 0) && (index == ((value >>> h) &&& 1)) &&
      well_formed W h (parent.child (1 - index)) &&
      (parent.get_fullness ==
        (!(parent.child (1 - index)).is_null && (parent.child (1 - index)).get_fullness &&
          child_full)) &&
      path_ok W value (h + 1) parent.get_fullness rest

/-- The number that the loop of `mex` assembles when it sets the bits of `x` below `h`: every
set bit `i` contributes the converted shift `1 << i`, every clear bit contributes `0 << i`. -/
def assemble (W : Nat) : Nat → Nat → Nat
  | 0, _ => 0
  | h + 1, x =>
    int_to_number W (int_shl (if x.testBit h then 1 else 0) h) ||| assemble W h x

/-- No node of the tree has a pending mask. -/
def no_pending : Node → Bool
  | .nullptr => true
  | .node c0 c1 _ m => (m == 0) && no_pending c0 && no_pending c1

/-- The two nodes are both `nullptr`, or have the same children and the same fullness flag:
they differ at most in their own pending mask. -/
def Node.same_except_mask : Node → Node → Bool
  | .nullptr, .nullptr => true
  | .node a0 a1 f _, .node b0 b1 g _ => decide (a0 = b0) && decide (a1 = b1) && (f == g)
  | _, _ => false

/-- The number of values of `NumberType` that the trie stores: the size of the logical set. -/
def stored_count (W : Nat) (root : Node) : Nat :=
  ((Finset.range (2 ^ W)).filter (fun v => contains W root v = true)).card

/-- The fullness invariant of the inner nodes of a subtree of height `h`: the flag of a node of
height at least 1 is set iff both children exist and both are full. -/
def fullness_invariant : Nat → Node → Bool
  | _, .nullptr => true
  | 0, .node _ _ _ _ => true
  | h + 1, .node c0 c1 f _ =>
    (f == (!c0.is_null && !c1.is_null && c0.get_fullness && c1.get_fullness)) &&
      fullness_invariant h c0 && fullness_invariant h c1

/-- The values inserted by a sequence of calls, as the task statement describes them, `stored`
being the values inserted before: a successful `add_number(v)` inserts `v`, a successful
`add_number()` inserts the value it returns, `xor_all_values(k)` replaces every inserted value
`s` by `s xor k`, and a call that throws inserts nothing. -/
def inserted_values (W : Nat) : List Op → Node → List Nat → List Nat
  | [], _, stored => stored
  | .add_number_value v :: ops, root, stored =>
    inserted_values W ops (BitTrie.add_number_value W v root).2
      (match (BitTrie.add_number_value W v root).1 with
        | .ok () => v :: stored
        | .error _ => stored)
  | .add_number :: ops, root, stored =>
    inserted_values W ops (BitTrie.add_number W root).2
      (match (BitTrie.add_number W root).1 with
        | .ok id => id :: stored
        | .error _ => stored)
  | .xor_all_values k :: ops, root, stored =>
    inserted_values W ops (BitTrie.xor_all_values W k root) (stored.map (fun s => s ^^^ k))

end BitTrie


/-! ## `src/Easy2/main.cpp`: the bracket sequence -/

namespace Easy2

/-- `checkPairBrackets(left, right)`: `left` and `right` are the two brackets of one kind. -/
def checkPairBrackets (left right : Char) : Bool :=
  if (left == '[' && right == ']') ||
      (left == '(' && right == ')') ||
      (left == '\x7b' && right == '\x7d') then true
  else false

/-- The loop of `validBracketSequence` over the characters that remain, with the stack
`left_brackets` (the top is the head of the list), and the `return true` after the loop. -/
def validBracketSequence_loop : List Char → List Char → Bool
  | [], _ => true
  | c :: rest, left_brackets =>
    if c == '[' || c == '(' || c == '\x7b' then
      validBracketSequence_loop rest (c :: left_brackets)
    else if c == ']' || c == ')' || c == '\x7d' then
      match left_brackets with
      | [] => false
      | top :: popped =>
        if checkPairBrackets top c then validBracketSequence_loop rest popped else false
    else validBracketSequence_loop rest left_brackets

/-- `validBracketSequence(brackets)`. -/
def validBracketSequence (brackets : String) : Bool :=
  validBracketSequence_loop brackets.toList []

/-- A correct bracket sequence, as the task statement means it: the empty sequence, a correct
sequence enclosed in a pair of matching brackets, or two correct sequences one after the
other. -/
inductive CorrectBracketSequence : List Char → Prop where
  | empty : CorrectBracketSequence []
  | enclose (left right : Char) (s : List Char) :
      checkPairBrackets left right = true → CorrectBracketSequence s →
      CorrectBracketSequence (left :: s ++ [right])
  | append (s t : List Char) :
      CorrectBracketSequence s → CorrectBracketSequence t → CorrectBracketSequence (s ++ t)

/-- The character is an opening bracket. -/
def is_left_bracket (c : Char) : Bool := c == '[' || c == '(' || c == '\x7b'

/-- The character is a closing bracket. -/
def is_right_bracket (c : Char) : Bool := c == ']' || c == ')' || c == '\x7d'

end Easy2

/-! ## `src/Medium1/main.cpp`: removal of the redundant spaces

A `std::string` is the list of its characters.  The positions are of type `size_t` (64 bits);
they never exceed the size of the string, so that only `insert_position -= 1` can wrap.
Each `while` loop is a recursion on a bound of the number of its iterations (the size of the
string, since every iteration of each loop advances `check_position`); the theorems show that
the loops end by their own condition. -/

namespace Medium1

/-- `is_space(c)`: the character is `' '` or `'_'`. -/
def is_space (c : Char) : Bool := c == ' ' || c == '_'

/-- `str[i]` for `i` below the size of the string. -/
def char_at (str : List Char) (i : Nat) : Char := str.getD i '\x00'

/-- The variables of `clean_spaces`. -/
structure State where
  str_with_spaces : List Char
  insert_position : Nat
  check_position : Nat
deriving DecidableEq, Repr

/-- The first inner loop: `while (check_position < size && is_space(str[check_position]))
check_position += 1`. -/
def skip_spaces (str : List Char) : Nat → Nat → Nat
  | 0, check_position => check_position
  | bound + 1, check_position =>
    if check_position < str.length && is_space (char_at str check_position) then
      skip_spaces str bound (check_position + 1)
    else check_position

/-- The second inner loop: while the character at `check_position` is not a space, copy it to
`insert_position` and advance both positions. -/
def copy_non_spaces : Nat → State → State
  | 0, st => st
  | bound + 1, st =>
    if st.check_position < st.str_with_spaces.length &&
        !is_space (char_at st.str_with_spaces st.check_position) then
      copy_non_spaces bound
        { str_with_spaces := st.str_with_spaces.set st.insert_position
            (char_at st.str_with_spaces st.check_position),
          insert_position := st.insert_position + 1,
          check_position := st.check_position + 1 }
    else st

/-- The `if` that ends the body of the outer loop: when the string is not finished, copy the
character at `check_position` (a space) to `insert_position` and advance `insert_position`. -/
def keep_one_space (st : State) : State :=
  if st.check_position < st.str_with_spaces.length then
    { str_with_spaces := st.str_with_spaces.set st.insert_position
        (char_at st.str_with_spaces st.check_position),
      insert_position := st.insert_position + 1,
      check_position := st.check_position }
  else st

/-- The outer loop: `while (check_position < size)` skip the spaces, copy the non-spaces, keep
one space. -/
def outer_loop : Nat → State → State
  | 0, st => st
  | bound + 1, st =>
    if st.check_position < st.str_with_spaces.length then
      outer_loop bound
        (keep_one_space
          (copy_non_spaces st.str_with_spaces.length
            { str_with_spaces := st.str_with_spaces,
              insert_position := st.insert_position,
              check_position :=
                skip_spaces st.str_with_spaces st.str_with_spaces.length st.check_position }))
    else st

/-- `str.back()`; the string is not empty. -/
def back (str : List Char) : Char := str.getLastD '\x00'

/-- `str.resize(n)`: the first `n` characters, padded with `'\0'`. -/
def resize (str : List Char) (n : Nat) : List Char :=
  str.take n ++ List.replicate (n - str.length) '\x00'

/-- `clean_spaces(str_with_spaces)`: the outer loop from positions 0 and 0, then
`if (is_space(str.back())) insert_position -= 1; str.resize(insert_position)`.
Returns the string after the call. -/
def clean_spaces (str_with_spaces : List Char) : List Char :=
  let st := outer_loop str_with_spaces.length
    { str_with_spaces := str_with_spaces, insert_position := 0, check_position := 0 }
  let insert_position :=
    if is_space (back st.str_with_spaces) then (st.insert_position + 2 ^ 64 - 1) % 2 ^ 64
    else st.insert_position
  resize st.str_with_spaces insert_position

/-- The maximal runs of non-space characters of a string, in order, each with the first space
character that follows it, if any. -/
def runs : List Char → List (List Char × Option Char)
  | [] => []
  | c :: cs =>
    if is_space c then runs cs
    else
      match cs with
      | [] => [([c], none)]
      | d :: _ =>
        if is_space d then ([c], some d) :: runs cs
        else
          match runs cs with
          | [] => [([c], none)]
          | (w, sep) :: rs => (c :: w, sep) :: rs

/-- The runs one after the other, with the space that followed a run between it and the next
run, and nothing before the first or after the last run. -/
def join_runs : List (List Char × Option Char) → List Char
  | [] => []
  | [(w, _)] => w
  | (w, sep) :: r :: rs => w ++ sep.toList ++ join_runs (r :: rs)

/-- What the claim says `clean_spaces` produces: the maximal runs of non-space characters with
exactly one space character between consecutive runs. -/
def clean_spaces_spec (str : List Char) : List Char := join_runs (runs str)

/-- The runs one after the other, every run followed by the space that followed it. -/
def emit_runs : List (List Char × Option Char) → List Char
  | [] => []
  | (w, sep) :: rs => w ++ sep.toList ++ emit_runs rs

/-- What remains to be emitted for the part of the input that is not read yet. -/
def rest_output (t : List Char) : List Char := emit_runs (runs t)

/-- The space at the head of the part of the input that is not read yet, if it starts with a
space. -/
def pending_space : List Char → List Char
  | [] => []
  | d :: _ => if is_space d then [d] else []

/-- The invariant of the loops of `clean_spaces` on the input `s`, `out` being the output
written so far: the buffer keeps its size, starts with `out`, is the input from
`check_position` on, and its last character is the last character of the input. -/
def loop_invariant (s : List Char) (st : State) (out : List Char) : Prop :=
  st.str_with_spaces.length = s.length ∧ st.insert_position = out.length ∧
  st.str_with_spaces.take out.length = out ∧ st.check_position ≤ s.length ∧
  (∀ i, st.check_position ≤ i → st.str_with_spaces[i]? = s[i]?) ∧
  st.str_with_spaces[s.length - 1]? = s[s.length - 1]?

end Medium1

/-! ## `src/Medium2/main.cpp`: the chain of acquaintances

`peoples`, a `std::map<std::string, std::vector<std::string>>`, is the list of its entries;
`peoples.at(v)` is the lookup of `v`, which throws when `v` is not a key.  The maps `used` and
`parents` are read with `operator[]`, which yields `false` and the empty string for a key that
was never written: they are total functions.  The queue is the list of its elements, the front
first.  The two `while` loops are bounded by a number of iterations (fuel); a loop that needs
more returns `none`.
-/

namespace Medium2

/-- The exception of `searchAcquaintancesChain`: `std::out_of_range`, thrown by
`peoples.at(v)` when `v` is not a key of `peoples`. -/
inductive Error where
  | out_of_range : Error
deriving DecidableEq, Repr

/-- The variables of `searchAcquaintancesChain` that the loops change. -/
structure State where
  /-- The queue `q`, the front first. -/
  q : List String
  /-- The marks `used`. -/
  used : String → Bool
  /-- The map `parents`. -/
  parents : String → String
  /-- The flag `success`. -/
  success : Bool

/-- The call `peoples.at(v)`. -/
def peoples_at (peoples : List (String × List String)) (v : String) :
    Except Error (List String) :=
  match peoples.lookup v with
  | some acquaintances => .ok acquaintances
  | none => .error .out_of_range

/-- The `for` loop over the acquaintances of `v`, `tos` being the elements `peoples.at(v)[i]`
not looked at yet: an acquaintance not yet used is marked, pushed on the queue and given the
parent `v`; when it is `second` the queue is emptied, `success` is set and the loop is left. -/
def visit (second v : String) : List String → State → State
  | [], s => s
  | to_ :: tos, s =>
    if s.used to_ = false then
      if to_ = second then
        { q := [],
          used := fun x => if x = to_ then true else s.used x,
          parents := fun x => if x = to_ then v else s.parents x,
          success := true }
      else
        visit second v tos
          { q := s.q ++ [to_],
            used := fun x => if x = to_ then true else s.used x,
            parents := fun x => if x = to_ then v else s.parents x,
            success := s.success }
    else visit second v tos s

/-- The loop `while (!q.empty())` with at most `fuel` evaluations of its condition left: the
front `v` is popped and its acquaintances are visited; `peoples.at(v)` throws when `v` is not
a key. -/
def search_loop (peoples : List (String × List String)) (second : String) :
    Nat → State → Option (Except Error State)
  | 0, _ => none
  | fuel + 1, s =>
    match s.q with
    | [] => some (.ok s)
    | v :: rest =>
      match peoples_at peoples v with
      | .error e => some (.error e)
      | .ok acquaintances =>
        search_loop peoples second fuel
          (visit second v acquaintances
            { q := rest, used := s.used, parents := s.parents, success := s.success })

/-- The loop `while (parents[result.back()] != result.back())` with at most `fuel`
evaluations of its condition left.  The vector `result` is kept as the list of its elements
from the back to the front, so that `push_back` puts the new element at the head. -/
def restore (parents : String → String) : Nat → List String → Option (List String)
  | 0, _ => none
  | _ + 1, [] => some []
  | fuel + 1, back :: result =>
    if parents back ≠ back then restore parents fuel (parents back :: back :: result)
    else some (back :: result)

/-- A number of iterations that suffices for each of the two loops: two more than the number
of entries of the lists of acquaintances. -/
def iterations (peoples : List (String × List String)) : Nat :=
  (peoples.map (fun people => people.2.length)).sum + 2

/-- The function `searchAcquaintancesChain(peoples, first, second)`: breadth-first search
from `first`, then the chain is read from `second` back to `first` along `parents` and
reversed.  The loop that writes `used[key] = false` for every key leaves `used` the function
that is `false` everywhere, so that `used` starts as the function that is `true` at `first`
only.  The list of `restore` is the vector from its back to its front, which is the reversed
vector.  The outcome is `none` when a loop needs more than `iterations peoples` rounds. -/
def searchAcquaintancesChain (peoples : List (String × List String))
    (first second : String) : Option (Except Error (List String)) :=
  match search_loop peoples second (iterations peoples)
      { q := [first],
        used := fun x => if x = first then true else false,
        parents := fun x => if x = first then first else "",
        success := false } with
  | none => none
  | some (.error e) => some (.error e)
  | some (.ok s) =>
    if s.success = false then some (.ok [])
    else
      match restore s.parents (iterations peoples) [second] with
      | none => none
      | some result => some (.ok result)

/-- The list `peoples[p]` exists and holds `q`: `q` is an acquaintance of `p`. -/
def acquainted (peoples : List (String × List String)) (p q : String) : Bool :=
  match peoples.lookup p with
  | some acquaintances => decide (q ∈ acquaintances)
  | none => false

/-- A chain of acquaintances from `first` to `second`: a non-empty list that starts with
`first`, ends with `second`, and in which every element is followed by one of its
acquaintances. -/
def is_chain (peoples : List (String × List String)) (first second : String)
    (chain : List String) : Prop :=
  chain.head? = some first ∧ chain.getLast? = some second ∧
    chain.Chain' (fun p q => acquainted peoples p q = true)

/-- There is a sequence of `n` acquaintance steps from `first` to the last argument. -/
inductive Reach (peoples : List (String × List String)) (first : String) :
    Nat → String → Prop where
  | zero : Reach peoples first 0 first
  | step {n : Nat} {x y : String} :
    Reach peoples first n x → acquainted peoples x y = true → Reach peoples first (n + 1) y

/-- All the entries of the lists of acquaintances, in order. -/
def listed (peoples : List (String × List String)) : List String :=
  (peoples.map (fun people => people.2)).flatten

/-- The invariant of `parents` with respect to a numbering `dist` of the used people: `first`
is used, has number 0 and is its own parent; every other used person is an acquaintance of its
parent, which is used and has the number one less. -/
structure Par (peoples : List (String × List String)) (first : String) (dist : String → Nat)
    (used : String → Bool) (parents : String → String) : Prop where
  used_first : used first = true
  dist_first : dist first = 0
  parents_first : parents first = first
  par : ∀ x, used x = true → x ≠ first →
    used (parents x) = true ∧ acquainted peoples (parents x) x = true ∧
      dist x = dist (parents x) + 1

/-- The invariant of the breadth-first search, `pending` being the people whose acquaintances
are still to be looked at and `d` the number of the person looked at: the acquaintances of a
used person that is not pending are used and numbered at most one more; the pending people
are used and numbered at least `d`; every used person is numbered at most `d + 1`. -/
structure Inv (peoples : List (String × List String)) (first : String) (dist : String → Nat)
    (used : String → Bool) (parents : String → String) (pending : String → Prop) (d : Nat)
    extends Par peoples first dist used parents : Prop where
  done : ∀ x, used x = true → ¬ pending x → ∀ y, acquainted peoples x y = true →
    used y = true ∧ dist y ≤ dist x + 1
  pend : ∀ x, pending x → used x = true ∧ d ≤ dist x
  upper : ∀ x, used x = true → dist x ≤ d + 1

end Medium2


/-! ## Theorems about the bit trie -/

namespace BitTrie

/-! ### Elementary facts about the node methods -/

@[simp] theorem is_null_nullptr : Node.is_null .nullptr = true := rfl

@[simp] theorem is_null_node (c0 c1 : Node) (f : Bool) (m : Nat) :
    Node.is_null (.node c0 c1 f m) = false := rfl

theorem eq_nullptr_of_is_null {n : Node} (h : n.is_null = true) : n = .nullptr := by
  cases n with
  | nullptr => rfl
  | node c0 c1 f m => simp at h

@[simp] theorem push_nullptr (W : Nat) : Node.push_inconsistency W .nullptr = .nullptr := rfl

theorem push_node (W : Nat) (c0 c1 : Node) (f : Bool) (m : Nat) :
    Node.push_inconsistency W (.node c0 c1 f m) =
      if m = 0 then .node c0 c1 f m
      else if (m >>> (W - 1)) &&& 1 = 1 then
        .node (Node.xor_into_mask W (m <<< 1) c1) (Node.xor_into_mask W (m <<< 1) c0) f 0
      else .node (Node.xor_into_mask W (m <<< 1) c0) (Node.xor_into_mask W (m <<< 1) c1) f 0 := by
  show (if m = 0 then Node.node c0 c1 f m else _) = _
  by_cases hm : m = 0
  · rw [if_pos hm, if_pos hm]
  · by_cases hb : (m >>> (W - 1)) &&& 1 = 1
    · rw [if_neg hm, if_neg hm, if_pos hb, if_pos hb]; rfl
    · rw [if_neg hm, if_neg hm, if_neg hb, if_neg hb]

@[simp] theorem push_is_null (W : Nat) (n : Node) :
    (Node.push_inconsistency W n).is_null = n.is_null := by
  cases n with
  | nullptr => rfl
  | node c0 c1 f m =>
    rw [push_node]
    split_ifs <;> rfl

@[simp] theorem push_mask (W : Nat) (n : Node) : (Node.push_inconsistency W n).mask = 0 := by
  cases n with
  | nullptr => rfl
  | node c0 c1 f m =>
    rw [push_node]
    split_ifs with h1 h2
    · simpa [Node.mask] using h1
    · rfl
    · rfl

@[simp] theorem push_get_fullness (W : Nat) (n : Node) :
    (Node.push_inconsistency W n).get_fullness = n.get_fullness := by
  cases n with
  | nullptr => rfl
  | node c0 c1 f m =>
    rw [push_node]
    split_ifs <;> rfl

theorem push_of_mask_zero (W : Nat) {n : Node} (h : n.mask = 0) :
    Node.push_inconsistency W n = n := by
  cases n with
  | nullptr => rfl
  | node c0 c1 f m =>
    simp only [Node.mask] at h
    rw [push_node, if_pos h]

@[simp] theorem push_idem (W : Nat) (n : Node) :
    Node.push_inconsistency W (Node.push_inconsistency W n) = Node.push_inconsistency W n :=
  push_of_mask_zero W (push_mask W n)

@[simp] theorem child_node_zero (c0 c1 : Node) (f : Bool) (m : Nat) :
    (Node.node c0 c1 f m).child 0 = c0 := rfl

@[simp] theorem child_node_one (c0 c1 : Node) (f : Bool) (m : Nat) :
    (Node.node c0 c1 f m).child 1 = c1 := rfl

@[simp] theorem set_child_node_zero (c0 c1 c : Node) (f : Bool) (m : Nat) :
    (Node.node c0 c1 f m).set_child 0 c = .node c c1 f m := rfl

@[simp] theorem set_child_node_one (c0 c1 c : Node) (f : Bool) (m : Nat) :
    (Node.node c0 c1 f m).set_child 1 c = .node c0 c f m := rfl

@[simp] theorem set_child_child (n : Node) (index : Nat) :
    n.set_child index (n.child index) = n := by
  cases n with
  | nullptr => rfl
  | node c0 c1 f m =>
    by_cases h : index = 0 <;> simp [Node.set_child, Node.child, h]

@[simp] theorem set_child_get_fullness (n : Node) (index : Nat) (c : Node) :
    (n.set_child index c).get_fullness = n.get_fullness := by
  cases n with
  | nullptr => rfl
  | node c0 c1 f m =>
    by_cases h : index = 0 <;> simp [Node.set_child, Node.get_fullness, h]

@[simp] theorem set_child_mask (n : Node) (index : Nat) (c : Node) :
    (n.set_child index c).mask = n.mask := by
  cases n with
  | nullptr => rfl
  | node c0 c1 f m =>
    by_cases h : index = 0 <;> simp [Node.set_child, Node.mask, h]

@[simp] theorem set_child_is_null (n : Node) (index : Nat) (c : Node) :
    (n.set_child index c).is_null = n.is_null := by
  cases n with
  | nullptr => rfl
  | node c0 c1 f m =>
    by_cases h : index = 0 <;> simp [Node.set_child, h]

/-- For a valid index `get_child` does not throw: it pushes the child, if any. -/
theorem get_child_eq (W : Nat) (this : Node) {index : Nat} (h : index ≤ 1) :
    Node.get_child W this index =
      .ok (this.set_child index ((this.child index).push_inconsistency W),
           (this.child index).push_inconsistency W) := by
  unfold Node.get_child
  rw [if_neg (by omega)]
  cases hc : (this.child index).is_null
  · simp
  · have hn : this.child index = .nullptr := eq_nullptr_of_is_null hc
    simp only [Bool.not_true, Bool.false_eq_true, if_false, hn, push_nullptr]
    rw [← hn, set_child_child]

/-- For a valid index `get_or_create_child` does not throw: it creates or pushes the child. -/
theorem get_or_create_child_eq (W : Nat) (this : Node) {index : Nat} (h : index ≤ 1) :
    Node.get_or_create_child W this index =
      .ok (this.set_child index
            (if (this.child index).is_null then Node.fresh
             else (this.child index).push_inconsistency W),
           if (this.child index).is_null then Node.fresh
           else (this.child index).push_inconsistency W) := by
  unfold Node.get_or_create_child
  rw [if_neg (by omega)]
  cases hc : (this.child index).is_null <;> simp

/-! ### Bit arithmetic -/

theorem shiftLeft_one_xor (a b : Nat) : (a ^^^ b) <<< 1 = (a <<< 1) ^^^ (b <<< 1) := by
  apply Nat.eq_of_testBit_eq
  intro i
  simp only [Nat.testBit_shiftLeft, Nat.testBit_xor]
  by_cases h : i ≥ 1 <;> simp [h]

theorem shiftLeft_one_shiftRight (x : Nat) {k : Nat} (hk : 1 ≤ k) :
    (x <<< 1) >>> k = x >>> (k - 1) := by
  apply Nat.eq_of_testBit_eq
  intro i
  simp only [Nat.testBit_shiftRight, Nat.testBit_shiftLeft]
  have h1 : k + i ≥ 1 := by omega
  have h2 : k + i - 1 = k - 1 + i := by omega
  simp [h1, h2]

theorem and_one_eq_one_iff_testBit (m k : Nat) : ((m >>> k) &&& 1 = 1) ↔ m.testBit k = true := by
  rw [Nat.testBit_to_div_mod, Nat.and_one_is_mod, Nat.shiftRight_eq_div_pow]
  simp

/-! ### The stored set and the pending masks -/

@[simp] theorem lookup_nullptr (W h acc v : Nat) : lookup W h .nullptr acc v = false := by
  cases h <;> rfl

@[simp] theorem lookup_zero_node (W : Nat) (c0 c1 : Node) (f : Bool) (m acc v : Nat) :
    lookup W 0 (.node c0 c1 f m) acc v = f := rfl

theorem lookup_succ_node (W h : Nat) (c0 c1 : Node) (f : Bool) (m acc v : Nat) :
    lookup W (h + 1) (.node c0 c1 f m) acc v =
      if (v.testBit h != (acc ^^^ m).testBit (W - 1)) then
        lookup W h c1 ((acc ^^^ m) <<< 1) v
      else lookup W h c0 ((acc ^^^ m) <<< 1) v := rfl

/-- The lookup below a node of height `h` reads the bits below `W` of the pending mask and the
bits below `h` of the value only. -/
theorem lookup_congr (W : Nat) : ∀ (h : Nat) (n : Node) (acc acc' v v' : Nat), h ≤ W →
    (∀ i < W, acc.testBit i = acc'.testBit i) → (∀ i < h, v.testBit i = v'.testBit i) →
    lookup W h n acc v = lookup W h n acc' v' := by
  intro h
  induction h with
  | zero =>
    intro n acc acc' v v' _ _ _
    cases n <;> rfl
  | succ h ih =>
    intro n acc acc' v v' hW hacc hv
    cases n with
    | nullptr => rfl
    | node c0 c1 f m =>
      have e1 : (acc ^^^ m).testBit (W - 1) = (acc' ^^^ m).testBit (W - 1) := by
        rw [Nat.testBit_xor, Nat.testBit_xor, hacc (W - 1) (by omega)]
      have e2 : v.testBit h = v'.testBit h := hv h (by omega)
      have e3 : ∀ i < W, ((acc ^^^ m) <<< 1).testBit i = ((acc' ^^^ m) <<< 1).testBit i := by
        intro i hi
        simp only [Nat.testBit_shiftLeft, Nat.testBit_xor]
        rw [hacc (i - 1) (by omega)]
      have e4 : ∀ i < h, v.testBit i = v'.testBit i := fun i hi => hv i (by omega)
      rw [lookup_succ_node, lookup_succ_node, e1, e2,
        ih c1 _ _ v v' (by omega) e3 e4, ih c0 _ _ v v' (by omega) e3 e4]

/-- A mask pending from above acts on the stored set like a xor of the values with the bits of
the mask that belong to the levels below the node. -/
theorem lookup_xor_acc (W : Nat) : ∀ (h : Nat) (n : Node) (acc x v : Nat), h ≤ W →
    lookup W h n (acc ^^^ x) v = lookup W h n acc (v ^^^ (x >>> (W - h))) := by
  intro h
  induction h with
  | zero =>
    intro n acc x v _
    cases n <;> rfl
  | succ h ih =>
    intro n acc x v hW
    cases n with
    | nullptr => rfl
    | node c0 c1 f m =>
      have e1 : (v ^^^ (x >>> (W - (h + 1)))).testBit h = (v.testBit h ^^ x.testBit (W - 1)) := by
        rw [Nat.testBit_xor, Nat.testBit_shiftRight]
        congr 2
        omega
      have e2 : ((acc ^^^ x ^^^ m) <<< 1) = ((acc ^^^ m) <<< 1) ^^^ (x <<< 1) := by
        rw [← shiftLeft_one_xor]
        congr 1
        rw [Nat.xor_assoc, Nat.xor_comm x m, ← Nat.xor_assoc]
      have e3 : (x <<< 1) >>> (W - h) = x >>> (W - (h + 1)) := by
        rw [shiftLeft_one_shiftRight x (by omega)]
        congr 1
      rw [lookup_succ_node, lookup_succ_node, e1, e2, ih c1 _ _ v (by omega),
        ih c0 _ _ v (by omega), e3]
      simp only [Nat.testBit_xor]
      cases v.testBit h <;> cases x.testBit (W - 1) <;> cases acc.testBit (W - 1) <;>
        cases m.testBit (W - 1) <;> rfl

/-- Merging `x` into the mask of a node is the same as `x` pending from above. -/
theorem lookup_xor_into_mask (W h : Nat) (n : Node) (x acc v : Nat) (hW : h ≤ W) :
    lookup W h (Node.xor_into_mask W x n) acc v = lookup W h n (acc ^^^ x) v := by
  cases n with
  | nullptr => simp [Node.xor_into_mask]
  | node c0 c1 f m =>
    cases h with
    | zero => rfl
    | succ h =>
      have hb : ∀ i < W, (acc ^^^ (m ^^^ x) % 2 ^ W).testBit i = (acc ^^^ x ^^^ m).testBit i := by
        intro i hi
        simp only [Nat.testBit_xor, Nat.testBit_mod_two_pow, hi, decide_True, Bool.true_and]
        cases acc.testBit i <;> cases x.testBit i <;> cases m.testBit i <;> rfl
      have e1 := hb (W - 1) (by omega)
      have e3 : ∀ i < W, ((acc ^^^ (m ^^^ x) % 2 ^ W) <<< 1).testBit i =
          ((acc ^^^ x ^^^ m) <<< 1).testBit i := by
        intro i hi
        simp only [Nat.testBit_shiftLeft]
        rw [hb (i - 1) (by omega)]
      simp only [Node.xor_into_mask]
      rw [lookup_succ_node, lookup_succ_node, e1,
        lookup_congr W h c1 _ _ v v (by omega) e3 (fun _ _ => rfl),
        lookup_congr W h c0 _ _ v v (by omega) e3 (fun _ _ => rfl)]

/-- Pushing the pending mask of a node does not change the set stored below it. -/
theorem lookup_push (W h : Nat) (n : Node) (acc v : Nat) (hW : h ≤ W) :
    lookup W h (Node.push_inconsistency W n) acc v = lookup W h n acc v := by
  cases n with
  | nullptr => rfl
  | node c0 c1 f m =>
    rw [push_node]
    by_cases hm : m = 0
    · rw [if_pos hm]
    · rw [if_neg hm]
      cases h with
      | zero => split_ifs <;> rfl
      | succ h =>
        have e2 : ((acc ^^^ 0) <<< 1) ^^^ (m <<< 1) = (acc ^^^ m) <<< 1 := by
          rw [Nat.xor_zero, shiftLeft_one_xor]
        by_cases hb : (m >>> (W - 1)) &&& 1 = 1
        · rw [if_pos hb, lookup_succ_node, lookup_succ_node,
            lookup_xor_into_mask W h c0 _ _ v (by omega),
            lookup_xor_into_mask W h c1 _ _ v (by omega), e2]
          have hb1 : m.testBit (W - 1) = true := (and_one_eq_one_iff_testBit m (W - 1)).1 hb
          simp only [Nat.testBit_xor, hb1, Nat.xor_zero]
          cases v.testBit h <;> cases acc.testBit (W - 1) <;> simp
        · rw [if_neg hb, lookup_succ_node, lookup_succ_node,
            lookup_xor_into_mask W h c0 _ _ v (by omega),
            lookup_xor_into_mask W h c1 _ _ v (by omega), e2]
          have hb1 : m.testBit (W - 1) = false := by
            have := (and_one_eq_one_iff_testBit m (W - 1)).not.1 hb
            simpa using this
          simp only [Nat.testBit_xor, hb1, Nat.xor_zero]
          cases v.testBit h <;> cases acc.testBit (W - 1) <;> simp


/-! ### Preservation of the invariant by the node methods -/

@[simp] theorem well_formed_nullptr (W h : Nat) : well_formed W h .nullptr = true := by
  cases h <;> rfl

theorem well_formed_zero_node (W : Nat) (c0 c1 : Node) (f : Bool) (m : Nat) :
    well_formed W 0 (.node c0 c1 f m) = true ↔
      c0 = .nullptr ∧ c1 = .nullptr ∧ m < 2 ^ W := by
  simp only [well_formed, Bool.and_eq_true, decide_eq_true_eq]
  constructor
  · rintro ⟨⟨h0, h1⟩, hm⟩
    exact ⟨eq_nullptr_of_is_null h0, eq_nullptr_of_is_null h1, hm⟩
  · rintro ⟨h0, h1, hm⟩
    subst h0 h1
    exact ⟨⟨rfl, rfl⟩, hm⟩

theorem well_formed_succ_node (W h : Nat) (c0 c1 : Node) (f : Bool) (m : Nat) :
    well_formed W (h + 1) (.node c0 c1 f m) = true ↔
      f = (!c0.is_null && !c1.is_null && c0.get_fullness && c1.get_fullness) ∧
        m < 2 ^ W ∧ well_formed W h c0 = true ∧ well_formed W h c1 = true := by
  simp only [well_formed, Bool.and_eq_true, decide_eq_true_eq, beq_iff_eq]
  tauto

@[simp] theorem xor_into_mask_is_null (W x : Nat) (n : Node) :
    (Node.xor_into_mask W x n).is_null = n.is_null := by
  cases n <;> rfl

@[simp] theorem xor_into_mask_get_fullness (W x : Nat) (n : Node) :
    (Node.xor_into_mask W x n).get_fullness = n.get_fullness := by
  cases n <;> rfl

theorem well_formed_xor_into_mask (W h x : Nat) (n : Node) (hn : well_formed W h n = true) :
    well_formed W h (Node.xor_into_mask W x n) = true := by
  have hlt : (n.mask ^^^ x) % 2 ^ W < 2 ^ W := Nat.mod_lt _ (Nat.two_pow_pos W)
  cases n with
  | nullptr => simp [Node.xor_into_mask]
  | node c0 c1 f m =>
    cases h with
    | zero =>
      rw [well_formed_zero_node] at hn
      simp only [Node.xor_into_mask]
      rw [well_formed_zero_node]
      exact ⟨hn.1, hn.2.1, hlt⟩
    | succ h =>
      rw [well_formed_succ_node] at hn
      simp only [Node.xor_into_mask]
      rw [well_formed_succ_node]
      exact ⟨hn.1, hlt, hn.2.2.1, hn.2.2.2⟩

theorem well_formed_push (W h : Nat) (n : Node) (hn : well_formed W h n = true) :
    well_formed W h (Node.push_inconsistency W n) = true := by
  cases n with
  | nullptr => simp
  | node c0 c1 f m =>
    rw [push_node]
    by_cases hm : m = 0
    · rw [if_pos hm]; exact hn
    · rw [if_neg hm]
      cases h with
      | zero =>
        rw [well_formed_zero_node] at hn
        obtain ⟨h0, h1, -⟩ := hn
        subst h0 h1
        split_ifs <;>
          exact (well_formed_zero_node _ _ _ _ _).2 ⟨rfl, rfl, Nat.two_pow_pos W⟩
      | succ h =>
        rw [well_formed_succ_node] at hn
        obtain ⟨hf, -, h0, h1⟩ := hn
        split_ifs
        · rw [well_formed_succ_node]
          refine ⟨?_, Nat.two_pow_pos W, well_formed_xor_into_mask W h _ c1 h1,
            well_formed_xor_into_mask W h _ c0 h0⟩
          rw [hf]
          simp only [xor_into_mask_is_null, xor_into_mask_get_fullness]
          cases c0.is_null <;> cases c1.is_null <;> cases c0.get_fullness <;>
            cases c1.get_fullness <;> rfl
        · rw [well_formed_succ_node]
          refine ⟨?_, Nat.two_pow_pos W, well_formed_xor_into_mask W h _ c0 h0,
            well_formed_xor_into_mask W h _ c1 h1⟩
          rw [hf]
          simp only [xor_into_mask_is_null, xor_into_mask_get_fullness]

theorem well_formed_fresh (W h : Nat) : well_formed W h Node.fresh = true := by
  cases h with
  | zero => exact (well_formed_zero_node _ _ _ _ _).2 ⟨rfl, rfl, Nat.two_pow_pos W⟩
  | succ h =>
    exact (well_formed_succ_node _ _ _ _ _ _).2 ⟨rfl, Nat.two_pow_pos W, by simp, by simp⟩

theorem lookup_fresh (W h acc v : Nat) : lookup W h Node.fresh acc v = false := by
  cases h with
  | zero => rfl
  | succ h => simp [Node.fresh, lookup_succ_node]

/-! ### The current node and its ancestors -/

theorem bit_index_eq (v h : Nat) : (v >>> h) &&& 1 = if v.testBit h then 1 else 0 := by
  by_cases hb : v.testBit h = true
  · rw [if_pos hb]; exact (and_one_eq_one_iff_testBit v h).2 hb
  · rw [if_neg hb]
    have h1 : ¬ ((v >>> h) &&& 1 = 1) := fun e => hb ((and_one_eq_one_iff_testBit v h).1 e)
    have h2 : (v >>> h) &&& 1 < 2 := by
      rw [Nat.and_one_is_mod]; exact Nat.mod_lt _ (by decide)
    omega

theorem bit_index_le (v h : Nat) : (v >>> h) &&& 1 ≤ 1 := by
  rw [bit_index_eq]; split_ifs <;> simp

theorem path_ok_nil (W v h : Nat) (cf : Bool) : path_ok W v h cf [] = true ↔ h = W := by
  simp [path_ok]

theorem path_ok_cons (W v h : Nat) (cf : Bool) (p : Node) (i : Nat) (rest : Path) :
    path_ok W v h cf ((p, i) :: rest) = true ↔
      p.is_null = false ∧ p.mask = 0 ∧ i = ((v >>> h) &&& 1) ∧
      well_formed W h (p.child (1 - i)) = true ∧
      p.get_fullness =
        (!(p.child (1 - i)).is_null && (p.child (1 - i)).get_fullness && cf) ∧
      path_ok W v (h + 1) p.get_fullness rest = true := by
  simp only [path_ok, Bool.and_eq_true, beq_iff_eq, Bool.not_eq_true']
  tauto

theorem path_ok_height (W v : Nat) : ∀ (path : Path) (h : Nat) (cf : Bool),
    path_ok W v h cf path = true → h + path.length = W := by
  intro path
  induction path with
  | nil =>
    intro h cf hp
    simpa using (path_ok_nil W v h cf).1 hp
  | cons a rest ih =>
    intro h cf hp
    obtain ⟨p, i⟩ := a
    have := ih (h + 1) p.get_fullness ((path_ok_cons W v h cf p i rest).1 hp).2.2.2.2.2
    simp only [List.length_cons]
    omega

/-- One level of lookup below a node without pending mask. -/
theorem lookup_succ_mask_zero (W h : Nat) (c0 c1 : Node) (f : Bool) (u : Nat) :
    lookup W (h + 1) (.node c0 c1 f 0) 0 u =
      if u.testBit h then lookup W h c1 0 u else lookup W h c0 0 u := by
  rw [lookup_succ_node]
  simp

/-- A value that follows the path to the current node is stored in the trie iff it is stored
below the current node. -/
theorem contains_rebuild_on (W v : Nat) : ∀ (path : Path) (h : Nat) (cf : Bool) (cur : Node)
    (u : Nat), path_ok W v h cf path = true →
    (∀ i, h ≤ i → i < W → u.testBit i = v.testBit i) →
    contains W (rebuild cur path) u = lookup W h cur 0 u := by
  intro path
  induction path with
  | nil =>
    intro h cf cur u hp _
    rw [(path_ok_nil W v h cf).1 hp]
    rfl
  | cons a rest ih =>
    intro h cf cur u hp hu
    obtain ⟨p, i⟩ := a
    have hlen := path_ok_height W v _ h cf hp
    simp only [List.length_cons] at hlen
    obtain ⟨hnull, hmask, hi, -, -, hrest⟩ := (path_ok_cons W v h cf p i rest).1 hp
    have hb : u.testBit h = v.testBit h := hu h (le_refl h) (by omega)
    rw [rebuild, ih (h + 1) p.get_fullness (p.set_child i cur) u hrest
      (fun j hj hjW => hu j (by omega) hjW)]
    cases p with
    | nullptr => simp at hnull
    | node c0 c1 f m =>
      simp only [Node.mask] at hmask
      subst hmask
      rw [bit_index_eq] at hi
      by_cases hv : v.testBit h = true
      · rw [if_pos hv] at hi
        subst hi
        rw [set_child_node_one, lookup_succ_mask_zero, hb, if_pos hv]
      · rw [if_neg hv] at hi
        subst hi
        rw [set_child_node_zero, lookup_succ_mask_zero, hb, if_neg hv]

/-- A value that leaves the path to the current node above it does not see the current node. -/
theorem contains_rebuild_off (W v : Nat) : ∀ (path : Path) (h : Nat) (cf : Bool)
    (cur cur' : Node) (u : Nat), path_ok W v h cf path = true →
    (∃ i, h ≤ i ∧ i < W ∧ u.testBit i ≠ v.testBit i) →
    contains W (rebuild cur path) u = contains W (rebuild cur' path) u := by
  intro path
  induction path with
  | nil =>
    intro h cf cur cur' u hp hu
    obtain ⟨i, hi1, hi2, -⟩ := hu
    have := (path_ok_nil W v h cf).1 hp
    omega
  | cons a rest ih =>
    intro h cf cur cur' u hp hu
    obtain ⟨p, i⟩ := a
    obtain ⟨hnull, hmask, hi, -, -, hrest⟩ := (path_ok_cons W v h cf p i rest).1 hp
    by_cases hagree : ∀ j, h + 1 ≤ j → j < W → u.testBit j = v.testBit j
    · have hb : u.testBit h ≠ v.testBit h := by
        obtain ⟨j, hj1, hj2, hj3⟩ := hu
        by_cases hjh : j = h
        · subst hjh; exact hj3
        · exact absurd (hagree j (by omega) hj2) hj3
      rw [rebuild, rebuild, contains_rebuild_on W v rest (h + 1) _ _ u hrest hagree,
        contains_rebuild_on W v rest (h + 1) _ _ u hrest hagree]
      cases p with
      | nullptr => simp at hnull
      | node c0 c1 f m =>
        simp only [Node.mask] at hmask
        subst hmask
        rw [bit_index_eq] at hi
        by_cases hv : v.testBit h = true
        · rw [if_pos hv] at hi
          subst hi
          have hu0 : u.testBit h = false := by
            cases hx : u.testBit h
            · rfl
            · exact absurd (hx.trans hv.symm) hb
          rw [set_child_node_one, set_child_node_one, lookup_succ_mask_zero,
            lookup_succ_mask_zero, hu0]
          simp
        · rw [if_neg hv] at hi
          subst hi
          have hu1 : u.testBit h = true := by
            cases hx : u.testBit h
            · simp only [Bool.not_eq_true] at hv
              exact absurd (hx.trans hv.symm) hb
            · rfl
          rw [set_child_node_zero, set_child_node_zero, lookup_succ_mask_zero,
            lookup_succ_mask_zero, hu1]
          simp
    · push_neg at hagree
      obtain ⟨j, hj1, hj2, hj3⟩ := hagree
      rw [rebuild, rebuild]
      exact ih (h + 1) p.get_fullness _ _ u hrest ⟨j, hj1, hj2, hj3⟩

@[simp] theorem set_is_full_is_null (n : Node) (b : Bool) :
    (n.set_is_full b).is_null = n.is_null := by
  cases n <;> rfl

@[simp] theorem set_is_full_mask (n : Node) (b : Bool) : (n.set_is_full b).mask = n.mask := by
  cases n <;> rfl

theorem set_is_full_get_fullness {n : Node} (b : Bool) (hn : n.is_null = false) :
    (n.set_is_full b).get_fullness = b := by
  cases n with
  | nullptr => simp at hn
  | node c0 c1 f m => rfl

theorem lookup_succ_set_is_full (W h : Nat) (n : Node) (b : Bool) (acc u : Nat) :
    lookup W (h + 1) (n.set_is_full b) acc u = lookup W (h + 1) n acc u := by
  cases n <;> rfl

@[simp] theorem set_child_set_child (n : Node) (index : Nat) (c c' : Node) :
    (n.set_child index c).set_child index c' = n.set_child index c' := by
  cases n with
  | nullptr => rfl
  | node c0 c1 f m =>
    by_cases h : index = 0 <;> simp [Node.set_child, h]

theorem child_set_child_same {n : Node} (hn : n.is_null = false) (index : Nat) (c : Node) :
    (n.set_child index c).child index = c := by
  cases n with
  | nullptr => simp at hn
  | node c0 c1 f m =>
    by_cases h : index = 0 <;> simp [Node.set_child, Node.child, h]

theorem child_set_child_other (n : Node) {index : Nat} (hi : index ≤ 1) (c : Node) :
    (n.set_child index c).child (1 - index) = n.child (1 - index) := by
  cases n with
  | nullptr => rfl
  | node c0 c1 f m =>
    interval_cases index <;> rfl

/-- The flag of an inner node does not matter for the stored set. -/
theorem contains_rebuild_set_is_full (W v : Nat) (rest : Path) (h : Nat) (cf : Bool)
    (n : Node) (b : Bool) (u : Nat) (hp : path_ok W v (h + 1) cf rest = true) :
    contains W (rebuild (n.set_is_full b) rest) u = contains W (rebuild n rest) u := by
  by_cases hagree : ∀ j, h + 1 ≤ j → j < W → u.testBit j = v.testBit j
  · rw [contains_rebuild_on W v rest (h + 1) cf _ u hp hagree,
      contains_rebuild_on W v rest (h + 1) cf _ u hp hagree, lookup_succ_set_is_full]
  · push_neg at hagree
    exact contains_rebuild_off W v rest (h + 1) cf _ _ u hp hagree

/-- The flag that `set_fullness` computes for a parent makes the parent well formed. -/
theorem well_formed_parent (W h : Nat) (p cur : Node) (i : Nat) (g : Bool)
    (hp : p.is_null = false) (hm : p.mask = 0) (hi : i ≤ 1)
    (hs : well_formed W h (p.child (1 - i)) = true) (hc : well_formed W h cur = true)
    (hcn : cur.is_null = false)
    (hg : g = (!(p.child (1 - i)).is_null && (p.child (1 - i)).get_fullness &&
      cur.get_fullness)) :
    well_formed W (h + 1) ((p.set_child i cur).set_is_full g) = true := by
  cases p with
  | nullptr => simp at hp
  | node c0 c1 f m =>
    simp only [Node.mask] at hm
    subst hm
    interval_cases i
    · simp only [set_child_node_zero, Node.set_is_full]
      rw [well_formed_succ_node]
      refine ⟨?_, Nat.two_pow_pos W, hc, hs⟩
      rw [hg, hcn]
      simp only [Nat.sub_zero, child_node_one]
      cases c1.is_null <;> cases c1.get_fullness <;> cases cur.get_fullness <;> rfl
    · simp only [set_child_node_one, Node.set_is_full]
      rw [well_formed_succ_node]
      refine ⟨?_, Nat.two_pow_pos W, hs, hc⟩
      rw [hg, hcn]
      simp only [Nat.sub_self, child_node_zero]
      cases c0.is_null <;> cases c0.get_fullness <;> cases cur.get_fullness <;> rfl

theorem set_is_full_self (n : Node) : n.set_is_full n.get_fullness = n := by
  cases n <;> rfl

/-- Putting a well formed current node back below ancestors that agree with its flag gives a
trie that satisfies the invariant. -/
theorem invariant_rebuild (W v : Nat) : ∀ (path : Path) (h : Nat) (cur : Node),
    well_formed W h cur = true → cur.is_null = false → cur.mask = 0 →
    path_ok W v h cur.get_fullness path = true →
    invariant W (rebuild cur path) = true := by
  intro path
  induction path with
  | nil =>
    intro h cur hw hn hm hp
    have hh := (path_ok_nil W v h _).1 hp
    subst hh
    simp [invariant, rebuild, hw, hn, hm]
  | cons a rest ih =>
    intro h cur hw hn hm hp
    obtain ⟨p, i⟩ := a
    obtain ⟨hnull, hmask, hi, hsib, hflag, hrest⟩ := (path_ok_cons W v h _ p i rest).1 hp
    have hi1 : i ≤ 1 := hi ▸ bit_index_le v h
    have key := well_formed_parent W h p cur i p.get_fullness hnull hmask hi1 hsib hw hn hflag
    have e : (p.set_child i cur).set_is_full p.get_fullness = p.set_child i cur := by
      conv_lhs => rw [← set_child_get_fullness p i cur]
      exact set_is_full_self _
    rw [e] at key
    rw [rebuild]
    exact ih (h + 1) (p.set_child i cur) key (by simpa using hnull) (by simpa using hmask)
      (by simpa using hrest)

theorem set_fullness_cons (value : Bool) (this p : Node) (i : Nat) (rest : Path) :
    set_fullness value this ((p, i) :: rest) =
      if (p.set_child i (this.set_is_full value)).get_fullness !=
          (!((p.set_child i (this.set_is_full value)).child 0).is_null &&
            !((p.set_child i (this.set_is_full value)).child 1).is_null &&
            ((p.set_child i (this.set_is_full value)).child 0).get_fullness &&
            ((p.set_child i (this.set_is_full value)).child 1).get_fullness) then
        set_fullness
          (!((p.set_child i (this.set_is_full value)).child 0).is_null &&
            !((p.set_child i (this.set_is_full value)).child 1).is_null &&
            ((p.set_child i (this.set_is_full value)).child 0).get_fullness &&
            ((p.set_child i (this.set_is_full value)).child 1).get_fullness)
          (p.set_child i (this.set_is_full value)) rest
      else rebuild (p.set_child i (this.set_is_full value)) rest := rfl

/-- The fullness that `set_fullness` recomputes for the parent, in terms of the sibling. -/
theorem new_parent_fullness_eq (p c : Node) (i : Nat) (hp : p.is_null = false) (hi : i ≤ 1)
    (hc : c.is_null = false) :
    (!((p.set_child i c).child 0).is_null && !((p.set_child i c).child 1).is_null &&
      ((p.set_child i c).child 0).get_fullness && ((p.set_child i c).child 1).get_fullness) =
    (!(p.child (1 - i)).is_null && (p.child (1 - i)).get_fullness && c.get_fullness) := by
  cases p with
  | nullptr => simp at hp
  | node c0 c1 f m =>
    interval_cases i
    · simp only [set_child_node_zero, child_node_zero, child_node_one, hc, Nat.sub_zero]
      cases c1.is_null <;> cases c1.get_fullness <;> cases c.get_fullness <;> rfl
    · simp only [set_child_node_one, child_node_zero, child_node_one, hc, Nat.sub_self]
      cases c0.is_null <;> cases c0.get_fullness <;> cases c.get_fullness <;> rfl

/-- `set_fullness` re-establishes the invariant: called with a value that makes the current
node well formed, below ancestors that agreed with its old flag. -/
theorem invariant_set_fullness (W v : Nat) : ∀ (path : Path) (h : Nat) (cur : Node)
    (value : Bool), well_formed W h (cur.set_is_full value) = true → cur.is_null = false →
    cur.mask = 0 → path_ok W v h cur.get_fullness path = true →
    invariant W (set_fullness value cur path) = true := by
  intro path
  induction path with
  | nil =>
    intro h cur value hw hn hm hp
    have hh := (path_ok_nil W v h _).1 hp
    subst hh
    simp [invariant, set_fullness, hw, hn, hm]
  | cons a rest ih =>
    intro h cur value hw hn hm hp
    obtain ⟨p, i⟩ := a
    obtain ⟨hnull, hmask, hi, hsib, hflag, hrest⟩ := (path_ok_cons W v h _ p i rest).1 hp
    have hi1 : i ≤ 1 := hi ▸ bit_index_le v h
    have hcn : (cur.set_is_full value).is_null = false := by simpa using hn
    have hnew := new_parent_fullness_eq p (cur.set_is_full value) i hnull hi1 hcn
    rw [set_fullness_cons, hnew]
    have key := well_formed_parent W h p (cur.set_is_full value) i _ hnull hmask hi1 hsib hw
      hcn rfl
    split_ifs with hne
    · refine ih (h + 1) (p.set_child i (cur.set_is_full value)) _ key (by simpa using hnull)
        (by simpa using hmask) (by simpa using hrest)
    · have heq : p.get_fullness = (!(p.child (1 - i)).is_null &&
          (p.child (1 - i)).get_fullness && (cur.set_is_full value).get_fullness) := by
        simpa using hne
      rw [← heq] at key
      have e : (p.set_child i (cur.set_is_full value)).set_is_full p.get_fullness =
          p.set_child i (cur.set_is_full value) := by
        conv_lhs => rw [← set_child_get_fullness p i (cur.set_is_full value)]
        exact set_is_full_self _
      rw [e] at key
      exact invariant_rebuild W v rest (h + 1) _ key (by simpa using hnull)
        (by simpa using hmask) (by simpa using hrest)

/-- `set_fullness` changes the stored set only through the flag of the node it is called on. -/
theorem contains_set_fullness (W v : Nat) : ∀ (path : Path) (h : Nat) (cf : Bool) (cur : Node)
    (value : Bool) (u : Nat), path_ok W v h cf path = true →
    contains W (set_fullness value cur path) u =
      contains W (rebuild (cur.set_is_full value) path) u := by
  intro path
  induction path with
  | nil =>
    intro h cf cur value u _
    rfl
  | cons a rest ih =>
    intro h cf cur value u hp
    obtain ⟨p, i⟩ := a
    obtain ⟨-, -, -, -, -, hrest⟩ := (path_ok_cons W v h _ p i rest).1 hp
    rw [set_fullness_cons]
    split_ifs
    · rw [ih (h + 1) p.get_fullness _ _ u hrest,
        contains_rebuild_set_is_full W v rest h p.get_fullness _ _ u hrest]
      rfl
    · rfl

theorem descend_succ (W v k : Nat) (cur : Node) (path : Path) :
    descend W v (k + 1) cur path =
      descend W v k
        (if (cur.child ((v >>> k) &&& 1)).is_null then Node.fresh
         else (cur.child ((v >>> k) &&& 1)).push_inconsistency W)
        ((cur.set_child ((v >>> k) &&& 1)
          (if (cur.child ((v >>> k) &&& 1)).is_null then Node.fresh
           else (cur.child ((v >>> k) &&& 1)).push_inconsistency W), (v >>> k) &&& 1) :: path) := by
  simp only [descend, get_or_create_child_eq W cur (bit_index_le v k)]

/-- Replacing a child by a node that stores the same set does not change the set stored below
the parent. -/
theorem lookup_set_child (W k : Nat) (cur c : Node) (b : Nat)
    (hc : ∀ acc u, lookup W k c acc u = lookup W k (cur.child b) acc u) (acc u : Nat) :
    lookup W (k + 1) (cur.set_child b c) acc u = lookup W (k + 1) cur acc u := by
  cases cur with
  | nullptr => rfl
  | node c0 c1 f m =>
    by_cases hb : b = 0
    · subst hb
      simp only [set_child_node_zero, lookup_succ_node, child_node_zero] at hc ⊢
      rw [hc]
    · have e1 : (Node.node c0 c1 f m).set_child b c = .node c0 c f m := by
        simp [Node.set_child, hb]
      have e2 : (Node.node c0 c1 f m).child b = c1 := by simp [Node.child, hb]
      rw [e1, lookup_succ_node, lookup_succ_node, hc, e2]

/-- The descent of `add_number(value)` reaches the leaf of `value` without throwing; it keeps
the invariants and the stored set. -/
theorem descend_spec (W v : Nat) : ∀ (k : Nat) (cur : Node) (path : Path),
    well_formed W k cur = true → cur.is_null = false → cur.mask = 0 →
    path_ok W v k cur.get_fullness path = true →
    ∃ leaf path', descend W v k cur path = (none, leaf, path') ∧
      well_formed W 0 leaf = true ∧ leaf.is_null = false ∧ leaf.mask = 0 ∧
      path_ok W v 0 leaf.get_fullness path' = true ∧
      (∀ u, contains W (rebuild leaf path') u = contains W (rebuild cur path) u) := by
  intro k
  induction k with
  | zero =>
    intro cur path hw hn hm hp
    exact ⟨cur, path, rfl, hw, hn, hm, hp, fun _ => rfl⟩
  | succ k ih =>
    intro cur path hw hn hm hp
    have hlen := path_ok_height W v path (k + 1) _ hp
    have hb1 : (v >>> k) &&& 1 ≤ 1 := bit_index_le v k
    rw [descend_succ]
    generalize hb : (v >>> k) &&& 1 = b at hb1
    cases cur with
    | nullptr => simp at hn
    | node c0 c1 f m =>
      simp only [Node.mask] at hm
      subst hm
      obtain ⟨hf, -, hw0, hw1⟩ := (well_formed_succ_node W k c0 c1 f 0).1 hw
      set cur : Node := .node c0 c1 f 0 with hcur
      have hwc : well_formed W k (cur.child b) = true := by
        interval_cases b
        · exact hw0
        · exact hw1
      have hws : well_formed W k (cur.child (1 - b)) = true := by
        interval_cases b
        · exact hw1
        · exact hw0
      set next : Node := if (cur.child b).is_null then Node.fresh
         else (cur.child b).push_inconsistency W with hnext
      have hnw : well_formed W k next = true := by
        rw [hnext]; split_ifs
        · exact well_formed_fresh W k
        · exact well_formed_push W k _ hwc
      have hnn : next.is_null = false := by
        rw [hnext]; split_ifs with hc
        · rfl
        · simpa using hc
      have hnm : next.mask = 0 := by
        rw [hnext]; split_ifs
        · rfl
        · exact push_mask W _
      have hnl : ∀ acc u, lookup W k next acc u = lookup W k (cur.child b) acc u := by
        intro acc u
        rw [hnext]; split_ifs with hc
        · rw [eq_nullptr_of_is_null hc, lookup_fresh, lookup_nullptr]
        · exact lookup_push W k _ acc u (by omega)
      have hflag : cur.get_fullness =
          (!(cur.child (1 - b)).is_null && (cur.child (1 - b)).get_fullness &&
            next.get_fullness) := by
        have hnf : next.get_fullness = (!(cur.child b).is_null && (cur.child b).get_fullness) := by
          rw [hnext]; split_ifs with hc
          · simp [hc, Node.fresh, Node.get_fullness]
          · simp [hc]
        rw [hnf]
        show f = _
        rw [hf]
        interval_cases b
        · simp only [hcur, child_node_zero, child_node_one, Nat.sub_zero]
          cases c0.is_null <;> cases c1.is_null <;> cases c0.get_fullness <;>
            cases c1.get_fullness <;> rfl
        · simp only [hcur, child_node_zero, child_node_one, Nat.sub_self]
          cases c0.is_null <;> cases c1.is_null <;> cases c0.get_fullness <;>
            cases c1.get_fullness <;> rfl
      have hpath : path_ok W v k next.get_fullness ((cur.set_child b next, b) :: path) = true := by
        rw [path_ok_cons]
        refine ⟨by simp [hcur], by rw [set_child_mask]; rfl, hb.symm, ?_, ?_, ?_⟩
        · rw [child_set_child_other cur hb1]; exact hws
        · rw [child_set_child_other cur hb1, set_child_get_fullness]; exact hflag
        · rw [set_child_get_fullness]; exact hp
      obtain ⟨leaf, path', hd, hlw, hln, hlm, hlp, hlc⟩ :=
        ih next ((cur.set_child b next, b) :: path) hnw hnn hnm hpath
      refine ⟨leaf, path', hd, hlw, hln, hlm, hlp, ?_⟩
      intro u
      rw [hlc u, rebuild, set_child_set_child]
      by_cases hagree : ∀ j, k + 1 ≤ j → j < W → u.testBit j = v.testBit j
      · rw [contains_rebuild_on W v path (k + 1) _ _ u hp hagree,
          contains_rebuild_on W v path (k + 1) _ _ u hp hagree]
        exact lookup_set_child W k cur next b hnl 0 u
      · push_neg at hagree
        exact contains_rebuild_off W v path (k + 1) _ _ _ u hp hagree

theorem testBit_agree_iff_mod (W u v : Nat) :
    (∀ i, i < W → u.testBit i = v.testBit i) ↔ u % 2 ^ W = v % 2 ^ W := by
  constructor
  · intro h
    apply Nat.eq_of_testBit_eq
    intro i
    rw [Nat.testBit_mod_two_pow, Nat.testBit_mod_two_pow]
    by_cases hi : i < W
    · simp [hi, h i hi]
    · simp [hi]
  · intro h i hi
    have := congrArg (fun x => x.testBit i) h
    simpa [Nat.testBit_mod_two_pow, hi] using this

theorem contains_mod (W : Nat) (root : Node) (u : Nat) :
    contains W root (u % 2 ^ W) = contains W root u := by
  unfold contains
  apply lookup_congr W W root 0 0 _ _ (le_refl W) (fun _ _ => rfl)
  intro i hi
  simp [Nat.testBit_mod_two_pow, hi]

theorem invariant_iff (W : Nat) (root : Node) :
    invariant W root = true ↔
      root.is_null = false ∧ root.mask = 0 ∧ well_formed W W root = true := by
  simp [invariant, Bool.and_eq_true, and_assoc]

theorem add_number_value_eq (W v : Nat) (root leaf : Node) (path' : Path)
    (hd : descend W v W root [] = (none, leaf, path')) :
    add_number_value W v root =
      if leaf.get_fullness then (.error .id_already_taken, rebuild leaf path')
      else (.ok (), set_fullness true leaf path') := by
  unfold add_number_value
  rw [hd]

/-- What `add_number(value)` does to a trie that satisfies the invariant: it throws the
duplicate error exactly when the value is stored, succeeds otherwise, never throws another
error, keeps the invariant, and afterwards the trie stores the old set and the value. -/
theorem add_number_value_spec (W v : Nat) (root : Node) (hinv : invariant W root = true) :
    invariant W (add_number_value W v root).2 = true ∧
    ((add_number_value W v root).1 = .error .id_already_taken ↔ contains W root v = true) ∧
    ((add_number_value W v root).1 = .ok () ↔ contains W root v = false) ∧
    (∀ u, contains W (add_number_value W v root).2 u =
      (contains W root u || decide (u % 2 ^ W = v % 2 ^ W))) := by
  obtain ⟨hn, hm, hw⟩ := (invariant_iff W root).1 hinv
  have hp : path_ok W v W root.get_fullness [] = true := (path_ok_nil W v W _).2 rfl
  obtain ⟨leaf, path', hd, hlw, hln, hlm, hlp, hlc⟩ := descend_spec W v W root [] hw hn hm hp
  have hleaf : leaf.get_fullness = contains W root v := by
    have h1 := contains_rebuild_on W v path' 0 _ leaf v hlp (fun _ _ _ => rfl)
    have h2 := hlc v
    simp only [rebuild] at h2
    rw [← h2, h1]
    cases leaf with
    | nullptr => simp at hln
    | node c0 c1 f m => rfl
  rw [add_number_value_eq W v root leaf path' hd]
  cases hfull : leaf.get_fullness
  · have hcv : contains W root v = false := by rw [← hleaf, hfull]
    simp only [Bool.false_eq_true, if_false, hcv]
    refine ⟨?_, by simp, by simp, ?_⟩
    · apply invariant_set_fullness W v path' 0 leaf true _ hln hlm hlp
      cases leaf with
      | nullptr => simp at hln
      | node c0 c1 f m => exact hlw
    · intro u
      rw [contains_set_fullness W v path' 0 _ leaf true u hlp]
      by_cases hagree : ∀ j, 0 ≤ j → j < W → u.testBit j = v.testBit j
      · have hmod : u % 2 ^ W = v % 2 ^ W :=
          (testBit_agree_iff_mod W u v).1 (fun i hi => hagree i (Nat.zero_le i) hi)
        rw [contains_rebuild_on W v path' 0 _ _ u hlp hagree]
        cases leaf with
        | nullptr => simp at hln
        | node c0 c1 f m => simp [Node.set_is_full, hmod]
      · have hmod : ¬ (u % 2 ^ W = v % 2 ^ W) := by
          intro e
          exact hagree (fun j _ hj => (testBit_agree_iff_mod W u v).2 e j hj)
        push_neg at hagree
        rw [contains_rebuild_off W v path' 0 _ _ leaf u hlp hagree, hlc u]
        simp [hmod, rebuild]
  · have hcv : contains W root v = true := by rw [← hleaf, hfull]
    simp only [if_true, hcv]
    refine ⟨?_, by simp, by simp, ?_⟩
    · exact invariant_rebuild W v path' 0 leaf hlw hln hlm hlp
    · intro u
      rw [hlc u]
      simp only [rebuild]
      by_cases hmod : u % 2 ^ W = v % 2 ^ W
      · have : contains W root u = true := by
          rw [← contains_mod, hmod, contains_mod, hcv]
        simp [this]
      · simp [hmod]

/-! ### The loop of `mex` -/

@[simp] theorem int_to_number_int_shl_zero (W k : Nat) : int_to_number W (int_shl 0 k) = 0 := by
  simp [int_to_number, int_shl]

theorem mex_loop_succ_null (W k : Nat) (c0 c1 : Node) (f : Bool) (m res : Nat)
    (h0 : c0.is_null = true) :
    mex_loop W (k + 1) (.node c0 c1 f m) res = (.ok res, .node c0 c1 f m) := by
  have e := eq_nullptr_of_is_null h0
  subst e
  simp [mex_loop, get_child_eq]

theorem mex_loop_succ_left (W k : Nat) (c0 c1 : Node) (f : Bool) (m res : Nat)
    (h0 : c0.is_null = false) (hf : c0.get_fullness = false) :
    mex_loop W (k + 1) (.node c0 c1 f m) res =
      ((mex_loop W k (c0.push_inconsistency W) res).1,
       .node (mex_loop W k (c0.push_inconsistency W) res).2 c1 f m) := by
  simp [mex_loop, get_child_eq, h0, hf]

theorem mex_loop_succ_right_null (W k : Nat) (c0 c1 : Node) (f : Bool) (m res : Nat)
    (h0 : c0.is_null = false) (hf : c0.get_fullness = true) (h1 : c1.is_null = true) :
    mex_loop W (k + 1) (.node c0 c1 f m) res =
      (.ok (res ||| int_to_number W (int_shl 1 k)),
       .node (c0.push_inconsistency W) c1 f m) := by
  have e := eq_nullptr_of_is_null h1
  subst e
  simp [mex_loop, get_child_eq, h0, hf]

theorem mex_loop_succ_right (W k : Nat) (c0 c1 : Node) (f : Bool) (m res : Nat)
    (h0 : c0.is_null = false) (hf : c0.get_fullness = true) (h1 : c1.is_null = false) :
    mex_loop W (k + 1) (.node c0 c1 f m) res =
      ((mex_loop W k (c1.push_inconsistency W) (res ||| int_to_number W (int_shl 1 k))).1,
       .node (c0.push_inconsistency W)
         (mex_loop W k (c1.push_inconsistency W) (res ||| int_to_number W (int_shl 1 k))).2
         f m) := by
  simp [mex_loop, get_child_eq, h0, hf, h1]

/-- A full well formed subtree stores every value. -/
theorem lookup_of_full (W : Nat) : ∀ (h : Nat) (n : Node) (acc u : Nat),
    well_formed W h n = true → n.get_fullness = true → lookup W h n acc u = true := by
  intro h
  induction h with
  | zero =>
    intro n acc u _ hf
    cases n with
    | nullptr => simp [Node.get_fullness] at hf
    | node c0 c1 f m => simpa [Node.get_fullness] using hf
  | succ h ih =>
    intro n acc u hw hf
    cases n with
    | nullptr => simp [Node.get_fullness] at hf
    | node c0 c1 f m =>
      obtain ⟨hflag, -, hw0, hw1⟩ := (well_formed_succ_node W h c0 c1 f m).1 hw
      simp only [Node.get_fullness] at hf
      rw [hf] at hflag
      have hflag' := hflag.symm
      simp only [Bool.and_eq_true, Bool.not_eq_true'] at hflag'
      obtain ⟨⟨⟨-, -⟩, hf0⟩, hf1⟩ := hflag'
      rw [lookup_succ_node]
      split_ifs
      · exact ih c1 _ u hw1 hf1
      · exact ih c0 _ u hw0 hf0

theorem assemble_congr (W : Nat) : ∀ (h x y : Nat), (∀ i < h, x.testBit i = y.testBit i) →
    assemble W h x = assemble W h y := by
  intro h
  induction h with
  | zero => intro x y _; rfl
  | succ h ih =>
    intro x y hxy
    simp only [assemble]
    rw [hxy h (by omega), ih x y (fun i hi => hxy i (by omega))]

theorem assemble_of_lt (W : Nat) : ∀ (h x : Nat), x < 2 ^ h →
    assemble W (h + 1) x = assemble W h x := by
  intro h x hx
  simp only [assemble]
  rw [Nat.testBit_lt_two_pow hx]
  simp

theorem assemble_two_pow_add (W h x : Nat) (hx : x < 2 ^ h) :
    assemble W (h + 1) (2 ^ h + x) = int_to_number W (int_shl 1 h) ||| assemble W h x := by
  simp only [assemble]
  rw [Nat.testBit_two_pow_add_eq, Nat.testBit_lt_two_pow hx]
  simp only [Bool.not_false, if_true]
  congr 1
  exact assemble_congr W h _ _ (fun i hi => Nat.testBit_two_pow_add_gt hi x)

theorem assemble_zero (W : Nat) : ∀ h, assemble W h 0 = 0 := by
  intro h
  induction h with
  | zero => rfl
  | succ h ih => simp [assemble, ih]

/-- The loop of `mex` on a well formed, not full subtree of height `h` whose root has no pending
mask: it does not throw, the bits it sets are those of the smallest value `x` that is not stored
below the node, and the pushes it makes keep the invariants and the stored set. -/
theorem mex_loop_spec (W : Nat) : ∀ (h : Nat) (cur : Node) (res : Nat), h ≤ W →
    well_formed W h cur = true → cur.is_null = false → cur.mask = 0 →
    cur.get_fullness = false →
    ∃ x cur', mex_loop W h cur res = (.ok (res ||| assemble W h x), cur') ∧ x < 2 ^ h ∧
      lookup W h cur 0 x = false ∧ (∀ y, y < x → lookup W h cur 0 y = true) ∧
      well_formed W h cur' = true ∧ cur'.is_null = false ∧ cur'.mask = 0 ∧
      cur'.get_fullness = cur.get_fullness ∧
      (∀ acc u, lookup W h cur' acc u = lookup W h cur acc u) := by
  intro h
  induction h with
  | zero =>
    intro cur res _ hw hn hm hf
    refine ⟨0, cur, by simp [mex_loop, assemble], by simp, ?_, by simp, hw, hn, hm, rfl,
      fun _ _ => rfl⟩
    cases cur with
    | nullptr => simp at hn
    | node c0 c1 f m => simpa [Node.get_fullness] using hf
  | succ k ih =>
    intro cur res hW hw hn hm hf
    cases cur with
    | nullptr => simp at hn
    | node c0 c1 f m =>
      simp only [Node.mask] at hm
      subst hm
      simp only [Node.get_fullness] at hf
      subst hf
      obtain ⟨hflag, -, hw0, hw1⟩ := (well_formed_succ_node W k c0 c1 false 0).1 hw
      cases h0 : c0.is_null
      · cases hf0 : c0.get_fullness
        · -- the left subtree exists and is not full: descend into it
          obtain ⟨x, c0', hl, hx, habs, hmin, hw', hn', hm', hf', hlk⟩ :=
            ih (c0.push_inconsistency W) res (by omega) (well_formed_push W k c0 hw0)
              (by simpa using h0) (push_mask W c0) (by simpa using hf0)
          refine ⟨x, .node c0' c1 false 0, ?_, ?_, ?_, ?_, ?_, rfl, rfl, rfl, ?_⟩
          · rw [mex_loop_succ_left W k c0 c1 false 0 res h0 hf0, hl, assemble_of_lt W k x hx]
          · calc x < 2 ^ k := hx
              _ ≤ 2 ^ (k + 1) := Nat.pow_le_pow_right (by decide) (by omega)
          · rw [lookup_succ_mask_zero, Nat.testBit_lt_two_pow hx]
            simp only [Bool.false_eq_true, if_false]
            rw [← lookup_push W k c0 0 x (by omega)]
            exact habs
          · intro y hy
            rw [lookup_succ_mask_zero, Nat.testBit_lt_two_pow (lt_trans hy hx)]
            simp only [Bool.false_eq_true, if_false]
            rw [← lookup_push W k c0 0 y (by omega)]
            exact hmin y hy
          · rw [well_formed_succ_node]
            refine ⟨?_, Nat.two_pow_pos W, hw', hw1⟩
            rw [hf', push_get_fullness, hf0]
            simp
          · intro acc u
            rw [lookup_succ_node, lookup_succ_node, hlk, lookup_push W k c0 _ u (by omega)]
        · -- the left subtree is full: the bit is 1
          have hall0 : ∀ u, lookup W k c0 0 u = true := fun u =>
            lookup_of_full W k c0 0 u hw0 hf0
          cases h1 : c1.is_null
          · have hf1 : c1.get_fullness = false := by
              rw [h0, h1, hf0] at hflag
              simpa using hflag
            obtain ⟨x, c1', hl, hx, habs, hmin, hw', hn', hm', hf', hlk⟩ :=
              ih (c1.push_inconsistency W) (res ||| int_to_number W (int_shl 1 k)) (by omega)
                (well_formed_push W k c1 hw1) (by simpa using h1) (push_mask W c1)
                (by simpa using hf1)
            refine ⟨2 ^ k + x, .node (c0.push_inconsistency W) c1' false 0, ?_, ?_, ?_, ?_, ?_,
              rfl, rfl, rfl, ?_⟩
            · rw [mex_loop_succ_right W k c0 c1 false 0 res h0 hf0 h1, hl,
                assemble_two_pow_add W k x hx, Nat.or_assoc]
            · rw [Nat.pow_succ]; omega
            · rw [lookup_succ_mask_zero, Nat.testBit_two_pow_add_eq,
                Nat.testBit_lt_two_pow hx]
              simp only [Bool.not_false, if_true]
              rw [lookup_congr W k c1 0 0 (2 ^ k + x) x (by omega) (fun _ _ => rfl)
                (fun i hi => Nat.testBit_two_pow_add_gt hi x),
                ← lookup_push W k c1 0 x (by omega)]
              exact habs
            · intro y hy
              rw [lookup_succ_mask_zero]
              by_cases hy2 : y < 2 ^ k
              · rw [Nat.testBit_lt_two_pow hy2]
                simp only [Bool.false_eq_true, if_false]
                exact hall0 y
              · obtain ⟨y', rfl⟩ : ∃ y', y = 2 ^ k + y' := ⟨y - 2 ^ k, by omega⟩
                have hy' : y' < x := by omega
                rw [Nat.testBit_two_pow_add_eq, Nat.testBit_lt_two_pow (lt_trans hy' hx)]
                simp only [Bool.not_false, if_true]
                rw [lookup_congr W k c1 0 0 (2 ^ k + y') y' (by omega) (fun _ _ => rfl)
                  (fun i hi => Nat.testBit_two_pow_add_gt hi y'),
                  ← lookup_push W k c1 0 y' (by omega)]
                exact hmin y' hy'
            · rw [well_formed_succ_node]
              refine ⟨?_, Nat.two_pow_pos W, well_formed_push W k c0 hw0, hw'⟩
              rw [hf', push_get_fullness, push_get_fullness, hf1]
              simp
            · intro acc u
              rw [lookup_succ_node, lookup_succ_node, hlk, lookup_push W k c1 _ u (by omega),
                lookup_push W k c0 _ u (by omega)]
          · -- the right subtree is absent: the remaining bits are 0
            have e1 := eq_nullptr_of_is_null h1
            subst e1
            refine ⟨2 ^ k, .node (c0.push_inconsistency W) .nullptr false 0, ?_, ?_, ?_, ?_, ?_,
              rfl, rfl, rfl, ?_⟩
            · rw [mex_loop_succ_right_null W k c0 .nullptr false 0 res h0 hf0 rfl]
              have := assemble_two_pow_add W k 0 (Nat.two_pow_pos k)
              rw [assemble_zero, Nat.or_zero] at this
              rw [← this]
              rfl
            · exact Nat.pow_lt_pow_right (by decide) (by omega)
            · rw [lookup_succ_mask_zero, Nat.testBit_two_pow_self]
              simp
            · intro y hy
              rw [lookup_succ_mask_zero, Nat.testBit_lt_two_pow hy]
              simp only [Bool.false_eq_true, if_false]
              exact hall0 y
            · rw [well_formed_succ_node]
              refine ⟨by simp, Nat.two_pow_pos W, well_formed_push W k c0 hw0, by simp⟩
            · intro acc u
              rw [lookup_succ_node, lookup_succ_node, lookup_push W k c0 _ u (by omega)]
      · -- the left subtree is absent: the remaining bits are 0
        refine ⟨0, .node c0 c1 false 0, ?_, Nat.two_pow_pos _, ?_, by simp, hw, rfl, rfl, rfl,
          fun _ _ => rfl⟩
        · rw [mex_loop_succ_null W k c0 c1 false 0 res h0, assemble_zero, Nat.or_zero]
        · rw [lookup_succ_mask_zero, eq_nullptr_of_is_null h0]
          simp

/-! ### The shift of `mex` -/

/-- The shift `1 << bit_no` of `mex`, converted to `NumberType`, is `2 ^ bit_no` as long as
`NumberType` has at most 32 bits or the bit is below bit 31. -/
theorem int_to_number_int_shl_one (W h : Nat) (hW : h < W) (hc : W ≤ 32 ∨ h < 31) :
    int_to_number W (int_shl 1 h) = 2 ^ h := by
  by_cases h31 : h < 31
  · have e : int_shl 1 h = Int.ofNat (2 ^ h) := by
      unfold int_shl
      interval_cases h <;> rfl
    have hlt : (2 : Nat) ^ h < 2 ^ W := Nat.pow_lt_pow_right (by decide) hW
    rw [e]
    unfold int_to_number
    have e2 : Int.ofNat (2 ^ h) % Int.ofNat (2 ^ W) = Int.ofNat (2 ^ h) :=
      Int.emod_eq_of_lt (Int.ofNat_nonneg _) (Int.ofNat_lt.2 hlt)
    rw [e2]
    rfl
  · have hW32 : W = 32 := by omega
    have hh : h = 31 := by omega
    subst hW32 hh
    decide

/-- In 64 bits the shift `1 << 31` of `mex` is sign extended by the conversion. -/
theorem int_to_number_int_shl_one_64_31 :
    int_to_number 64 (int_shl 1 31) = 2 ^ 64 - 2 ^ 31 := by
  decide

theorem or_two_pow_mod (x h : Nat) (b : Nat) (hb : b = if x.testBit h then 2 ^ h else 0) :
    b ||| x % 2 ^ h = x % 2 ^ (h + 1) := by
  apply Nat.eq_of_testBit_eq
  intro i
  rw [Nat.testBit_or, Nat.testBit_mod_two_pow, Nat.testBit_mod_two_pow, hb]
  by_cases hx : x.testBit h = true
  · rw [if_pos hx, Nat.testBit_two_pow]
    by_cases hi : h = i
    · subst hi; simp [hx]
    · by_cases hlt : i < h
      · have : i < h + 1 := by omega
        simp [hi, hlt, this]
      · have : ¬ i < h + 1 := by omega
        simp [hi, hlt, this]
  · rw [if_neg hx, Nat.zero_testBit]
    by_cases hi : h = i
    · subst hi
      simp only [Bool.not_eq_true] at hx
      simp [hx]
    · by_cases hlt : i < h
      · have : i < h + 1 := by omega
        simp [hlt, this]
      · have : ¬ i < h + 1 := by omega
        simp [hlt, this]

/-- The number assembled by `mex` is the intended one as long as `NumberType` has at most
32 bits or the value is below `2 ^ 31`. -/
theorem assemble_exact (W : Nat) : ∀ (h x : Nat), h ≤ W → (W ≤ 32 ∨ x % 2 ^ h < 2 ^ 31) →
    assemble W h x = x % 2 ^ h := by
  intro h
  induction h with
  | zero =>
    intro x _ _
    simp [assemble, Nat.mod_one]
  | succ h ih =>
    intro x hW hc
    have hle : x % 2 ^ h ≤ x % 2 ^ (h + 1) := by
      rw [← Nat.mod_mod_of_dvd x (pow_dvd_pow 2 (Nat.le_succ h))]
      exact Nat.mod_le _ _
    have ih' := ih x (by omega) (hc.imp id (fun hx => lt_of_le_of_lt hle hx))
    simp only [assemble]
    rw [ih']
    apply or_two_pow_mod
    by_cases hx : x.testBit h = true
    · rw [if_pos hx, if_pos hx]
      apply int_to_number_int_shl_one W h (by omega)
      refine hc.imp id (fun hlt => ?_)
      have hb : (x % 2 ^ (h + 1)).testBit h = true := by
        rw [Nat.testBit_mod_two_pow]; simp [hx]
      have hge := Nat.testBit_implies_ge hb
      have : (2 : Nat) ^ h < 2 ^ 31 := lt_of_le_of_lt hge hlt
      exact (Nat.pow_lt_pow_iff_right (by decide)).1 this
    · rw [if_neg hx, if_neg hx]
      simp

theorem assemble_exact_of_lt (W x : Nat) (hx : x < 2 ^ W) (hc : W ≤ 32 ∨ x < 2 ^ 31) :
    assemble W W x = x := by
  rw [assemble_exact W W x (le_refl W) (by rw [Nat.mod_eq_of_lt hx]; exact hc),
    Nat.mod_eq_of_lt hx]

/-! ### The member functions on a trie that satisfies the invariant -/

/-- What `mex` does to a trie that satisfies the invariant: it throws exactly when the root is
full and leaves the trie as it is then; otherwise it returns the number assembled from the
bits of the smallest value that is not stored, and its pushes keep the invariant and the
stored set. -/
theorem mex_spec (W : Nat) (root : Node) (hinv : invariant W root = true) :
    (root.get_fullness = true → mex W root = (.error .trie_is_full, root)) ∧
    (root.get_fullness = false →
      ∃ x root', mex W root = (.ok (assemble W W x), root') ∧ x < 2 ^ W ∧
        contains W root x = false ∧ (∀ y, y < x → contains W root y = true) ∧
        invariant W root' = true ∧ (∀ u, contains W root' u = contains W root u)) := by
  obtain ⟨hn, hm, hw⟩ := (invariant_iff W root).1 hinv
  constructor
  · intro hf
    simp [mex, hf]
  · intro hf
    obtain ⟨x, root', hl, hx, habs, hmin, hw', hn', hm', -, hlk⟩ :=
      mex_loop_spec W W root 0 (le_refl W) hw hn hm hf
    refine ⟨x, root', ?_, hx, habs, hmin, (invariant_iff W root').2 ⟨hn', hm', hw'⟩,
      fun u => hlk 0 u⟩
    simp only [mex, hf, Bool.false_eq_true, if_false]
    rw [hl, Nat.zero_or]

/-- The root of a trie that satisfies the invariant is full iff every value is stored. -/
theorem full_iff_all (W : Nat) (root : Node) (hinv : invariant W root = true) :
    root.get_fullness = true ↔ ∀ v, v < 2 ^ W → contains W root v = true := by
  obtain ⟨hn, hm, hw⟩ := (invariant_iff W root).1 hinv
  constructor
  · intro hf v _
    exact lookup_of_full W W root 0 v hw hf
  · intro hall
    by_contra hf
    simp only [Bool.not_eq_true] at hf
    obtain ⟨x, -, -, hx, habs, -⟩ := (mex_spec W root hinv).2 hf
    rw [hall x hx] at habs
    exact Bool.noConfusion habs

/-- What `xor_all_values` does to a trie that satisfies the invariant: it keeps the invariant,
and afterwards `u` is stored iff `u xor value` was stored. -/
theorem xor_all_values_spec (W k : Nat) (root : Node) (hinv : invariant W root = true) :
    invariant W (xor_all_values W k root) = true ∧
    (∀ u, contains W (xor_all_values W k root) u = contains W root (u ^^^ k)) := by
  obtain ⟨hn, hm, hw⟩ := (invariant_iff W root).1 hinv
  cases root with
  | nullptr => simp at hn
  | node c0 c1 f m =>
    have e : xor_all_values W k (.node c0 c1 f m) =
        Node.push_inconsistency W (Node.xor_into_mask W k (.node c0 c1 f m)) := rfl
    rw [e]
    constructor
    · rw [invariant_iff]
      refine ⟨by simp [Node.xor_into_mask], push_mask W _, ?_⟩
      exact well_formed_push W W _ (well_formed_xor_into_mask W W k _ hw)
    · intro u
      unfold contains
      rw [lookup_push W W _ 0 u (le_refl W), lookup_xor_into_mask W W _ k 0 u (le_refl W),
        lookup_xor_acc W W _ 0 k u (le_refl W)]
      simp

theorem invariant_empty (W : Nat) : invariant W empty = true := by
  rw [invariant_iff]
  exact ⟨rfl, rfl, well_formed_fresh W W⟩

theorem contains_empty (W u : Nat) : contains W empty u = false := lookup_fresh W W 0 u

/-- The result of `add_number()` in terms of `mex` and `add_number(value)`. -/
theorem add_number_eq (W : Nat) (root : Node) (id : Nat) (root1 : Node)
    (hm : mex W root = (.ok id, root1)) :
    add_number W root =
      (match (add_number_value W id root1).1 with
        | .error e => .error e
        | .ok () => .ok id,
       (add_number_value W id root1).2) := by
  unfold add_number
  rw [hm]
  simp only
  rcases hr : add_number_value W id root1 with ⟨o, r⟩
  cases o <;> rfl

theorem add_number_full (W : Nat) (root : Node) (hf : root.get_fullness = true) :
    add_number W root = (.error .trie_is_full, root) := by
  simp [add_number, mex, hf]

theorem invariant_add_number (W : Nat) (root : Node) (hinv : invariant W root = true) :
    invariant W (add_number W root).2 = true := by
  cases hf : root.get_fullness
  · obtain ⟨x, root', hm, -, -, -, hinv', -⟩ := (mex_spec W root hinv).2 hf
    rw [add_number_eq W root _ root' hm]
    exact (add_number_value_spec W _ root' hinv').1
  · rw [add_number_full W root hf]
    exact hinv

theorem invariant_step (W : Nat) (op : Op) (root : Node) (hinv : invariant W root = true) :
    invariant W (op.step W root) = true := by
  cases op with
  | add_number_value v => exact (add_number_value_spec W v root hinv).1
  | add_number => exact invariant_add_number W root hinv
  | xor_all_values k => exact (xor_all_values_spec W k root hinv).1

theorem invariant_run (W : Nat) : ∀ (ops : List Op) (root : Node),
    invariant W root = true → invariant W (run W ops root) = true := by
  intro ops
  induction ops with
  | nil => intro root h; exact h
  | cons op ops ih => intro root h; exact ih _ (invariant_step W op root h)

/-- Every state of the trie that a client can produce satisfies the invariant. -/
theorem invariant_of_reachable (W : Nat) (root : Node) (h : Reachable W root) :
    invariant W root = true := by
  obtain ⟨ops, -, rfl⟩ := h
  exact invariant_run W ops empty (invariant_empty W)

/-! ### Consequences for `add_number()` and for sequences of calls -/

theorem assemble_64_two_pow_31 : assemble 64 64 (2 ^ 31) = 2 ^ 64 - 2 ^ 31 := by
  decide

/-- The smallest value that is not stored is unique. -/
theorem least_absent_unique (W : Nat) (root : Node) (x m : Nat)
    (hx : contains W root x = false) (hxmin : ∀ y, y < x → contains W root y = true)
    (hm : contains W root m = false) (hmmin : ∀ y, y < m → contains W root y = true) :
    x = m := by
  rcases Nat.lt_trichotomy x m with h | h | h
  · rw [hmmin x h] at hx; exact Bool.noConfusion hx
  · exact h
  · rw [hxmin m h] at hm; exact Bool.noConfusion hm

/-- `add_number()` on a trie that satisfies the invariant and whose smallest absent value is
`m`: `mex` assembles `assemble W W m`, and that number is then inserted. -/
theorem add_number_spec (W : Nat) (root : Node) (m : Nat) (hinv : invariant W root = true)
    (hm : m < 2 ^ W) (habs : contains W root m = false)
    (hmin : ∀ y, y < m → contains W root y = true) :
    ∃ root1, mex W root = (.ok (assemble W W m), root1) ∧ invariant W root1 = true ∧
      (∀ u, contains W root1 u = contains W root u) ∧
      add_number W root =
        (match (add_number_value W (assemble W W m) root1).1 with
          | .error e => .error e
          | .ok () => .ok (assemble W W m),
         (add_number_value W (assemble W W m) root1).2) := by
  have hf : root.get_fullness = false := by
    cases h : root.get_fullness
    · rfl
    · rw [(full_iff_all W root hinv).1 h m hm] at habs
      exact Bool.noConfusion habs
  obtain ⟨x, root1, hmex, -, hxabs, hxmin, hinv1, hc1⟩ := (mex_spec W root hinv).2 hf
  have hxm : x = m := least_absent_unique W root x m hxabs hxmin habs hmin
  subst hxm
  exact ⟨root1, hmex, hinv1, hc1, add_number_eq W root _ root1 hmex⟩

/-- `add_number()` returns the smallest absent value `m` and stores it, provided `NumberType`
has at most 32 bits or `m` is below `2 ^ 31`. -/
theorem add_number_spec_exact (W : Nat) (root : Node) (m : Nat)
    (hinv : invariant W root = true) (hm : m < 2 ^ W) (habs : contains W root m = false)
    (hmin : ∀ y, y < m → contains W root y = true) (hc : W ≤ 32 ∨ m < 2 ^ 31) :
    (add_number W root).1 = .ok m ∧ invariant W (add_number W root).2 = true ∧
      (∀ u, contains W (add_number W root).2 u =
        (contains W root u || decide (u % 2 ^ W = m % 2 ^ W))) := by
  obtain ⟨root1, -, hinv1, hc1, hadd⟩ := add_number_spec W root m hinv hm habs hmin
  rw [assemble_exact_of_lt W m hm hc] at hadd
  obtain ⟨hi2, -, hok, hcont⟩ := add_number_value_spec W m root1 hinv1
  have hok' : (add_number_value W m root1).1 = .ok () := hok.2 (by rw [hc1, habs])
  rw [hadd]
  refine ⟨by rw [hok'], hi2, fun u => ?_⟩
  simp only
  rw [hcont u, hc1 u]

theorem insert_all_spec (W : Nat) : ∀ (vs : List Nat) (root : Node),
    invariant W root = true → (∀ v ∈ vs, v < 2 ^ W) →
    invariant W (insert_all W vs root) = true ∧
      (∀ u, u < 2 ^ W → contains W (insert_all W vs root) u =
        (contains W root u || decide (u ∈ vs))) := by
  intro vs
  induction vs with
  | nil =>
    intro root hinv _
    exact ⟨hinv, fun u _ => by simp [insert_all]⟩
  | cons v vs ih =>
    intro root hinv hvs
    obtain ⟨hi1, -, -, hc1⟩ := add_number_value_spec W v root hinv
    obtain ⟨hi2, hc2⟩ := ih _ hi1 (fun w hw => hvs w (List.mem_cons_of_mem v hw))
    refine ⟨hi2, fun u hu => ?_⟩
    have hv : v < 2 ^ W := hvs v (List.mem_cons_self v vs)
    simp only [insert_all]
    rw [hc2 u hu, hc1 u, Nat.mod_eq_of_lt hu, Nat.mod_eq_of_lt hv]
    by_cases huv : u = v
    · simp [huv]
    · simp [huv, Bool.or_assoc]

theorem observe_add_number (W : Nat) (root : Node) :
    Op.observe W root .add_number = (add_number W root).1.map some := by
  unfold Op.observe
  cases (add_number W root).1 <;> rfl

/-- In 64 bits, when the smallest absent value is `2 ^ 31`, `mex` computes `2 ^ 64 - 2 ^ 31`:
`add_number()` returns that number, or throws the duplicate error when it is stored. -/
theorem add_number_64_at_two_pow_31 (root : Node) (hinv : invariant 64 root = true)
    (hmin : ∀ y, y < 2 ^ 31 → contains 64 root y = true)
    (habs : contains 64 root (2 ^ 31) = false) :
    (mex 64 root).1 = .ok (2 ^ 64 - 2 ^ 31) ∧
    (add_number 64 root).1 =
      if contains 64 root (2 ^ 64 - 2 ^ 31) = true then .error .id_already_taken
      else .ok (2 ^ 64 - 2 ^ 31) := by
  obtain ⟨root1, hmex, hinv1, hc1, hadd⟩ :=
    add_number_spec 64 root (2 ^ 31) hinv (by norm_num) habs hmin
  rw [assemble_64_two_pow_31] at hadd hmex
  obtain ⟨-, herr, hok, -⟩ := add_number_value_spec 64 (2 ^ 64 - 2 ^ 31) root1 hinv1
  rw [hc1] at herr hok
  refine ⟨by rw [hmex], ?_⟩
  rw [hadd]
  by_cases hc : contains 64 root (2 ^ 64 - 2 ^ 31) = true
  · rw [if_pos hc, herr.2 hc]
  · rw [if_neg hc, hok.2 (by simpa using hc)]

theorem allocate_many_succ (W n : Nat) (root : Node) :
    allocate_many W (n + 1) root =
      ((add_number W root).1 :: (allocate_many W n (add_number W root).2).1,
       (allocate_many W n (add_number W root).2).2) := rfl

theorem allocate_many_snoc (W : Nat) : ∀ (n : Nat) (root : Node),
    (allocate_many W (n + 1) root).1 =
      (allocate_many W n root).1 ++ [(add_number W (allocate_many W n root).2).1] ∧
    (allocate_many W (n + 1) root).2 = (add_number W (allocate_many W n root).2).2 := by
  intro n
  induction n with
  | zero => intro root; exact ⟨rfl, rfl⟩
  | succ n ih =>
    intro root
    obtain ⟨h1, h2⟩ := ih (add_number W root).2
    constructor
    · rw [allocate_many_succ W (n + 1), h1, allocate_many_succ W n]
      rfl
    · rw [allocate_many_succ W (n + 1), h2, allocate_many_succ W n]

/-- Consecutive calls of `add_number()` on a trie that stores exactly the values below `j`
return `j`, `j + 1`, ... as long as `NumberType` has at most 32 bits or the values stay
below `2 ^ 31`. -/
theorem allocate_many_spec (W : Nat) : ∀ (n j : Nat) (root : Node),
    invariant W root = true → (∀ u, u < 2 ^ W → contains W root u = decide (u < j)) →
    j + n ≤ 2 ^ W → (W ≤ 32 ∨ j + n ≤ 2 ^ 31) →
    (allocate_many W n root).1 = (List.range' j n).map .ok ∧
      invariant W (allocate_many W n root).2 = true ∧
      (∀ u, u < 2 ^ W → contains W (allocate_many W n root).2 u = decide (u < j + n)) := by
  intro n
  induction n with
  | zero =>
    intro j root hinv hc _ _
    exact ⟨rfl, hinv, hc⟩
  | succ n ih =>
    intro j root hinv hc hle hexact
    have hj : j < 2 ^ W := by omega
    obtain ⟨hres, hinv1, hc1⟩ := add_number_spec_exact W root j hinv hj
      (by rw [hc j hj]; simp)
      (fun y hy => by rw [hc y (lt_trans hy hj)]; simpa using hy)
      (hexact.imp id (fun h => by omega))
    have hc1' : ∀ u, u < 2 ^ W →
        contains W (add_number W root).2 u = decide (u < j + 1) := by
      intro u hu
      rw [hc1 u, hc u hu, Nat.mod_eq_of_lt hu, Nat.mod_eq_of_lt hj]
      by_cases h1 : u < j
      · have : u < j + 1 := by omega
        simp [h1, this]
      · by_cases h2 : u = j
        · simp [h2]
        · have : ¬ u < j + 1 := by omega
          simp [h1, h2, this]
    obtain ⟨hl, hi2, hc2⟩ := ih (j + 1) _ hinv1 hc1' (by omega)
      (hexact.imp id (fun h => by omega))
    rw [allocate_many_succ]
    refine ⟨?_, hi2, fun u hu => ?_⟩
    · simp only
      rw [hres, hl]
      rfl
    · simp only
      rw [hc2 u hu, Nat.add_assoc, Nat.add_comm 1 n]

/-- A fresh trie filled by `add_number(v)` for the values `v` of a list stores them and nothing
else; when moreover `m` is the smallest value that is not in the list, the next `add_number()`
returns `m`, provided `NumberType` has at most 32 bits or `m` is below `2 ^ 31`. -/
theorem add_number_after_insert_all (W : Nat) (vs : List Nat) (m : Nat)
    (hvs : ∀ v ∈ vs, v < 2 ^ W) (hm : m < 2 ^ W) (habs : m ∉ vs)
    (hmin : ∀ y, y < m → y ∈ vs) (hc : W ≤ 32 ∨ m < 2 ^ 31) :
    (add_number W (insert_all W vs empty)).1 = .ok m := by
  obtain ⟨hinv, hcont⟩ := insert_all_spec W vs empty (invariant_empty W) hvs
  refine (add_number_spec_exact W _ m hinv hm ?_ ?_ hc).1
  · rw [hcont m hm, contains_empty]; simpa using habs
  · intro y hy
    rw [hcont y (lt_trans hy hm), contains_empty]; simpa using hmin y hy

/-- The 64-bit trie that stores exactly the values below `2 ^ 31`. -/
theorem insert_all_range_64 :
    invariant 64 (insert_all 64 (List.range (2 ^ 31)) empty) = true ∧
    (∀ u, u < 2 ^ 64 →
      contains 64 (insert_all 64 (List.range (2 ^ 31)) empty) u = decide (u < 2 ^ 31)) := by
  obtain ⟨hinv, hcont⟩ := insert_all_spec 64 (List.range (2 ^ 31)) empty (invariant_empty 64)
    (fun v hv => lt_trans (List.mem_range.1 hv) (by norm_num))
  refine ⟨hinv, fun u hu => ?_⟩
  rw [hcont u hu, contains_empty, Bool.false_or]
  simp only [List.mem_range]

/-- Claim C1, which fails in the 64-bit instantiation: a fresh `BitTrie<uint64_t>` is filled
by `add_number(v)` for every `v` below `2 ^ 31`, so that the smallest absent value is `2 ^ 31`;
the next `add_number()` returns `2 ^ 64 - 2 ^ 31` instead. -/
theorem c1_add_number_after_inserts_64 :
    (add_number 64 (insert_all 64 (List.range (2 ^ 31)) empty)).1 = .ok (2 ^ 64 - 2 ^ 31) := by
  obtain ⟨hinv, hcont⟩ := insert_all_range_64
  have h := (add_number_64_at_two_pow_31 _ hinv
    (fun y hy => by rw [hcont y (lt_trans hy (by norm_num))]; simpa using hy)
    (by rw [hcont _ (by norm_num)]; simp)).2
  rw [h, if_neg]
  rw [hcont _ (by norm_num)]
  simp

/-- Claim C3, which fails in the 64-bit instantiation: of `2 ^ 31 + 1` consecutive calls of
`add_number()` on a fresh `BitTrie<uint64_t>` the first `2 ^ 31` return 0, 1, ..., `2 ^ 31 - 1`
and the last one returns `2 ^ 64 - 2 ^ 31` instead of `2 ^ 31`. -/
theorem c3_sequential_add_number_64 :
    (allocate_many 64 (2 ^ 31 + 1) empty).1 =
      (List.range (2 ^ 31)).map Except.ok ++ [Except.ok (2 ^ 64 - 2 ^ 31)] := by
  obtain ⟨hl, hinv, hcont⟩ := allocate_many_spec 64 (2 ^ 31) 0 empty (invariant_empty 64)
    (fun u _ => by rw [contains_empty]; simp) (by norm_num) (Or.inr (by norm_num))
  rw [Nat.zero_add] at hcont
  have h := (add_number_64_at_two_pow_31 _ hinv
    (fun y hy => by rw [hcont y (lt_trans hy (by norm_num))]; simpa using hy)
    (by rw [hcont _ (by norm_num)]; simp)).2
  rw [if_neg (by rw [hcont _ (by norm_num)]; simp)] at h
  rw [(allocate_many_snoc 64 (2 ^ 31) empty).1, h, hl, List.range_eq_range']

/-- Claim C8, which fails in the 64-bit instantiation: in the trie that stores the values below
`2 ^ 31` and the value `2 ^ 64 - 2 ^ 31`, which is not full, `add_number()` throws the
duplicate error, because `mex` computes `2 ^ 64 - 2 ^ 31` instead of `2 ^ 31`. -/
theorem c8_add_number_duplicate_64 :
    (add_number 64 (insert_all 64 (List.range (2 ^ 31) ++ [2 ^ 64 - 2 ^ 31]) empty)).1 =
      .error .id_already_taken := by
  obtain ⟨hinv, hcont⟩ := insert_all_spec 64 (List.range (2 ^ 31) ++ [2 ^ 64 - 2 ^ 31]) empty
    (invariant_empty 64) (fun v hv => by
      rcases List.mem_append.1 hv with h | h
      · exact lt_trans (List.mem_range.1 h) (by norm_num)
      · rw [List.mem_singleton.1 h]; norm_num)
  have hcont' : ∀ u, u < 2 ^ 64 →
      contains 64 (insert_all 64 (List.range (2 ^ 31) ++ [2 ^ 64 - 2 ^ 31]) empty) u =
        decide (u < 2 ^ 31 ∨ u = 2 ^ 64 - 2 ^ 31) := by
    intro u hu
    rw [hcont u hu, contains_empty, Bool.false_or]
    simp only [List.mem_append, List.mem_range, List.mem_singleton]
  have h := (add_number_64_at_two_pow_31 _ hinv
    (fun y hy => by
      rw [hcont' y (lt_trans hy (by norm_num))]
      exact decide_eq_true (Or.inl hy))
    (by rw [hcont' _ (by norm_num)]; simp)).2
  rw [h, if_pos]
  rw [hcont' _ (by norm_num)]
  simp

theorem xor_one_lt_iff (u : Nat) : u ^^^ 1 < 2 ^ 31 ↔ u < 2 ^ 31 := by
  constructor
  · intro h
    have := Nat.xor_lt_two_pow h (show 1 < 2 ^ 31 by norm_num)
    rwa [Nat.xor_assoc, Nat.xor_self, Nat.xor_zero] at this
  · intro h
    exact Nat.xor_lt_two_pow h (by norm_num)

/-- Claim C2, which fails in the 64-bit instantiation: the trie stores the values below `2 ^ 31`
and `xor_all_values(1)` is called, so that it holds `s xor 1` for the values `s` below `2 ^ 31`,
which are again the values below `2 ^ 31`; the next `add_number()` returns `2 ^ 64 - 2 ^ 31`
instead of the smallest absent value `2 ^ 31`. -/
theorem c2_add_number_after_xor_64 :
    (add_number 64 (xor_all_values 64 1 (insert_all 64 (List.range (2 ^ 31)) empty))).1 =
      .ok (2 ^ 64 - 2 ^ 31) := by
  obtain ⟨hinv0, hcont0⟩ := insert_all_range_64
  obtain ⟨hinv, hx⟩ := xor_all_values_spec 64 1 _ hinv0
  have hcont : ∀ u, u < 2 ^ 64 →
      contains 64 (xor_all_values 64 1 (insert_all 64 (List.range (2 ^ 31)) empty)) u =
        decide (u < 2 ^ 31) := by
    intro u hu
    rw [hx u, hcont0 _ (Nat.xor_lt_two_pow hu (by norm_num))]
    simp only [xor_one_lt_iff]
  have h := (add_number_64_at_two_pow_31 _ hinv
    (fun y hy => by rw [hcont y (lt_trans hy (by norm_num))]; simpa using hy)
    (by rw [hcont _ (by norm_num)]; simp)).2
  rw [h, if_neg]
  rw [hcont _ (by norm_num)]
  simp

/-- Claim C4: in every reachable state `add_number()`, through `mex`, throws the full-trie
error iff every value of `NumberType` is stored, which is also when the fullness flag of the
root is set; a call that throws this error leaves the trie as it was. -/
theorem c4_full_error_iff_all_stored (W : Nat) (root : Node) (h : Reachable W root) :
    ((add_number W root).1 = .error .trie_is_full ↔
      ∀ v, v < 2 ^ W → contains W root v = true) ∧
    ((mex W root).1 = .error .trie_is_full ↔ ∀ v, v < 2 ^ W → contains W root v = true) ∧
    (root.get_fullness = true ↔ ∀ v, v < 2 ^ W → contains W root v = true) ∧
    ((add_number W root).1 = .error .trie_is_full → (add_number W root).2 = root) ∧
    ((mex W root).1 = .error .trie_is_full → (mex W root).2 = root) := by
  have hinv := invariant_of_reachable W root h
  have hfull := full_iff_all W root hinv
  have hmex : (mex W root).1 = .error .trie_is_full ↔ root.get_fullness = true := by
    constructor
    · intro he
      by_contra hf
      simp only [Bool.not_eq_true] at hf
      obtain ⟨x, root', hm, -⟩ := (mex_spec W root hinv).2 hf
      rw [hm] at he
      exact Except.noConfusion he
    · intro hf
      rw [(mex_spec W root hinv).1 hf]
  have hadd : (add_number W root).1 = .error .trie_is_full ↔ root.get_fullness = true := by
    constructor
    · intro he
      by_contra hf
      simp only [Bool.not_eq_true] at hf
      obtain ⟨x, root', hm, -, -, -, hinv', -⟩ := (mex_spec W root hinv).2 hf
      rw [add_number_eq W root _ root' hm] at he
      obtain ⟨-, herr, hok, -⟩ := add_number_value_spec W (assemble W W x) root' hinv'
      cases hc : contains W root' (assemble W W x)
      · rw [hok.2 hc] at he
        exact Except.noConfusion he
      · rw [herr.2 hc] at he
        simp at he
    · intro hf
      rw [add_number_full W root hf]
  refine ⟨hadd.trans hfull, hmex.trans hfull, hfull, ?_, ?_⟩
  · intro he
    rw [add_number_full W root (hadd.1 he)]
  · intro he
    rw [(mex_spec W root hinv).1 (hmex.1 he)]

/-- Claim C5: in every reachable state, pending masks included, `add_number(v)` throws the
duplicate error iff `v` is stored; when `v` is not stored the call succeeds, afterwards `v` is
stored and the membership of every other value is as before. -/
theorem c5_add_number_value_duplicate_iff (W : Nat) (root : Node) (v : Nat)
    (h : Reachable W root) (hv : v < 2 ^ W) :
    ((add_number_value W v root).1 = .error .id_already_taken ↔ contains W root v = true) ∧
    (contains W root v = false →
      (add_number_value W v root).1 = .ok () ∧
      ∀ u, u < 2 ^ W →
        contains W (add_number_value W v root).2 u = (contains W root u || decide (u = v))) := by
  obtain ⟨-, herr, hok, hcont⟩ := add_number_value_spec W v root (invariant_of_reachable W root h)
  refine ⟨herr, fun hc => ⟨hok.2 hc, fun u hu => ?_⟩⟩
  rw [hcont u, Nat.mod_eq_of_lt hu, Nat.mod_eq_of_lt hv]

/-- Witness of `c4_full_error_iff_all_stored`: after two calls of `add_number()` the 1-bit trie
is full and the third call throws the full-trie error. -/
theorem c4_full_error_iff_all_stored_witness :
    Reachable 1 (run 1 [Op.add_number, Op.add_number] empty) ∧
    (add_number 1 (run 1 [Op.add_number, Op.add_number] empty)).1 = .error .trie_is_full :=
  ⟨⟨[Op.add_number, Op.add_number], by decide, rfl⟩,
   (c4_full_error_iff_all_stored 1 (run 1 [Op.add_number, Op.add_number] empty)
      ⟨[Op.add_number, Op.add_number], by decide, rfl⟩).1.2 (by decide)⟩

/-- Witness of `c5_add_number_value_duplicate_iff`: the 8-bit trie of the task statement after
`add_number(1)`, `add_number(3)`, `xor_all_values(1)` stores 0 and 2, the mask being pending
below the root; `add_number(2)` throws the duplicate error. -/
theorem c5_add_number_value_duplicate_iff_witness :
    Reachable 8 (run 8 [Op.add_number_value 1, Op.add_number_value 3, Op.xor_all_values 1] empty) ∧
    (add_number_value 8 2
      (run 8 [Op.add_number_value 1, Op.add_number_value 3, Op.xor_all_values 1] empty)).1 =
        .error .id_already_taken :=
  ⟨⟨[Op.add_number_value 1, Op.add_number_value 3, Op.xor_all_values 1], by decide, rfl⟩,
   (c5_add_number_value_duplicate_iff 8
      (run 8 [Op.add_number_value 1, Op.add_number_value 3, Op.xor_all_values 1] empty) 2
      ⟨[Op.add_number_value 1, Op.add_number_value 3, Op.xor_all_values 1], by decide, rfl⟩
      (by decide)).1.2 (by decide)⟩

/-! ### Composition of `xor_all_values` -/

theorem xor_into_mask_zero (W : Nat) (c : Node) (hc : c.mask < 2 ^ W) :
    Node.xor_into_mask W 0 c = c := by
  cases c with
  | nullptr => rfl
  | node c0 c1 f m =>
    simp only [Node.mask] at hc
    simp only [Node.xor_into_mask, Nat.xor_zero, Nat.mod_eq_of_lt hc]

theorem xor_into_mask_comp (W x y : Nat) (c : Node) :
    Node.xor_into_mask W y (Node.xor_into_mask W x c) = Node.xor_into_mask W (x ^^^ y) c := by
  cases c with
  | nullptr => rfl
  | node c0 c1 f m =>
    simp only [Node.xor_into_mask]
    congr 1
    apply Nat.eq_of_testBit_eq
    intro i
    simp only [Nat.testBit_mod_two_pow, Nat.testBit_xor]
    by_cases hi : i < W
    · simp [hi]
    · simp [hi]

theorem xor_into_mask_mask_lt (W x : Nat) (c : Node) : (Node.xor_into_mask W x c).mask < 2 ^ W := by
  cases c with
  | nullptr => exact Nat.two_pow_pos W
  | node c0 c1 f m => exact Nat.mod_lt _ (Nat.two_pow_pos W)

theorem mask_lt_of_well_formed (W h : Nat) (n : Node) (hw : well_formed W h n = true) :
    n.mask < 2 ^ W := by
  cases n with
  | nullptr => exact Nat.two_pow_pos W
  | node c0 c1 f m =>
    cases h with
    | zero => exact ((well_formed_zero_node W c0 c1 f m).1 hw).2.2
    | succ h => exact ((well_formed_succ_node W h c0 c1 f m).1 hw).2.1

/-- The root of a trie that satisfies the invariant: a node without pending mask whose
children have masks of type `NumberType`. -/
theorem root_of_invariant (W : Nat) (root : Node) (hinv : invariant W root = true) :
    ∃ c0 c1 f, root = .node c0 c1 f 0 ∧ c0.mask < 2 ^ W ∧ c1.mask < 2 ^ W := by
  obtain ⟨hn, hm, hw⟩ := (invariant_iff W root).1 hinv
  cases root with
  | nullptr => simp at hn
  | node c0 c1 f m =>
    simp only [Node.mask] at hm
    subst hm
    refine ⟨c0, c1, f, rfl, ?_, ?_⟩
    · cases W with
      | zero =>
        rw [((well_formed_zero_node 0 c0 c1 f 0).1 hw).1]; exact Nat.two_pow_pos 0
      | succ h =>
        exact mask_lt_of_well_formed _ h c0 ((well_formed_succ_node _ h c0 c1 f 0).1 hw).2.2.1
    · cases W with
      | zero =>
        rw [((well_formed_zero_node 0 c0 c1 f 0).1 hw).2.1]; exact Nat.two_pow_pos 0
      | succ h =>
        exact mask_lt_of_well_formed _ h c1 ((well_formed_succ_node _ h c0 c1 f 0).1 hw).2.2.2

/-- `xor_all_values` on a root without pending mask: the children are swapped when bit
`W - 1` of the key is set, and the key shifted by one is merged into their masks. -/
theorem xor_all_values_node (W k : Nat) (c0 c1 : Node) (f : Bool) (hk : k < 2 ^ W)
    (h0 : c0.mask < 2 ^ W) (h1 : c1.mask < 2 ^ W) :
    xor_all_values W k (.node c0 c1 f 0) =
      if k.testBit (W - 1) then
        .node (Node.xor_into_mask W (k <<< 1) c1) (Node.xor_into_mask W (k <<< 1) c0) f 0
      else .node (Node.xor_into_mask W (k <<< 1) c0) (Node.xor_into_mask W (k <<< 1) c1) f 0 := by
  have e : xor_all_values W k (.node c0 c1 f 0) =
      Node.push_inconsistency W (.node c0 c1 f ((0 ^^^ k) % 2 ^ W)) := rfl
  rw [e, Nat.zero_xor, Nat.mod_eq_of_lt hk, push_node]
  by_cases hk0 : k = 0
  · subst hk0
    simp [xor_into_mask_zero W c0 h0, xor_into_mask_zero W c1 h1]
  · rw [if_neg hk0]
    by_cases hb : k.testBit (W - 1) = true
    · rw [if_pos hb, if_pos ((and_one_eq_one_iff_testBit k (W - 1)).2 hb)]
    · rw [if_neg hb, if_neg (fun e => hb ((and_one_eq_one_iff_testBit k (W - 1)).1 e))]

theorem xor_all_values_comp (W a b : Nat) (root : Node) (hinv : invariant W root = true)
    (ha : a < 2 ^ W) (hb : b < 2 ^ W) :
    xor_all_values W b (xor_all_values W a root) = xor_all_values W (a ^^^ b) root := by
  obtain ⟨c0, c1, f, rfl, h0, h1⟩ := root_of_invariant W root hinv
  rw [xor_all_values_node W a c0 c1 f ha h0 h1,
    xor_all_values_node W (a ^^^ b) c0 c1 f (Nat.xor_lt_two_pow ha hb) h0 h1,
    Nat.testBit_xor, shiftLeft_one_xor]
  cases hta : a.testBit (W - 1) <;> cases htb : b.testBit (W - 1)
  all_goals
    simp only [Bool.false_eq_true, if_false, if_true, Bool.xor_false, Bool.xor_true,
      Bool.not_false, Bool.not_true]
    rw [xor_all_values_node W b _ _ f hb (xor_into_mask_mask_lt W _ _)
      (xor_into_mask_mask_lt W _ _), htb]
    simp only [Bool.false_eq_true, if_false, if_true, xor_into_mask_comp]

theorem xor_all_values_zero (W : Nat) (root : Node) (hinv : invariant W root = true) :
    xor_all_values W 0 root = root := by
  obtain ⟨c0, c1, f, rfl, h0, h1⟩ := root_of_invariant W root hinv
  rw [xor_all_values_node W 0 c0 c1 f (Nat.two_pow_pos W) h0 h1]
  simp [xor_into_mask_zero W c0 h0, xor_into_mask_zero W c1 h1]

/-- Claim C7: in every reachable state `xor_all_values(a)` followed by `xor_all_values(b)`
yields the very trie that `xor_all_values(a xor b)` yields, hence the same results and errors
of every later sequence of calls; in particular `xor_all_values(a)` twice gives back the trie
as it was. -/
theorem c7_xor_all_values_compose (W : Nat) (root : Node) (a b : Nat) (h : Reachable W root)
    (ha : a < 2 ^ W) (hb : b < 2 ^ W) :
    xor_all_values W b (xor_all_values W a root) = xor_all_values W (a ^^^ b) root ∧
    (∀ ops, observations W ops (xor_all_values W b (xor_all_values W a root)) =
      observations W ops (xor_all_values W (a ^^^ b) root)) ∧
    xor_all_values W a (xor_all_values W a root) = root ∧
    (∀ ops, observations W ops (xor_all_values W a (xor_all_values W a root)) =
      observations W ops root) := by
  have hinv := invariant_of_reachable W root h
  have h1 := xor_all_values_comp W a b root hinv ha hb
  have h2 : xor_all_values W a (xor_all_values W a root) = root := by
    rw [xor_all_values_comp W a a root hinv ha ha, Nat.xor_self,
      xor_all_values_zero W root hinv]
  exact ⟨h1, fun ops => by rw [h1], h2, fun ops => by rw [h2]⟩

/-- Witness of `c7_xor_all_values_compose`: on the 8-bit trie that stores 1 and 3, the keys
5 and 3 one after the other give the trie that the key 6 gives. -/
theorem c7_xor_all_values_compose_witness :
    Reachable 8 (run 8 [Op.add_number_value 1, Op.add_number_value 3] empty) ∧ 5 < 2 ^ 8 ∧
    3 < 2 ^ 8 ∧
    xor_all_values 8 3
        (xor_all_values 8 5 (run 8 [Op.add_number_value 1, Op.add_number_value 3] empty)) =
      xor_all_values 8 (5 ^^^ 3) (run 8 [Op.add_number_value 1, Op.add_number_value 3] empty) :=
  ⟨⟨[Op.add_number_value 1, Op.add_number_value 3], by decide, rfl⟩, by decide, by decide,
   (c7_xor_all_values_compose 8
      (run 8 [Op.add_number_value 1, Op.add_number_value 3] empty) 5 3
      ⟨[Op.add_number_value 1, Op.add_number_value 3], by decide, rfl⟩
      (by decide) (by decide)).1⟩

/-! ### What a failing `add_number(value)` changes -/

theorem normalize_push (W h : Nat) (n : Node) :
    normalize W h (Node.push_inconsistency W n) = normalize W h n := by
  cases h with
  | zero => simp [normalize]
  | succ h => simp only [normalize, push_idem]

theorem normalize_succ_mask_zero (W h : Nat) (c0 c1 : Node) (f : Bool) :
    normalize W (h + 1) (.node c0 c1 f 0) = .node (normalize W h c0) (normalize W h c1) f 0 := by
  simp only [normalize, push_node, if_true]

theorem normalize_set_child (W h : Nat) (p a b : Node) (i : Nat) (hp : p.mask = 0)
    (hab : normalize W h a = normalize W h b) :
    normalize W (h + 1) (p.set_child i a) = normalize W (h + 1) (p.set_child i b) := by
  cases p with
  | nullptr => rfl
  | node c0 c1 f m =>
    simp only [Node.mask] at hp
    subst hp
    by_cases hi : i = 0
    · subst hi
      rw [set_child_node_zero, set_child_node_zero, normalize_succ_mask_zero,
        normalize_succ_mask_zero, hab]
    · have e : ∀ c, (Node.node c0 c1 f 0).set_child i c = .node c0 c f 0 := by
        intro c; simp [Node.set_child, hi]
      rw [e, e, normalize_succ_mask_zero, normalize_succ_mask_zero, hab]

/-- Two current nodes with the same normal form give tries with the same normal form. -/
theorem normalize_rebuild_congr (W : Nat) : ∀ (path : Path) (h : Nat) (a b : Node),
    (∀ q ∈ path, q.1.mask = 0) → h + path.length = W →
    normalize W h a = normalize W h b →
    normalize W W (rebuild a path) = normalize W W (rebuild b path) := by
  intro path
  induction path with
  | nil =>
    intro h a b _ hlen hab
    simp only [List.length_nil, Nat.add_zero] at hlen
    subst hlen
    exact hab
  | cons q rest ih =>
    intro h a b hq hlen hab
    obtain ⟨p, i⟩ := q
    simp only [List.length_cons] at hlen
    rw [rebuild, rebuild]
    apply ih (h + 1) _ _ (fun q hq' => hq q (List.mem_cons_of_mem _ hq')) (by omega)
    exact normalize_set_child W h p a b i (hq (p, i) (List.mem_cons_self _ _)) hab

theorem no_pending_node (c0 c1 : Node) (f : Bool) (m : Nat) :
    no_pending (.node c0 c1 f m) = true ↔
      m = 0 ∧ no_pending c0 = true ∧ no_pending c1 = true := by
  simp [no_pending, and_assoc]

theorem mask_of_no_pending {n : Node} (h : no_pending n = true) : n.mask = 0 := by
  cases n with
  | nullptr => rfl
  | node c0 c1 f m => exact ((no_pending_node c0 c1 f m).1 h).1

theorem no_pending_child {n : Node} (h : no_pending n = true) (i : Nat) :
    no_pending (n.child i) = true := by
  cases n with
  | nullptr => rfl
  | node c0 c1 f m =>
    obtain ⟨-, h0, h1⟩ := (no_pending_node c0 c1 f m).1 h
    by_cases hi : i = 0 <;> simp [Node.child, hi, h0, h1]

theorem no_pending_set_child {n c : Node} (h : no_pending n = true) (hc : no_pending c = true)
    (i : Nat) : no_pending (n.set_child i c) = true := by
  cases n with
  | nullptr => rfl
  | node c0 c1 f m =>
    obtain ⟨hm, h0, h1⟩ := (no_pending_node c0 c1 f m).1 h
    by_cases hi : i = 0
    · simp only [Node.set_child, hi, if_true]
      exact (no_pending_node _ _ _ _).2 ⟨hm, hc, h1⟩
    · simp only [Node.set_child, hi, if_false]
      exact (no_pending_node _ _ _ _).2 ⟨hm, h0, hc⟩

theorem no_pending_set_is_full {n : Node} (h : no_pending n = true) (b : Bool) :
    no_pending (n.set_is_full b) = true := by
  cases n with
  | nullptr => rfl
  | node c0 c1 f m => exact h

theorem push_of_no_pending (W : Nat) {n : Node} (h : no_pending n = true) :
    Node.push_inconsistency W n = n :=
  push_of_mask_zero W (mask_of_no_pending h)

theorem no_pending_rebuild : ∀ (path : Path) (cur : Node), no_pending cur = true →
    (∀ q ∈ path, no_pending q.1 = true) → no_pending (rebuild cur path) = true := by
  intro path
  induction path with
  | nil => intro cur h _; exact h
  | cons q rest ih =>
    intro cur h hq
    obtain ⟨p, i⟩ := q
    rw [rebuild]
    exact ih _ (no_pending_set_child (hq (p, i) (List.mem_cons_self _ _)) h i)
      (fun q hq' => hq q (List.mem_cons_of_mem _ hq'))

theorem no_pending_set_fullness : ∀ (path : Path) (cur : Node) (value : Bool),
    no_pending cur = true → (∀ q ∈ path, no_pending q.1 = true) →
    no_pending (set_fullness value cur path) = true := by
  intro path
  induction path with
  | nil => intro cur value h _; exact no_pending_set_is_full h value
  | cons q rest ih =>
    intro cur value h hq
    obtain ⟨p, i⟩ := q
    have hp1 : no_pending (p.set_child i (cur.set_is_full value)) = true :=
      no_pending_set_child (hq (p, i) (List.mem_cons_self _ _)) (no_pending_set_is_full h value) i
    have hrest : ∀ q ∈ rest, no_pending q.1 = true :=
      fun q hq' => hq q (List.mem_cons_of_mem _ hq')
    rw [set_fullness_cons]
    split_ifs
    · exact ih _ _ hp1 hrest
    · exact no_pending_rebuild rest _ hp1 hrest

theorem no_pending_descend (W v : Nat) : ∀ (k : Nat) (cur : Node) (path : Path),
    no_pending cur = true → (∀ q ∈ path, no_pending q.1 = true) →
    no_pending (descend W v k cur path).2.1 = true ∧
      (∀ q ∈ (descend W v k cur path).2.2, no_pending q.1 = true) := by
  intro k
  induction k with
  | zero => intro cur path h hq; exact ⟨h, hq⟩
  | succ k ih =>
    intro cur path h hq
    rw [descend_succ]
    have hnext : no_pending (if (cur.child ((v >>> k) &&& 1)).is_null then Node.fresh
        else (cur.child ((v >>> k) &&& 1)).push_inconsistency W) = true := by
      split_ifs
      · rfl
      · rw [push_of_no_pending W (no_pending_child h _)]
        exact no_pending_child h _
    apply ih _ _ hnext
    intro q hq'
    rcases List.mem_cons.1 hq' with e | e
    · rw [e]
      exact no_pending_set_child h hnext _
    · exact hq q e

/-- A trie without pending masks has none after `add_number(value)`. -/
theorem no_pending_add_number_value (W v : Nat) (root : Node) (h : no_pending root = true) :
    no_pending (add_number_value W v root).2 = true := by
  obtain ⟨h1, h2⟩ := no_pending_descend W v W root [] h (fun _ hq => by simp at hq)
  unfold add_number_value
  rcases hd : descend W v W root [] with ⟨e, leaf, path'⟩
  rw [hd] at h1 h2
  cases e with
  | some e => exact no_pending_rebuild path' leaf h1 h2
  | none =>
    simp only
    split_ifs
    · exact no_pending_rebuild path' leaf h1 h2
    · exact no_pending_set_fullness path' leaf true h1 h2

/-- The descent of `add_number(value)` to a stored value creates no node: it only pushes the
pending masks of the nodes it visits, so the trie keeps its normal form, and it changes
nothing when the subtree it descends into has no pending mask. -/
theorem descend_present (W v : Nat) : ∀ (k : Nat) (cur : Node) (path : Path),
    cur.mask = 0 → (∀ q ∈ path, q.1.mask = 0) → k + path.length = W →
    lookup W k cur 0 v = true →
    normalize W W (rebuild (descend W v k cur path).2.1 (descend W v k cur path).2.2) =
        normalize W W (rebuild cur path) ∧
      (no_pending cur = true →
        rebuild (descend W v k cur path).2.1 (descend W v k cur path).2.2 =
          rebuild cur path) := by
  intro k
  induction k with
  | zero => intro cur path _ _ _ _; exact ⟨rfl, fun _ => rfl⟩
  | succ k ih =>
    intro cur path hm hq hlen hl
    cases cur with
    | nullptr => simp at hl
    | node c0 c1 f m =>
      simp only [Node.mask] at hm
      subst hm
      rw [descend_succ]
      have hb1 : (v >>> k) &&& 1 ≤ 1 := bit_index_le v k
      have hchild : lookup W k ((Node.node c0 c1 f 0).child ((v >>> k) &&& 1)) 0 v = true := by
        rw [lookup_succ_mask_zero] at hl
        rw [bit_index_eq]
        by_cases hv : v.testBit k = true
        · rw [if_pos hv] at hl ⊢; exact hl
        · rw [if_neg hv] at hl ⊢; exact hl
      generalize (v >>> k) &&& 1 = b at hb1 hchild
      set cur : Node := .node c0 c1 f 0 with hcur
      have hnn : (cur.child b).is_null = false := by
        cases hc : cur.child b with
        | nullptr => rw [hc] at hchild; simp at hchild
        | node _ _ _ _ => rfl
      simp only [hnn, Bool.false_eq_true, if_false]
      have hq' : ∀ q ∈ (cur.set_child b ((cur.child b).push_inconsistency W), b) :: path,
          q.1.mask = 0 := by
        intro q hq'
        rcases List.mem_cons.1 hq' with e | e
        · rw [e]
          show (cur.set_child b _).mask = 0
          rw [set_child_mask]
          rfl
        · exact hq q e
      obtain ⟨h1, h2⟩ := ih ((cur.child b).push_inconsistency W)
        ((cur.set_child b ((cur.child b).push_inconsistency W), b) :: path) (push_mask W _) hq'
        (by simp only [List.length_cons]; omega)
        (by rw [lookup_push W k _ 0 v (by omega)]; exact hchild)
      constructor
      · rw [h1, rebuild, set_child_set_child]
        apply normalize_rebuild_congr W path (k + 1) _ _ hq hlen
        have := normalize_set_child W k cur ((cur.child b).push_inconsistency W) (cur.child b) b
          rfl (normalize_push W k _)
        rw [this, set_child_child]
      · intro hnp
        have hpc : (cur.child b).push_inconsistency W = cur.child b :=
          push_of_no_pending W (no_pending_child hnp b)
        have := h2 (by rw [hpc]; exact no_pending_child hnp b)
        rw [this, rebuild, set_child_set_child, hpc, set_child_child]

theorem node_count_xor_into_mask (W x : Nat) (n : Node) :
    node_count (Node.xor_into_mask W x n) = node_count n := by
  cases n <;> rfl

theorem node_count_push (W : Nat) (n : Node) :
    node_count (Node.push_inconsistency W n) = node_count n := by
  cases n with
  | nullptr => rfl
  | node c0 c1 f m =>
    rw [push_node]
    split_ifs
    · rfl
    · simp only [node_count, node_count_xor_into_mask]; omega
    · simp only [node_count, node_count_xor_into_mask]

theorem node_count_normalize (W : Nat) : ∀ (h : Nat) (n : Node),
    node_count (normalize W h n) = node_count n := by
  intro h
  induction h with
  | zero => intro n; exact node_count_push W n
  | succ h ih =>
    intro n
    rw [← node_count_push W n]
    simp only [normalize]
    cases Node.push_inconsistency W n with
    | nullptr => rfl
    | node c0 c1 f m => simp only [node_count, ih]

/-- What `add_number(value)` does when the value is stored, on a trie that satisfies the
invariant: it throws the duplicate error; the trie it leaves has the normal form, the number
of nodes and the stored set of the trie before, and is the trie before when that had no pending
mask. -/
theorem add_number_value_present (W v : Nat) (root : Node) (hinv : invariant W root = true)
    (hc : contains W root v = true) :
    (add_number_value W v root).1 = .error .id_already_taken ∧
    normalize W W (add_number_value W v root).2 = normalize W W root ∧
    node_count (add_number_value W v root).2 = node_count root ∧
    (∀ u, contains W (add_number_value W v root).2 u = contains W root u) ∧
    (no_pending root = true → (add_number_value W v root).2 = root) := by
  obtain ⟨hn, hm, hw⟩ := (invariant_iff W root).1 hinv
  obtain ⟨-, herr, -, hcont⟩ := add_number_value_spec W v root hinv
  have hp : path_ok W v W root.get_fullness [] = true := (path_ok_nil W v W _).2 rfl
  obtain ⟨leaf, path', hd, -, hln, -, hlp, hlc⟩ := descend_spec W v W root [] hw hn hm hp
  obtain ⟨h1, h2⟩ := descend_present W v W root [] hm (fun _ hq => by simp at hq) rfl hc
  rw [hd] at h1 h2
  have hleaf : leaf.get_fullness = true := by
    have h3 := contains_rebuild_on W v path' 0 _ leaf v hlp (fun _ _ _ => rfl)
    have h4 := hlc v
    simp only [rebuild] at h4
    rw [h4, hc] at h3
    cases leaf with
    | nullptr => simp at hln
    | node c0 c1 f m => exact h3.symm
  have hres : (add_number_value W v root).2 = rebuild leaf path' := by
    rw [add_number_value_eq W v root leaf path' hd, hleaf]
    rfl
  refine ⟨herr.2 hc, ?_, ?_, ?_, ?_⟩
  · rw [hres]; exact h1
  · rw [← node_count_normalize W W, hres, h1, node_count_normalize]
    rfl
  · intro u
    rw [hres, hlc u]
    rfl
  · intro hnp
    rw [hres]
    exact h2 hnp

/-- Claim C6 as stated fails: on the reachable 8-bit trie obtained by `add_number(0)` and
`xor_all_values(1)`, which stores 1 with a mask pending below the root, `add_number(1)` throws
the duplicate error and leaves a trie that differs from the one before the call. -/
theorem c6_failing_add_changes_trie :
    Reachable 8 (run 8 [Op.add_number_value 0, Op.xor_all_values 1] empty) ∧
    contains 8 (run 8 [Op.add_number_value 0, Op.xor_all_values 1] empty) 1 = true ∧
    (add_number_value 8 1 (run 8 [Op.add_number_value 0, Op.xor_all_values 1] empty)).1 =
      .error .id_already_taken ∧
    (add_number_value 8 1 (run 8 [Op.add_number_value 0, Op.xor_all_values 1] empty)).2 ≠
      run 8 [Op.add_number_value 0, Op.xor_all_values 1] empty :=
  ⟨⟨[Op.add_number_value 0, Op.xor_all_values 1], by decide, rfl⟩, by decide, by decide,
    by decide⟩

/-- Claim C6, amended: in every reachable state, `add_number(v)` for a stored `v` throws the
duplicate error and leaves a trie that is the trie before the call up to the resolution of
pending masks: both have the same normal form (the same nodes, flags and child positions once
every pending mask is pushed down), the same number of nodes and the same stored set; the trie
is unchanged when it had no pending mask.  In particular `add_number(v)` twice on a fresh trie
leaves the trie as it was after the first call. -/
theorem c6_failing_add_number_value (W : Nat) (root : Node) (v : Nat) (h : Reachable W root)
    (_hv : v < 2 ^ W) (hc : contains W root v = true) :
    (add_number_value W v root).1 = .error .id_already_taken ∧
    normalize W W (add_number_value W v root).2 = normalize W W root ∧
    node_count (add_number_value W v root).2 = node_count root ∧
    (∀ u, contains W (add_number_value W v root).2 u = contains W root u) ∧
    (no_pending root = true → (add_number_value W v root).2 = root) ∧
    add_number_value W v (add_number_value W v empty).2 =
      (.error .id_already_taken, (add_number_value W v empty).2) := by
  obtain ⟨h1, h2, h3, h4, h5⟩ :=
    add_number_value_present W v root (invariant_of_reachable W root h) hc
  refine ⟨h1, h2, h3, h4, h5, ?_⟩
  obtain ⟨hinv1, -, -, hcont1⟩ := add_number_value_spec W v empty (invariant_empty W)
  have hc1 : contains W (add_number_value W v empty).2 v = true := by
    rw [hcont1 v]; simp
  obtain ⟨g1, -, -, -, g5⟩ := add_number_value_present W v _ hinv1 hc1
  exact Prod.ext g1 (g5 (no_pending_add_number_value W v empty rfl))

/-- Witness of `c6_failing_add_number_value`: the 8-bit trie after `add_number(0)` and
`xor_all_values(1)` stores 1; `add_number(1)` throws and keeps the normal form. -/
theorem c6_failing_add_number_value_witness :
    Reachable 8 (run 8 [Op.add_number_value 0, Op.xor_all_values 1] empty) ∧ 1 < 2 ^ 8 ∧
    contains 8 (run 8 [Op.add_number_value 0, Op.xor_all_values 1] empty) 1 = true ∧
    normalize 8 8
        (add_number_value 8 1 (run 8 [Op.add_number_value 0, Op.xor_all_values 1] empty)).2 =
      normalize 8 8 (run 8 [Op.add_number_value 0, Op.xor_all_values 1] empty) :=
  ⟨⟨[Op.add_number_value 0, Op.xor_all_values 1], by decide, rfl⟩, by decide, by decide,
   (c6_failing_add_number_value 8 (run 8 [Op.add_number_value 0, Op.xor_all_values 1] empty) 1
      ⟨[Op.add_number_value 0, Op.xor_all_values 1], by decide, rfl⟩ (by decide)
      (by decide)).2.1⟩

/-! ### Tries that store the same set behave alike -/

/-- `add_number()` on a trie that is not full, for `NumberType` of at most 32 bits: it returns
the smallest absent value and stores it. -/
theorem add_number_of_not_full (W : Nat) (root : Node) (hinv : invariant W root = true)
    (hW : W ≤ 32) (hf : root.get_fullness = false) :
    ∃ v, v < 2 ^ W ∧ contains W root v = false ∧ (∀ y, y < v → contains W root y = true) ∧
      (add_number W root).1 = .ok v ∧
      (∀ u, u < 2 ^ W →
        contains W (add_number W root).2 u = (contains W root u || decide (u = v))) := by
  obtain ⟨x, -, -, hx, habs, hmin, -, -⟩ := (mex_spec W root hinv).2 hf
  obtain ⟨h1, -, h3⟩ := add_number_spec_exact W root x hinv hx habs hmin (Or.inl hW)
  refine ⟨x, hx, habs, hmin, h1, fun u hu => ?_⟩
  rw [h3 u, Nat.mod_eq_of_lt hu, Nat.mod_eq_of_lt hx]

/-- After `xor_all_values(k)` the trie stores `s xor k` for the values `s` stored before:
`add_number(v)` throws the duplicate error iff `v xor k` was stored, and, for `NumberType`
of at most 32 bits, `add_number()` returns the smallest `m` such that `m xor k` was not
stored. -/
theorem calls_after_xor_all_values (W k : Nat) (root : Node) (hinv : invariant W root = true) :
    (∀ u, contains W (xor_all_values W k root) u = contains W root (u ^^^ k)) ∧
    (∀ v, (add_number_value W v (xor_all_values W k root)).1 = .error .id_already_taken ↔
      contains W root (v ^^^ k) = true) ∧
    (W ≤ 32 → ∀ m, m < 2 ^ W → contains W root (m ^^^ k) = false →
      (∀ y, y < m → contains W root (y ^^^ k) = true) →
      (add_number W (xor_all_values W k root)).1 = .ok m) := by
  obtain ⟨hinv1, hx⟩ := xor_all_values_spec W k root hinv
  refine ⟨hx, fun v => ?_, fun hW m hm habs hmin => ?_⟩
  · rw [← hx v]
    exact (add_number_value_spec W v _ hinv1).2.1
  · exact (add_number_spec_exact W _ m hinv1 hm (by rw [hx]; exact habs)
      (fun y hy => by rw [hx]; exact hmin y hy) (Or.inl hW)).1

/-- The example of the task statement in 8 bits: insert 1 and 3, xor with 1, register (1),
xor with 1, register (2). -/
theorem observations_task_example :
    observations 8 [Op.add_number_value 1, Op.add_number_value 3, Op.xor_all_values 1,
        Op.add_number, Op.xor_all_values 1, Op.add_number] empty =
      [.ok none, .ok none, .ok none, .ok (some 1), .ok none, .ok (some 2)] := by
  decide

/-- The same example in 64 bits (`test_64bit_from_task`). -/
theorem observations_task_example_64 :
    observations 64 [Op.add_number_value 1, Op.add_number_value 3, Op.xor_all_values 1,
        Op.add_number, Op.xor_all_values 1, Op.add_number] empty =
      [.ok none, .ok none, .ok none, .ok (some 1), .ok none, .ok (some 2)] := by
  set_option maxRecDepth 100000 in decide

/-- The first five registrations in 8 bits (`test_8bit_sequential_registrations`). -/
theorem allocate_many_8_bit_five :
    (allocate_many 8 5 empty).1 = [.ok 0, .ok 1, .ok 2, .ok 3, .ok 4] := by
  decide

theorem step_congr (W : Nat) (op : Op) (t1 t2 : Node) (h1 : invariant W t1 = true)
    (h2 : invariant W t2 = true) (hc : ∀ u, contains W t1 u = contains W t2 u) :
    op.observe W t1 = op.observe W t2 ∧
      (∀ u, contains W (op.step W t1) u = contains W (op.step W t2) u) := by
  cases op with
  | add_number_value v =>
    obtain ⟨-, e1, o1, c1⟩ := add_number_value_spec W v t1 h1
    obtain ⟨-, e2, o2, c2⟩ := add_number_value_spec W v t2 h2
    constructor
    · simp only [Op.observe]
      cases hv : contains W t1 v
      · rw [o1.2 hv, o2.2 (by rw [← hc, hv])]
      · rw [e1.2 hv, e2.2 (by rw [← hc, hv])]
    · intro u
      simp only [Op.step]
      rw [c1 u, c2 u, hc u]
  | add_number =>
    have hfull : t1.get_fullness = t2.get_fullness := by
      have f1 := full_iff_all W t1 h1
      have f2 := full_iff_all W t2 h2
      cases hf1 : t1.get_fullness
      · cases hf2 : t2.get_fullness
        · rfl
        · have := f1.2 (fun v hv => by rw [hc v]; exact f2.1 hf2 v hv)
          rw [hf1] at this
          exact this
      · exact (f2.2 (fun v hv => by rw [← hc v]; exact f1.1 hf1 v hv)).symm
    cases hf1 : t1.get_fullness
    · have hf2 : t2.get_fullness = false := by rw [← hfull, hf1]
      obtain ⟨x1, r1, hm1, hx1, ha1, hmin1, hi1, hc1⟩ := (mex_spec W t1 h1).2 hf1
      obtain ⟨x2, r2, hm2, hx2, ha2, hmin2, hi2, hc2⟩ := (mex_spec W t2 h2).2 hf2
      have hx : x2 = x1 := least_absent_unique W t1 x2 x1 (by rw [hc, ha2])
        (fun y hy => by rw [hc]; exact hmin2 y hy) ha1 hmin1
      subst hx
      obtain ⟨-, e1, o1, c1⟩ := add_number_value_spec W (assemble W W x2) r1 hi1
      obtain ⟨-, e2, o2, c2⟩ := add_number_value_spec W (assemble W W x2) r2 hi2
      have hr : ∀ u, contains W r1 u = contains W r2 u := fun u => by rw [hc1, hc2, hc]
      constructor
      · rw [observe_add_number, observe_add_number, add_number_eq W t1 _ r1 hm1,
          add_number_eq W t2 _ r2 hm2]
        cases hv : contains W r1 (assemble W W x2)
        · rw [o1.2 hv, o2.2 (by rw [← hr, hv])]
        · rw [e1.2 hv, e2.2 (by rw [← hr, hv])]
      · intro u
        simp only [Op.step]
        rw [add_number_eq W t1 _ r1 hm1, add_number_eq W t2 _ r2 hm2]
        simp only
        rw [c1 u, c2 u, hr u]
    · have hf2 : t2.get_fullness = true := by rw [← hfull, hf1]
      constructor
      · rw [observe_add_number, observe_add_number, add_number_full W t1 hf1,
          add_number_full W t2 hf2]
      · intro u
        simp only [Op.step]
        rw [add_number_full W t1 hf1, add_number_full W t2 hf2]
        exact hc u
  | xor_all_values k =>
    refine ⟨rfl, fun u => ?_⟩
    simp only [Op.step]
    rw [(xor_all_values_spec W k t1 h1).2 u, (xor_all_values_spec W k t2 h2).2 u, hc]

/-- Two tries that satisfy the invariant and store the same set give the same results and
errors for every sequence of calls, whatever masks are pending in them. -/
theorem observations_congr (W : Nat) : ∀ (ops : List Op) (t1 t2 : Node),
    invariant W t1 = true → invariant W t2 = true →
    (∀ u, contains W t1 u = contains W t2 u) →
    observations W ops t1 = observations W ops t2 := by
  intro ops
  induction ops with
  | nil => intro _ _ _ _ _; rfl
  | cons op ops ih =>
    intro t1 t2 h1 h2 hc
    obtain ⟨ho, hs⟩ := step_congr W op t1 t2 h1 h2 hc
    simp only [observations]
    rw [ho, ih _ _ (invariant_step W op t1 h1) (invariant_step W op t2 h2) hs]

/-! ### The child index is always valid -/

theorem descend_no_error (W v : Nat) : ∀ (k : Nat) (cur : Node) (path : Path),
    (descend W v k cur path).1 = none := by
  intro k
  induction k with
  | zero => intro cur path; rfl
  | succ k ih =>
    intro cur path
    rw [descend_succ]
    exact ih _ _

theorem mex_loop_nullptr (W k res : Nat) :
    mex_loop W k .nullptr res = (.ok res, .nullptr) := by
  cases k with
  | zero => rfl
  | succ k => simp [mex_loop, Node.get_child, Node.child]

/-- The loop of `mex` never throws. -/
theorem mex_loop_ok (W : Nat) : ∀ (k : Nat) (cur : Node) (res : Nat),
    ∃ r, (mex_loop W k cur res).1 = .ok r := by
  intro k
  induction k with
  | zero => intro cur res; exact ⟨res, rfl⟩
  | succ k ih =>
    intro cur res
    cases cur with
    | nullptr => exact ⟨res, by rw [mex_loop_nullptr]⟩
    | node c0 c1 f m =>
      cases h0 : c0.is_null
      · cases hf : c0.get_fullness
        · rw [mex_loop_succ_left W k c0 c1 f m res h0 hf]
          exact ih _ _
        · cases h1 : c1.is_null
          · rw [mex_loop_succ_right W k c0 c1 f m res h0 hf h1]
            exact ih _ _
          · rw [mex_loop_succ_right_null W k c0 c1 f m res h0 hf h1]
            exact ⟨_, rfl⟩
      · rw [mex_loop_succ_null W k c0 c1 f m res h0]
        exact ⟨_, rfl⟩

theorem mex_no_invalid_index (W : Nat) (root : Node) :
    (mex W root).1 ≠ .error .invalid_index := by
  unfold mex
  split_ifs
  · simp
  · obtain ⟨r, hr⟩ := mex_loop_ok W W root 0
    rw [hr]
    simp

theorem add_number_value_no_invalid_index (W v : Nat) (root : Node) :
    (add_number_value W v root).1 ≠ .error .invalid_index := by
  unfold add_number_value
  have h := descend_no_error W v W root []
  rcases hd : descend W v W root [] with ⟨e, leaf, path⟩
  rw [hd] at h
  simp only at h
  subst h
  simp only
  split_ifs <;> simp

theorem add_number_no_invalid_index (W : Nat) (root : Node) :
    (add_number W root).1 ≠ .error .invalid_index := by
  unfold add_number
  have h1 := mex_no_invalid_index W root
  rcases hm : mex W root with ⟨o, root1⟩
  rw [hm] at h1
  cases o with
  | error e =>
    simp only at h1 ⊢
    exact h1
  | ok id =>
    simp only
    have h2 := add_number_value_no_invalid_index W id root1
    rcases ha : add_number_value W id root1 with ⟨o2, root2⟩
    rw [ha] at h2
    cases o2 with
    | error e => simpa using h2
    | ok u => simp

/-- Claim C19: the invalid-index error is unreachable.  `get_child` and `get_or_create_child`
throw it exactly for an index above 1; the indices that `add_number(v)` passes are the bits
`(v >> bit_no) & 1`, those that `mex` passes are 0 and `bit_value`, all of them 0 or 1; hence
`add_number()`, `mex` and `add_number(v)` never end with that error, on any trie and for any
argument (`xor_all_values` calls neither function). -/
theorem c19_invalid_index_unreachable (W : Nat) (root : Node) (v bit_no : Nat) (full : Bool) :
    (∀ this index, Node.get_child W this index = .error .invalid_index ↔ 1 < index) ∧
    (∀ this index, Node.get_or_create_child W this index = .error .invalid_index ↔ 1 < index) ∧
    (v >>> bit_no) &&& 1 ≤ 1 ∧ (if full then 1 else 0) ≤ 1 ∧
    (descend W v W root []).1 = none ∧
    (add_number_value W v root).1 ≠ .error .invalid_index ∧
    (mex W root).1 ≠ .error .invalid_index ∧
    (add_number W root).1 ≠ .error .invalid_index := by
  refine ⟨fun this index => ?_, fun this index => ?_, bit_index_le v bit_no, ?_,
    descend_no_error W v W root [], add_number_value_no_invalid_index W v root,
    mex_no_invalid_index W root, add_number_no_invalid_index W root⟩
  · by_cases hi : index ≤ 1
    · rw [get_child_eq W this hi]
      simp
      omega
    · constructor
      · intro _; omega
      · intro _
        simp [Node.get_child, show index > 1 by omega]
  · by_cases hi : index ≤ 1
    · rw [get_or_create_child_eq W this hi]
      simp
      omega
    · constructor
      · intro _; omega
      · intro _
        simp [Node.get_or_create_child, show index > 1 by omega]
  · cases full <;> simp

/-! ### What `push_inconsistency`, `xor_values` and `xor_all_values` change -/

theorem same_except_mask_xor_into_mask (W x : Nat) (n : Node) :
    (Node.xor_into_mask W x n).same_except_mask n = true := by
  cases n with
  | nullptr => rfl
  | node c0 c1 f m => simp [Node.xor_into_mask, Node.same_except_mask]

theorem same_except_mask_refl (n : Node) : n.same_except_mask n = true := by
  cases n with
  | nullptr => rfl
  | node c0 c1 f m => simp [Node.same_except_mask]

/-- `xor_values` on a node: the value is merged into the mask and the node is resolved at
once. -/
theorem xor_values_node (W value : Nat) (c0 c1 : Node) (f : Bool) (m : Nat) :
    Node.xor_values W value (.node c0 c1 f m) =
      if (m ^^^ value) % 2 ^ W = 0 then .node c0 c1 f 0
      else if ((m ^^^ value) % 2 ^ W).testBit (W - 1) then
        .node (Node.xor_into_mask W (((m ^^^ value) % 2 ^ W) <<< 1) c1)
          (Node.xor_into_mask W (((m ^^^ value) % 2 ^ W) <<< 1) c0) f 0
      else
        .node (Node.xor_into_mask W (((m ^^^ value) % 2 ^ W) <<< 1) c0)
          (Node.xor_into_mask W (((m ^^^ value) % 2 ^ W) <<< 1) c1) f 0 := by
  show Node.push_inconsistency W (.node c0 c1 f ((m ^^^ value) % 2 ^ W)) = _
  rw [push_node]
  by_cases h0 : (m ^^^ value) % 2 ^ W = 0
  · rw [if_pos h0, if_pos h0, h0]
  · rw [if_neg h0, if_neg h0]
    by_cases hb : ((m ^^^ value) % 2 ^ W).testBit (W - 1) = true
    · rw [if_pos hb, if_pos ((and_one_eq_one_iff_testBit _ _).2 hb)]
    · rw [if_neg hb, if_neg (fun e => hb ((and_one_eq_one_iff_testBit _ _).1 e))]

/-- Claim C15 as stated fails: resolving the 8-bit node with pending mask 1 and one child gives
the child the mask 2, the mask shifted one bit toward the higher bits, whereas the mask
shifted one bit toward the lower bits is 0 and would leave the mask of the child at 0.  The
same is seen on a reachable trie: after `add_number(0)` and `xor_all_values(1)` the child of
the root carries the pending mask `1 << 1`. -/
theorem c15_push_shifts_left :
    Node.push_inconsistency 8 (.node Node.fresh .nullptr false 1) =
      .node (.node .nullptr .nullptr false 2) .nullptr false 0 ∧
    ((Node.push_inconsistency 8 (.node Node.fresh .nullptr false 1)).child 0).mask ≠
      Node.fresh.mask ^^^ (1 >>> 1) ∧
    ((run 8 [Op.add_number_value 0] empty).child 0).mask = 0 ∧
    ((run 8 [Op.add_number_value 0, Op.xor_all_values 1] empty).child 0).mask = 1 <<< 1 := by
  decide

/-- Claim C15, amended: `push_inconsistency` on a node with pending mask `m` does nothing when
`m = 0`; otherwise it swaps the two children exactly when bit `W - 1` of `m` is 1 (the masks
are kept aligned so that this is the bit of the level of the node), merges by xor `m` shifted
one bit toward the higher bits, `m << 1` cut to `W` bits, into the mask of each child that
exists, and sets the mask of the node to 0; nothing else changes. -/
theorem c15_push_inconsistency (W : Nat) (c0 c1 : Node) (f : Bool) (m : Nat) :
    Node.push_inconsistency W (.node c0 c1 f m) =
      (if m = 0 then .node c0 c1 f m
       else if m.testBit (W - 1) then
        .node (Node.xor_into_mask W (m <<< 1) c1) (Node.xor_into_mask W (m <<< 1) c0) f 0
       else .node (Node.xor_into_mask W (m <<< 1) c0) (Node.xor_into_mask W (m <<< 1) c1) f 0) ∧
    (∀ x, Node.xor_into_mask W x .nullptr = .nullptr) ∧
    (∀ x d0 d1 g k, Node.xor_into_mask W x (.node d0 d1 g k) =
      .node d0 d1 g ((k ^^^ x) % 2 ^ W)) := by
  refine ⟨?_, fun _ => rfl, fun _ _ _ _ _ => rfl⟩
  rw [push_node]
  by_cases h0 : m = 0
  · rw [if_pos h0, if_pos h0]
  · rw [if_neg h0, if_neg h0]
    by_cases hb : m.testBit (W - 1) = true
    · rw [if_pos hb, if_pos ((and_one_eq_one_iff_testBit _ _).2 hb)]
    · rw [if_neg hb, if_neg (fun e => hb ((and_one_eq_one_iff_testBit _ _).1 e))]

/-- Claim C16: `xor_all_values(key)` merges the key into the mask of the root and resolves the
root once, nothing more.  The result is `push_inconsistency` of the root with the mask
`m xor key`; written out: when `m xor key` is 0 the root only has its mask set to 0; otherwise
the two children are swapped iff bit `W - 1` of `m xor key` is set, `(m xor key) << 1` is
merged into the pending mask of each child that exists, and the mask of the root is 0.  Hence
the root keeps its fullness flag, its two children are the former children, in the same or in
the swapped order, unchanged but for their own pending masks (same grandchildren, same
flags), and the number of nodes is the same. -/
theorem c16_xor_all_values_frame (W key : Nat) (c0 c1 : Node) (f : Bool) (m : Nat) :
    xor_all_values W key (.node c0 c1 f m) =
      Node.push_inconsistency W (.node c0 c1 f ((m ^^^ key) % 2 ^ W)) ∧
    xor_all_values W key (.node c0 c1 f m) =
      (if (m ^^^ key) % 2 ^ W = 0 then .node c0 c1 f 0
       else if ((m ^^^ key) % 2 ^ W).testBit (W - 1) then
        .node (Node.xor_into_mask W (((m ^^^ key) % 2 ^ W) <<< 1) c1)
          (Node.xor_into_mask W (((m ^^^ key) % 2 ^ W) <<< 1) c0) f 0
       else
        .node (Node.xor_into_mask W (((m ^^^ key) % 2 ^ W) <<< 1) c0)
          (Node.xor_into_mask W (((m ^^^ key) % 2 ^ W) <<< 1) c1) f 0) ∧
    (∀ x, Node.xor_into_mask W x .nullptr = .nullptr) ∧
    (∀ x d0 d1 g k, Node.xor_into_mask W x (.node d0 d1 g k) =
      .node d0 d1 g ((k ^^^ x) % 2 ^ W)) ∧
    (∃ d0 d1, xor_all_values W key (.node c0 c1 f m) = .node d0 d1 f 0 ∧
      ((d0.same_except_mask c0 = true ∧ d1.same_except_mask c1 = true) ∨
        (d0.same_except_mask c1 = true ∧ d1.same_except_mask c0 = true))) ∧
    node_count (xor_all_values W key (.node c0 c1 f m)) = node_count (.node c0 c1 f m) := by
  have e : xor_all_values W key (.node c0 c1 f m) =
      Node.xor_values W key (.node c0 c1 f m) := rfl
  refine ⟨rfl, by rw [e, xor_values_node], fun _ => rfl, fun _ _ _ _ _ => rfl, ?_, ?_⟩
  · rw [e, xor_values_node]
    split_ifs
    · exact ⟨c0, c1, rfl, Or.inl ⟨same_except_mask_refl c0, same_except_mask_refl c1⟩⟩
    · exact ⟨_, _, rfl, Or.inr ⟨same_except_mask_xor_into_mask W _ c1,
        same_except_mask_xor_into_mask W _ c0⟩⟩
    · exact ⟨_, _, rfl, Or.inl ⟨same_except_mask_xor_into_mask W _ c0,
        same_except_mask_xor_into_mask W _ c1⟩⟩
  · rw [e]
    show node_count (Node.push_inconsistency W (.node c0 c1 f ((m ^^^ key) % 2 ^ W))) = _
    rw [node_count_push]
    rfl

/-- Claim C17 as stated fails: `xor_values(1)` on the 8-bit node without pending mask that has
one child does not leave the node with mask 1 and the child untouched; the mask of the child
becomes 2 at once and the mask of the node is 0.  On the reachable trie that stores 0,
`xor_values(128)` on the root moves the child from slot 0 to slot 1 during the call. -/
theorem c17_xor_values_pushes_at_once :
    Node.xor_values 8 1 (.node Node.fresh .nullptr false 0) ≠
      .node Node.fresh .nullptr false 1 ∧
    Node.xor_values 8 1 (.node Node.fresh .nullptr false 0) =
      .node (.node .nullptr .nullptr false 2) .nullptr false 0 ∧
    ((run 8 [Op.add_number_value 0] empty).child 0).is_null = false ∧
    ((run 8 [Op.add_number_value 0] empty).child 1).is_null = true ∧
    ((Node.xor_values 8 128 (run 8 [Op.add_number_value 0] empty)).child 0).is_null = true ∧
    (Node.xor_values 8 128 (run 8 [Op.add_number_value 0] empty)).child 1 =
      (run 8 [Op.add_number_value 0] empty).child 0 := by
  decide

/-- Claim C17, amended: `xor_values(value)` merges `value` into the pending mask of the node
and resolves the node at once (`push_inconsistency`): when the merged mask is not 0, the two
children are swapped if its bit `W - 1` is set and the merged mask shifted by one is merged into
the masks of the children that exist; the mask of the node is 0 afterwards.  Only what lies
below the children is deferred: the children keep their own children and flags. -/
theorem c17_xor_values (W value : Nat) (c0 c1 : Node) (f : Bool) (m : Nat) :
    Node.xor_values W value (.node c0 c1 f m) =
      (if (m ^^^ value) % 2 ^ W = 0 then .node c0 c1 f 0
       else if ((m ^^^ value) % 2 ^ W).testBit (W - 1) then
        .node (Node.xor_into_mask W (((m ^^^ value) % 2 ^ W) <<< 1) c1)
          (Node.xor_into_mask W (((m ^^^ value) % 2 ^ W) <<< 1) c0) f 0
       else
        .node (Node.xor_into_mask W (((m ^^^ value) % 2 ^ W) <<< 1) c0)
          (Node.xor_into_mask W (((m ^^^ value) % 2 ^ W) <<< 1) c1) f 0) ∧
    (Node.xor_values W value (.node c0 c1 f m)).mask = 0 ∧
    (∀ x n, (Node.xor_into_mask W x n).same_except_mask n = true) :=
  ⟨xor_values_node W value c0 c1 f m,
    (push_mask W (.node c0 c1 f ((m ^^^ value) % 2 ^ W)) :),
    same_except_mask_xor_into_mask W⟩

/-! ### Pending masks are resolved before the children are read -/

/-- The loop of `mex` creates no node and leaves the resolved tree as it is. -/
theorem mex_loop_frame (W : Nat) : ∀ (k : Nat) (cur : Node) (res : Nat), cur.mask = 0 →
    node_count (mex_loop W k cur res).2 = node_count cur ∧
      normalize W k (mex_loop W k cur res).2 = normalize W k cur := by
  intro k
  induction k with
  | zero => intro cur res _; exact ⟨rfl, rfl⟩
  | succ k ih =>
    intro cur res hm
    cases cur with
    | nullptr => rw [mex_loop_nullptr]; exact ⟨rfl, rfl⟩
    | node c0 c1 f m =>
      simp only [Node.mask] at hm
      subst hm
      cases h0 : c0.is_null with
      | true => rw [mex_loop_succ_null W k c0 c1 f 0 res h0]; exact ⟨rfl, rfl⟩
      | false =>
        cases hf : c0.get_fullness with
        | false =>
          rw [mex_loop_succ_left W k c0 c1 f 0 res h0 hf]
          obtain ⟨h1, h2⟩ := ih (c0.push_inconsistency W) res (push_mask W _)
          constructor
          · simp only [node_count, h1, node_count_push]
          · rw [normalize_succ_mask_zero, normalize_succ_mask_zero, h2, normalize_push]
        | true =>
          cases hn1 : c1.is_null with
          | true =>
            rw [mex_loop_succ_right_null W k c0 c1 f 0 res h0 hf hn1]
            constructor
            · simp only [node_count, node_count_push]
            · rw [normalize_succ_mask_zero, normalize_succ_mask_zero, normalize_push]
          | false =>
            rw [mex_loop_succ_right W k c0 c1 f 0 res h0 hf hn1]
            obtain ⟨h1, h2⟩ := ih (c1.push_inconsistency W)
              (res ||| int_to_number W (int_shl 1 k)) (push_mask W _)
            constructor
            · simp only [node_count, h1, node_count_push]
            · rw [normalize_succ_mask_zero, normalize_succ_mask_zero, h2, normalize_push,
                normalize_push]

theorem mex_frame (W : Nat) (root : Node) (hm : root.mask = 0) :
    node_count (mex W root).2 = node_count root ∧
      normalize W W (mex W root).2 = normalize W W root := by
  unfold mex
  split_ifs
  · exact ⟨rfl, rfl⟩
  · exact mex_loop_frame W W root 0 hm

/-- Claim C20: `mex` is observationally pure although it pushes pending masks down.  In every
reachable state that is not full, a call of `mex` returns a value, creates no node, changes no
fullness flag (the tree with all pending masks resolved is the same before and after, and so
is the flag of the root) and leaves the logical set as it is, so that a second call of `mex`
right after the first returns the same value. -/
theorem c20_mex_pure (W : Nat) (root : Node) (h : Reachable W root)
    (hf : root.get_fullness = false) :
    (∃ id, (mex W root).1 = .ok id) ∧
    node_count (mex W root).2 = node_count root ∧
    normalize W W (mex W root).2 = normalize W W root ∧
    (mex W root).2.get_fullness = root.get_fullness ∧
    (∀ u, contains W (mex W root).2 u = contains W root u) ∧
    (mex W (mex W root).2).1 = (mex W root).1 := by
  have hinv := invariant_of_reachable W root h
  obtain ⟨hn, hm, hw⟩ := (invariant_iff W root).1 hinv
  obtain ⟨x, root1, hmex, hx, hxa, hxmin, hinv1, hc1⟩ := (mex_spec W root hinv).2 hf
  have hf1 : root1.get_fullness = false := by
    cases hg : root1.get_fullness with
    | false => rfl
    | true =>
      have hall := (full_iff_all W root1 hinv1).1 hg x hx
      rw [hc1 x, hxa] at hall
      exact Bool.noConfusion hall
  obtain ⟨y, root2, hmex2, hy, hya, hymin, -, -⟩ := (mex_spec W root1 hinv1).2 hf1
  have hxy : x = y := least_absent_unique W root1 x y (by rw [hc1 x]; exact hxa)
    (fun z hz => by rw [hc1 z]; exact hxmin z hz) hya hymin
  obtain ⟨hcount, hnorm⟩ := mex_frame W root hm
  refine ⟨⟨_, by rw [hmex]⟩, hcount, hnorm, ?_, ?_, ?_⟩
  · rw [hmex, hf1, hf]
  · rw [hmex]; exact hc1
  · rw [hmex, hmex2, hxy]

/-- Witness of `c20_mex_pure`: the 8-bit trie after `add_number(1)`, `add_number(3)`,
`xor_all_values(1)` stores 0 and 2 with masks pending below the root; `mex` returns 1 and a
second call returns 1 again. -/
theorem c20_mex_pure_witness :
    Reachable 8 (run 8 [Op.add_number_value 1, Op.add_number_value 3, Op.xor_all_values 1] empty) ∧
    (run 8 [Op.add_number_value 1, Op.add_number_value 3, Op.xor_all_values 1]
      empty).get_fullness = false ∧
    (mex 8 (run 8 [Op.add_number_value 1, Op.add_number_value 3, Op.xor_all_values 1]
      empty)).1 = .ok 1 ∧
    (mex 8 (mex 8 (run 8 [Op.add_number_value 1, Op.add_number_value 3, Op.xor_all_values 1]
      empty)).2).1 =
      (mex 8 (run 8 [Op.add_number_value 1, Op.add_number_value 3, Op.xor_all_values 1]
        empty)).1 :=
  ⟨⟨[Op.add_number_value 1, Op.add_number_value 3, Op.xor_all_values 1], by decide, rfl⟩,
   by decide, by decide,
   (c20_mex_pure 8
      (run 8 [Op.add_number_value 1, Op.add_number_value 3, Op.xor_all_values 1] empty)
      ⟨[Op.add_number_value 1, Op.add_number_value 3, Op.xor_all_values 1], by decide, rfl⟩
      (by decide)).2.2.2.2.2⟩

/-! ### The number of nodes -/

theorem node_count_set_is_full (n : Node) (b : Bool) :
    node_count (n.set_is_full b) = node_count n := by
  cases n <;> rfl

theorem node_count_set_child_le (p a b : Node) (i d : Nat)
    (h : node_count a ≤ node_count b + d) :
    node_count (p.set_child i a) ≤ node_count (p.set_child i b) + d := by
  cases p with
  | nullptr => exact Nat.zero_le _
  | node c0 c1 f m =>
    by_cases hi : i = 0
    · simp only [Node.set_child, hi, if_true, node_count]; omega
    · simp only [Node.set_child, hi, if_false, node_count]; omega

theorem node_count_rebuild_le : ∀ (path : Path) (a b : Node) (d : Nat),
    node_count a ≤ node_count b + d →
    node_count (rebuild a path) ≤ node_count (rebuild b path) + d := by
  intro path
  induction path with
  | nil => intro a b d h; exact h
  | cons q rest ih =>
    intro a b d h
    obtain ⟨p, i⟩ := q
    exact ih _ _ d (node_count_set_child_le p a b i d h)

theorem node_count_rebuild_congr (path : Path) (a b : Node)
    (h : node_count a = node_count b) :
    node_count (rebuild a path) = node_count (rebuild b path) :=
  Nat.le_antisymm (node_count_rebuild_le path a b 0 (by omega))
    (node_count_rebuild_le path b a 0 (by omega))

/-- `set_fullness` writes flags only: the tree has the nodes it had. -/
theorem node_count_set_fullness : ∀ (path : Path) (value : Bool) (this : Node),
    node_count (set_fullness value this path) = node_count (rebuild this path) := by
  intro path
  induction path with
  | nil => intro value this; exact node_count_set_is_full this value
  | cons q rest ih =>
    intro value this
    obtain ⟨p, i⟩ := q
    have hc : node_count (p.set_child i (this.set_is_full value)) =
        node_count (p.set_child i this) :=
      Nat.le_antisymm
        (node_count_set_child_le p _ _ i 0 (by rw [node_count_set_is_full]; omega))
        (node_count_set_child_le p _ _ i 0 (by rw [node_count_set_is_full]; omega))
    rw [set_fullness_cons]
    show _ = node_count (rebuild (p.set_child i this) rest)
    split_ifs
    · rw [ih]
      exact node_count_rebuild_congr rest _ _ hc
    · exact node_count_rebuild_congr rest _ _ hc

/-- The descent of `add_number(value)` creates at most one node per level and removes none. -/
theorem node_count_descend (W v : Nat) : ∀ (k : Nat) (cur : Node) (path : Path),
    node_count (rebuild cur path) ≤
        node_count (rebuild (descend W v k cur path).2.1 (descend W v k cur path).2.2) ∧
      node_count (rebuild (descend W v k cur path).2.1 (descend W v k cur path).2.2) ≤
        node_count (rebuild cur path) + k := by
  intro k
  induction k with
  | zero => intro cur path; exact ⟨le_refl _, le_refl _⟩
  | succ k ih =>
    intro cur path
    rw [descend_succ]
    generalize (v >>> k) &&& 1 = b
    generalize hnext : (if (cur.child b).is_null then Node.fresh
      else (cur.child b).push_inconsistency W) = next
    obtain ⟨h1, h2⟩ := ih next ((cur.set_child b next, b) :: path)
    have hr : rebuild next ((cur.set_child b next, b) :: path) =
        rebuild (cur.set_child b next) path := by
      rw [rebuild, set_child_set_child]
    rw [hr] at h1 h2
    have hlo : node_count (cur.child b) ≤ node_count next := by
      rw [← hnext]
      split_ifs with hc
      · rw [eq_nullptr_of_is_null hc]; exact Nat.zero_le _
      · rw [node_count_push]
    have hhi : node_count next ≤ node_count (cur.child b) + 1 := by
      rw [← hnext]
      split_ifs with hc
      · rw [eq_nullptr_of_is_null hc]; exact le_refl _
      · rw [node_count_push]; omega
    have e1 := node_count_rebuild_le path (cur.set_child b (cur.child b))
      (cur.set_child b next) 0 (node_count_set_child_le cur _ _ b 0 (by omega))
    have e2 := node_count_rebuild_le path (cur.set_child b next)
      (cur.set_child b (cur.child b)) 1 (node_count_set_child_le cur _ _ b 1 hhi)
    rw [set_child_child] at e1 e2
    constructor
    · omega
    · omega

/-- A call of `add_number(value)`, whatever its outcome, removes no node and creates at most
`W` nodes. -/
theorem node_count_add_number_value (W v : Nat) (root : Node) :
    node_count root ≤ node_count (add_number_value W v root).2 ∧
      node_count (add_number_value W v root).2 ≤ node_count root + W := by
  have hd := node_count_descend W v W root []
  have he := descend_no_error W v W root []
  unfold add_number_value
  rcases hdd : descend W v W root [] with ⟨e, leaf, path'⟩
  rw [hdd] at hd he
  simp only at he
  subst he
  simp only [rebuild] at hd ⊢
  split_ifs
  · exact hd
  · simp only [node_count_set_fullness]
    exact hd

theorem stored_count_congr (W : Nat) (a b : Node)
    (h : ∀ u, u < 2 ^ W → contains W a u = contains W b u) :
    stored_count W a = stored_count W b := by
  unfold stored_count
  congr 1
  apply Finset.filter_congr
  intro u hu
  rw [h u (Finset.mem_range.1 hu)]

theorem stored_count_empty (W : Nat) : stored_count W empty = 0 := by
  unfold stored_count
  rw [Finset.card_eq_zero, Finset.filter_eq_empty_iff]
  intro u _
  rw [contains_empty]
  exact Bool.false_ne_true

theorem stored_count_le (W : Nat) (root : Node) : stored_count W root ≤ 2 ^ W := by
  unfold stored_count
  exact (Finset.card_filter_le _ _).trans (by rw [Finset.card_range])

/-- A successful `add_number(value)` adds one value to the logical set. -/
theorem stored_count_add_number_value (W v : Nat) (root : Node)
    (hinv : invariant W root = true) (hc : contains W root v = false) :
    stored_count W (add_number_value W v root).2 = stored_count W root + 1 := by
  obtain ⟨-, -, -, hcont⟩ := add_number_value_spec W v root hinv
  unfold stored_count
  have hset : (Finset.range (2 ^ W)).filter
      (fun u => contains W (add_number_value W v root).2 u = true) =
      insert (v % 2 ^ W) ((Finset.range (2 ^ W)).filter (fun u => contains W root u = true)) := by
    ext u
    simp only [Finset.mem_filter, Finset.mem_range, Finset.mem_insert, hcont u,
      Bool.or_eq_true, decide_eq_true_eq]
    constructor
    · rintro ⟨hu, h | h⟩
      · exact Or.inr ⟨hu, h⟩
      · left; rw [← h, Nat.mod_eq_of_lt hu]
    · rintro (h | ⟨hu, h⟩)
      · subst h
        exact ⟨Nat.mod_lt _ (Nat.two_pow_pos W), Or.inr (Nat.mod_mod _ _)⟩
      · exact ⟨hu, Or.inl h⟩
  rw [hset, Finset.card_insert_of_not_mem]
  simp only [Finset.mem_filter, not_and, Bool.not_eq_true]
  intro _
  rw [contains_mod]
  exact hc

/-- The logical set after `xor_all_values(k)` has the size it had. -/
theorem stored_count_xor_all_values (W k : Nat) (root : Node) (hinv : invariant W root = true)
    (hk : k < 2 ^ W) : stored_count W (xor_all_values W k root) = stored_count W root := by
  obtain ⟨-, hcont⟩ := xor_all_values_spec W k root hinv
  unfold stored_count
  apply Finset.card_bij (fun u _ => u ^^^ k)
  · intro u hu
    simp only [Finset.mem_filter, Finset.mem_range] at hu ⊢
    exact ⟨Nat.xor_lt_two_pow hu.1 hk, by rw [← hcont u]; exact hu.2⟩
  · intro a _ b _ hab
    have := congrArg (fun t => t ^^^ k) hab
    simpa [Nat.xor_assoc] using this
  · intro u hu
    simp only [Finset.mem_filter, Finset.mem_range] at hu
    refine ⟨u ^^^ k, ?_, by simp [Nat.xor_assoc]⟩
    simp only [Finset.mem_filter, Finset.mem_range]
    refine ⟨Nat.xor_lt_two_pow hu.1 hk, ?_⟩
    rw [hcont, Nat.xor_assoc, Nat.xor_self, Nat.xor_zero]
    exact hu.2

/-- The bound on the number of nodes is kept by `add_number(value)`. -/
theorem node_bound_add_number_value (W v : Nat) (root : Node) (hinv : invariant W root = true)
    (hb : node_count root ≤ 1 + W * stored_count W root) :
    node_count (add_number_value W v root).2 ≤
      1 + W * stored_count W (add_number_value W v root).2 := by
  cases hc : contains W root v with
  | true =>
    obtain ⟨-, -, hcount, hcont, -⟩ := add_number_value_present W v root hinv hc
    rw [hcount, stored_count_congr W _ root (fun u _ => hcont u)]
    exact hb
  | false =>
    rw [stored_count_add_number_value W v root hinv hc, Nat.mul_add, Nat.mul_one]
    have := (node_count_add_number_value W v root).2
    omega

theorem node_bound_step (W : Nat) (op : Op) (root : Node) (hinv : invariant W root = true)
    (hv : op.valid W = true) (hb : node_count root ≤ 1 + W * stored_count W root) :
    node_count (op.step W root) ≤ 1 + W * stored_count W (op.step W root) := by
  cases op with
  | add_number_value v => exact node_bound_add_number_value W v root hinv hb
  | add_number =>
    show node_count (add_number W root).2 ≤ 1 + W * stored_count W (add_number W root).2
    cases hf : root.get_fullness
    · obtain ⟨x, root1, hm, -, -, -, hinv1, hc1⟩ := (mex_spec W root hinv).2 hf
      have hcount := (mex_frame W root ((invariant_iff W root).1 hinv).2.1).1
      rw [hm] at hcount
      rw [add_number_eq W root _ root1 hm]
      apply node_bound_add_number_value W _ root1 hinv1
      rw [hcount, stored_count_congr W root1 root (fun u _ => hc1 u)]
      exact hb
    · rw [add_number_full W root hf]
      exact hb
  | xor_all_values k =>
    show node_count (xor_all_values W k root) ≤ 1 + W * stored_count W (xor_all_values W k root)
    have hk : k < 2 ^ W := by simpa [Op.valid] using hv
    rw [stored_count_xor_all_values W k root hinv hk]
    obtain ⟨c0, c1, f, rfl, -, -⟩ := root_of_invariant W root hinv
    have e : xor_all_values W k (.node c0 c1 f 0) =
        Node.push_inconsistency W (Node.xor_into_mask W k (.node c0 c1 f 0)) := rfl
    rw [e, node_count_push, node_count_xor_into_mask]
    exact hb

theorem node_bound_run (W : Nat) : ∀ (ops : List Op) (root : Node),
    (∀ op ∈ ops, op.valid W = true) → invariant W root = true →
    node_count root ≤ 1 + W * stored_count W root →
    node_count (run W ops root) ≤ 1 + W * stored_count W (run W ops root) := by
  intro ops
  induction ops with
  | nil => intro root _ _ hb; exact hb
  | cons op ops ih =>
    intro root hv hinv hb
    exact ih (op.step W root) (fun o ho => hv o (List.mem_cons_of_mem _ ho))
      (invariant_step W op root hinv)
      (node_bound_step W op root hinv (hv op (List.mem_cons_self _ _)) hb)

theorem node_count_xor_all_values (W k : Nat) (root : Node) :
    node_count (xor_all_values W k root) = node_count root := by
  cases root with
  | nullptr => rfl
  | node c0 c1 f m =>
    show node_count (Node.push_inconsistency W (Node.xor_into_mask W k (.node c0 c1 f m))) = _
    rw [node_count_push, node_count_xor_into_mask]

/-- Claim C18: in every reachable state the number of nodes is at most `1 + W * |S|`, `S`
being the logical set; `mex`, `xor_all_values` and an `add_number(v)` that throws create no
node (the number of nodes stays the same), and a successful `add_number(v)` creates at most
`W` nodes and removes none, while adding one value to `S`. -/
theorem c18_node_count_bound (W : Nat) (root : Node) (h : Reachable W root) :
    node_count root ≤ 1 + W * stored_count W root ∧
    node_count (mex W root).2 = node_count root ∧
    (∀ k, node_count (xor_all_values W k root) = node_count root) ∧
    (∀ v e, (add_number_value W v root).1 = .error e →
      node_count (add_number_value W v root).2 = node_count root) ∧
    (∀ v, (add_number_value W v root).1 = .ok () →
      node_count root ≤ node_count (add_number_value W v root).2 ∧
      node_count (add_number_value W v root).2 ≤ node_count root + W ∧
      stored_count W (add_number_value W v root).2 = stored_count W root + 1) := by
  have hinv := invariant_of_reachable W root h
  refine ⟨?_, (mex_frame W root ((invariant_iff W root).1 hinv).2.1).1,
    fun k => node_count_xor_all_values W k root, ?_, ?_⟩
  · obtain ⟨ops, hv, rfl⟩ := h
    apply node_bound_run W ops empty hv (invariant_empty W)
    rw [stored_count_empty]
    exact le_refl _
  · intro v e he
    obtain ⟨-, -, hok, -⟩ := add_number_value_spec W v root hinv
    cases hc : contains W root v with
    | true => exact (add_number_value_present W v root hinv hc).2.2.1
    | false =>
      rw [hok.2 hc] at he
      exact Except.noConfusion he
  · intro v hv
    obtain ⟨-, -, hok, -⟩ := add_number_value_spec W v root hinv
    exact ⟨(node_count_add_number_value W v root).1, (node_count_add_number_value W v root).2,
      stored_count_add_number_value W v root hinv (hok.1 hv)⟩

/-- Witness of `c18_node_count_bound`: the 2-bit trie after `add_number(1)`, `add_number(3)`,
`xor_all_values(1)` has 5 nodes and stores 2 values, and `5 ≤ 1 + 2 * 2`. -/
theorem c18_node_count_bound_witness :
    Reachable 2 (run 2 [Op.add_number_value 1, Op.add_number_value 3, Op.xor_all_values 1] empty) ∧
    node_count (run 2 [Op.add_number_value 1, Op.add_number_value 3, Op.xor_all_values 1]
      empty) = 5 ∧
    stored_count 2 (run 2 [Op.add_number_value 1, Op.add_number_value 3, Op.xor_all_values 1]
      empty) = 2 ∧
    node_count (run 2 [Op.add_number_value 1, Op.add_number_value 3, Op.xor_all_values 1]
      empty) ≤ 1 + 2 * stored_count 2
        (run 2 [Op.add_number_value 1, Op.add_number_value 3, Op.xor_all_values 1] empty) :=
  ⟨⟨[Op.add_number_value 1, Op.add_number_value 3, Op.xor_all_values 1], by decide, rfl⟩,
   by decide, by decide,
   (c18_node_count_bound 2
      (run 2 [Op.add_number_value 1, Op.add_number_value 3, Op.xor_all_values 1] empty)
      ⟨[Op.add_number_value 1, Op.add_number_value 3, Op.xor_all_values 1], by decide, rfl⟩).1⟩

/-! ### The fullness invariant -/

theorem fullness_invariant_of_well_formed (W : Nat) : ∀ (h : Nat) (n : Node),
    well_formed W h n = true → fullness_invariant h n = true := by
  intro h
  induction h with
  | zero => intro n _; cases n <;> rfl
  | succ h ih =>
    intro n hw
    cases n with
    | nullptr => rfl
    | node c0 c1 f m =>
      simp only [well_formed, Bool.and_eq_true] at hw
      simp only [fullness_invariant, Bool.and_eq_true]
      exact ⟨⟨hw.1.1.1, ih c0 hw.1.2⟩, ih c1 hw.2⟩

theorem int_to_number_lt (W : Nat) (i : Int) : int_to_number W i < 2 ^ W := by
  unfold int_to_number
  have hpos : (0 : Int) < Int.ofNat (2 ^ W) := by
    have := Nat.two_pow_pos W
    exact Int.ofNat_lt.2 this
  have h1 := Int.emod_lt_of_pos i hpos
  have h0 := Int.emod_nonneg i (ne_of_gt hpos)
  have : ((i % Int.ofNat (2 ^ W)).toNat : Int) < ((2 ^ W : Nat) : Int) := by
    rw [Int.toNat_of_nonneg h0]
    exact h1
  exact Int.ofNat_lt.1 this

theorem assemble_lt (W : Nat) : ∀ (h x : Nat), assemble W h x < 2 ^ W := by
  intro h
  induction h with
  | zero => intro x; exact Nat.two_pow_pos W
  | succ h ih =>
    intro x
    exact Nat.or_lt_two_pow (int_to_number_lt W _) (ih x)

/-- The value returned by a successful `add_number()` is a value of `NumberType`, it was not
stored, and the call stores it. -/
theorem add_number_ok (W : Nat) (root : Node) (hinv : invariant W root = true) (id : Nat)
    (h : (add_number W root).1 = .ok id) :
    id < 2 ^ W ∧
      ∀ u, contains W (add_number W root).2 u =
        (contains W root u || decide (u % 2 ^ W = id % 2 ^ W)) := by
  cases hf : root.get_fullness with
  | true =>
    rw [add_number_full W root hf] at h
    exact Except.noConfusion h
  | false =>
    obtain ⟨x, root1, hm, -, -, -, hinv1, hc1⟩ := (mex_spec W root hinv).2 hf
    obtain ⟨-, -, -, hcont⟩ := add_number_value_spec W (assemble W W x) root1 hinv1
    rw [add_number_eq W root _ root1 hm] at h ⊢
    simp only at h ⊢
    have hid : id = assemble W W x := by
      rcases hr : (add_number_value W (assemble W W x) root1).1 with e | u
      · rw [hr] at h
        exact Except.noConfusion h
      · rw [hr] at h
        cases u
        simp only at h
        injection h with h
        exact h.symm
    subst hid
    refine ⟨assemble_lt W W x, fun u => ?_⟩
    rw [hcont u, hc1 u]

theorem add_number_error (W : Nat) (root : Node) (hinv : invariant W root = true) (e : Error)
    (h : (add_number W root).1 = .error e) :
    ∀ u, contains W (add_number W root).2 u = contains W root u := by
  cases hf : root.get_fullness with
  | true =>
    rw [add_number_full W root hf]
    exact fun _ => rfl
  | false =>
    obtain ⟨x, root1, hm, -, -, -, hinv1, hc1⟩ := (mex_spec W root hinv).2 hf
    obtain ⟨-, -, hok, hcont⟩ := add_number_value_spec W (assemble W W x) root1 hinv1
    rw [add_number_eq W root _ root1 hm] at h ⊢
    simp only at h ⊢
    cases hc : contains W root1 (assemble W W x) with
    | true =>
      intro u
      rw [(add_number_value_present W _ root1 hinv1 hc).2.2.2.1 u, hc1 u]
    | false =>
      rw [hok.2 hc] at h
      exact Except.noConfusion h

/-- The logical set of the trie after a sequence of calls is the set of the inserted values. -/
theorem contains_run (W : Nat) : ∀ (ops : List Op) (root : Node) (stored : List Nat),
    (∀ op ∈ ops, op.valid W = true) → invariant W root = true →
    (∀ v, v < 2 ^ W → (contains W root v = true ↔ v ∈ stored)) →
    ∀ v, v < 2 ^ W →
      (contains W (run W ops root) v = true ↔ v ∈ inserted_values W ops root stored) := by
  intro ops
  induction ops with
  | nil => intro root stored _ _ hs; exact hs
  | cons op ops ih =>
    intro root stored hv hinv hs
    have hvalid := hv op (List.mem_cons_self _ _)
    have hrest : ∀ o ∈ ops, o.valid W = true := fun o ho => hv o (List.mem_cons_of_mem _ ho)
    cases op with
    | add_number_value w =>
      have hw : w < 2 ^ W := by simpa [Op.valid] using hvalid
      obtain ⟨hinv1, herr, hok, hcont⟩ := add_number_value_spec W w root hinv
      show ∀ v, v < 2 ^ W → (contains W (run W ops (add_number_value W w root).2) v = true ↔ _)
      simp only [inserted_values]
      apply ih _ _ hrest hinv1
      intro v hvlt
      rw [hcont v, Nat.mod_eq_of_lt hvlt, Nat.mod_eq_of_lt hw]
      cases hc : contains W root w with
      | true =>
        rw [herr.2 hc]
        simp only [Bool.or_eq_true, decide_eq_true_eq]
        constructor
        · rintro (h | h)
          · exact (hs v hvlt).1 h
          · rw [h]; exact (hs w hw).1 hc
        · intro h; exact Or.inl ((hs v hvlt).2 h)
      | false =>
        rw [hok.2 hc]
        simp only [Bool.or_eq_true, decide_eq_true_eq, List.mem_cons]
        constructor
        · rintro (h | h)
          · exact Or.inr ((hs v hvlt).1 h)
          · exact Or.inl h
        · rintro (h | h)
          · exact Or.inr h
          · exact Or.inl ((hs v hvlt).2 h)
    | add_number =>
      show ∀ v, v < 2 ^ W → (contains W (run W ops (add_number W root).2) v = true ↔ _)
      simp only [inserted_values]
      apply ih _ _ hrest (invariant_add_number W root hinv)
      intro v hvlt
      rcases hr : (add_number W root).1 with e | id
      · simp only
        rw [add_number_error W root hinv e hr v]
        exact hs v hvlt
      · simp only
        obtain ⟨hid, hcont⟩ := add_number_ok W root hinv id hr
        rw [hcont v, Nat.mod_eq_of_lt hvlt, Nat.mod_eq_of_lt hid]
        simp only [Bool.or_eq_true, decide_eq_true_eq, List.mem_cons]
        constructor
        · rintro (h | h)
          · exact Or.inr ((hs v hvlt).1 h)
          · exact Or.inl h
        · rintro (h | h)
          · exact Or.inr h
          · exact Or.inl ((hs v hvlt).2 h)
    | xor_all_values k =>
      have hk : k < 2 ^ W := by simpa [Op.valid] using hvalid
      obtain ⟨hinv1, hcont⟩ := xor_all_values_spec W k root hinv
      show ∀ v, v < 2 ^ W → (contains W (run W ops (xor_all_values W k root)) v = true ↔ _)
      simp only [inserted_values]
      apply ih _ _ hrest hinv1
      intro v hvlt
      rw [hcont v, hs (v ^^^ k) (Nat.xor_lt_two_pow hvlt hk), List.mem_map]
      constructor
      · intro h
        exact ⟨v ^^^ k, h, by rw [Nat.xor_assoc, Nat.xor_self, Nat.xor_zero]⟩
      · rintro ⟨s, hs', rfl⟩
        rw [Nat.xor_assoc, Nat.xor_self, Nat.xor_zero]
        exact hs'

/-- Claim C13: in every state reached from the empty trie by a sequence of calls of
`add_number(v)`, `add_number()` and `xor_all_values(k)` with arguments of `NumberType`, every
inner node satisfies the fullness invariant (its flag is set iff both children exist and both
are full), and the leaf of a value `v`, looked up through the pending masks, exists and is full
iff `v` is one of the inserted values. -/
theorem c13_fullness_invariant (W : Nat) (ops : List Op)
    (h : ∀ op ∈ ops, op.valid W = true) :
    fullness_invariant W (run W ops empty) = true ∧
    ∀ v, v < 2 ^ W →
      (contains W (run W ops empty) v = true ↔ v ∈ inserted_values W ops empty []) := by
  constructor
  · exact fullness_invariant_of_well_formed W W _
      ((invariant_iff W _).1 (invariant_run W ops empty (invariant_empty W))).2.2
  · apply contains_run W ops empty [] h (invariant_empty W)
    intro v _
    rw [contains_empty]
    simp

/-- Witness of `c13_fullness_invariant`: after `add_number(1)`, `add_number(3)`,
`xor_all_values(1)` and `add_number()` on the 8-bit trie the inserted values are 1, 0 and 2,
and the leaf of 2 is full. -/
theorem c13_fullness_invariant_witness :
    (∀ op ∈ [Op.add_number_value 1, Op.add_number_value 3, Op.xor_all_values 1, Op.add_number],
      op.valid 8 = true) ∧
    inserted_values 8
      [Op.add_number_value 1, Op.add_number_value 3, Op.xor_all_values 1, Op.add_number]
      empty [] = [1, 2, 0] ∧
    contains 8 (run 8
      [Op.add_number_value 1, Op.add_number_value 3, Op.xor_all_values 1, Op.add_number]
      empty) 2 = true :=
  ⟨by decide, by decide,
   ((c13_fullness_invariant 8
      [Op.add_number_value 1, Op.add_number_value 3, Op.xor_all_values 1, Op.add_number]
      (by decide)).2 2 (by decide)).2 (by decide)⟩

/-! ### The shift of `mex` in 64 bits -/

/-- The shift `1 << bit_no` of `mex`, evaluated in `int`, yields `2 ^ bit_no` exactly for the
bits below 31; from bit 31 on `2 ^ bit_no` is not a value of `int`. -/
theorem int_shl_one_exact_iff (bit_no : Nat) :
    int_shl 1 bit_no = Int.ofNat (2 ^ bit_no) ↔ bit_no < 31 := by
  constructor
  · intro h
    by_contra hn
    have hlt : int_shl 1 bit_no < ((2 ^ 32 : Nat) + 1 : Int) / 2 :=
      Int.bmod_lt (by norm_num)
    have hge : (2 : Nat) ^ 31 ≤ 2 ^ bit_no := Nat.pow_le_pow_right (by decide) (by omega)
    have hge' : ((2 ^ 31 : Nat) : Int) ≤ Int.ofNat (2 ^ bit_no) := Int.ofNat_le.2 hge
    rw [h] at hlt
    have e : ((2 ^ 32 : Nat) + 1 : Int) / 2 = ((2 ^ 31 : Nat) : Int) := by norm_num
    rw [e] at hlt
    omega
  · intro h
    unfold int_shl
    interval_cases bit_no <;> rfl

/-- In `BitTrie<uint64_t>` a set bit contributes `2 ^ bit_no` to the result of `mex` exactly
for the bits below 31. -/
theorem contribution_64_exact_iff (bit_no : Nat) :
    (bit_no < 64 ∧ int_to_number 64 (int_shl 1 bit_no) = 2 ^ bit_no) ↔ bit_no < 31 := by
  constructor
  · rintro ⟨hlt, he⟩
    by_contra hn
    have h31 : 31 ≤ bit_no := by omega
    interval_cases bit_no <;> revert he <;> decide
  · intro h
    exact ⟨by omega, int_to_number_int_shl_one 64 bit_no (by omega) (Or.inr h)⟩

/-- Claim C21, which fails: in `BitTrie<uint64_t>` the shift `bit_value << bit_no` of `mex` is
evaluated in `int` (`auto bit_value = 0`), where `1 << bit_no` is `2 ^ bit_no` only for
`bit_no < 31`; the bit 31 contributes `2 ^ 64 - 2 ^ 31` after the conversion to `uint64_t`, and
no bit from 31 to 63 contributes `2 ^ bit_no`.  After `2 ^ 31` calls of `add_number()` on a
fresh trie (what `DataBase::register_new_user` does) the trie stores exactly the values below
`2 ^ 31`, the smallest absent id is `2 ^ 31`, and `mex` returns `2 ^ 64 - 2 ^ 31`. -/
theorem c21_mex_shift_overflows_64 :
    (∀ bit_no, int_shl 1 bit_no = Int.ofNat (2 ^ bit_no) ↔ bit_no < 31) ∧
    (∀ bit_no, (bit_no < 64 ∧ int_to_number 64 (int_shl 1 bit_no) = 2 ^ bit_no) ↔
      bit_no < 31) ∧
    int_to_number 64 (int_shl 1 31) = 2 ^ 64 - 2 ^ 31 ∧
    (∀ u, contains 64 (allocate_many 64 (2 ^ 31) empty).2 (u % 2 ^ 64) =
      decide (u % 2 ^ 64 < 2 ^ 31)) ∧
    (mex 64 (allocate_many 64 (2 ^ 31) empty).2).1 = .ok (2 ^ 64 - 2 ^ 31) ∧
    (mex 64 (allocate_many 64 (2 ^ 31) empty).2).1 ≠ .ok (2 ^ 31) := by
  obtain ⟨-, hinv, hcont⟩ := allocate_many_spec 64 (2 ^ 31) 0 empty (invariant_empty 64)
    (fun u _ => by rw [contains_empty]; simp) (by norm_num) (Or.inr (by norm_num))
  rw [Nat.zero_add] at hcont
  have hmex := (add_number_64_at_two_pow_31 _ hinv
    (fun y hy => by rw [hcont y (lt_trans hy (by norm_num))]; simpa using hy)
    (by rw [hcont _ (by norm_num)]; simp)).1
  refine ⟨int_shl_one_exact_iff, contribution_64_exact_iff, int_to_number_int_shl_one_64_31,
    fun u => hcont _ (Nat.mod_lt _ (by norm_num)), hmex, ?_⟩
  rw [hmex]
  intro h
  injection h with h
  norm_num at h

end BitTrie

/-! ## Theorems about the bracket sequence -/

namespace Easy2

theorem checkPairBrackets_left_right (left right : Char)
    (h : checkPairBrackets left right = true) :
    is_left_bracket left = true ∧ is_right_bracket left = false ∧
      is_left_bracket right = false ∧ is_right_bracket right = true := by
  unfold checkPairBrackets at h
  split_ifs at h with hc
  simp only [Bool.or_eq_true, Bool.and_eq_true, beq_iff_eq] at hc
  rcases hc with (⟨rfl, rfl⟩ | ⟨rfl, rfl⟩) | ⟨rfl, rfl⟩ <;> decide

/-- A correct bracket sequence has as many opening as closing brackets. -/
theorem count_left_eq_count_right (s : List Char) (h : CorrectBracketSequence s) :
    s.countP is_left_bracket = s.countP is_right_bracket := by
  induction h with
  | empty => rfl
  | enclose left right s hp _ ih =>
    obtain ⟨h1, h2, h3, h4⟩ := checkPairBrackets_left_right left right hp
    simp [List.countP_cons, List.countP_append, h1, h2, h3, h4, ih]
  | append s t _ _ ihs iht =>
    simp [List.countP_append, ihs, iht]

/-- Claim C9, which the code breaks on the second documented case: for the string of the two
opening brackets `\x7b[`, which is not a correct bracket sequence and for which the task
statement asserts `false`, `validBracketSequence` returns `true`; the loop never looks at what
is left on the stack when the string ends. -/
theorem c9_validBracketSequence_unclosed :
    validBracketSequence "\x7b[" = true ∧ ¬ CorrectBracketSequence "\x7b[".toList := by
  refine ⟨by decide, fun h => ?_⟩
  have := count_left_eq_count_right _ h
  revert this
  decide

/-- The other three documented cases of `validBracketSequence` hold. -/
theorem validBracketSequence_documented :
    validBracketSequence "\x7b\x7d" = true ∧ validBracketSequence "[\x7b\x7d]" = true ∧
      validBracketSequence "][\x7b\x7d" = false := by
  decide

end Easy2

/-! ## Theorems about the removal of the redundant spaces -/

namespace Medium1

/-! ### The runs of a string -/

theorem runs_cons_space (c : Char) (cs : List Char) (h : is_space c = true) :
    runs (c :: cs) = runs cs := by
  simp [runs, h]

theorem runs_cons_ne_nil (c : Char) (cs : List Char) (h : is_space c = false) :
    runs (c :: cs) ≠ [] := by
  cases cs with
  | nil => simp [runs, h]
  | cons d cs =>
    simp only [runs, h, Bool.false_eq_true, if_false]
    split_ifs
    · simp
    · split <;> simp

theorem rest_output_cons_space (c : Char) (cs : List Char) (h : is_space c = true) :
    rest_output (c :: cs) = rest_output cs := by
  unfold rest_output
  rw [runs_cons_space c cs h]

/-- A non-space character is emitted, followed by the space after it if there is one. -/
theorem rest_output_cons_non_space (c : Char) (cs : List Char) (h : is_space c = false) :
    rest_output (c :: cs) = c :: (pending_space cs ++ rest_output cs) := by
  cases cs with
  | nil => simp [rest_output, runs, h, emit_runs, pending_space]
  | cons d cs =>
    by_cases hd : is_space d = true
    · have e : runs (c :: d :: cs) = ([c], some d) :: runs (d :: cs) := by
        simp [runs, h, hd]
      simp [rest_output, e, emit_runs, pending_space, hd]
    · simp only [Bool.not_eq_true] at hd
      have hne := runs_cons_ne_nil d cs hd
      cases hr : runs (d :: cs) with
      | nil => exact absurd hr hne
      | cons p rs =>
        obtain ⟨w, sep⟩ := p
        have e : runs (c :: d :: cs) = (c :: w, sep) :: rs := by
          have : runs (c :: d :: cs) =
              match runs (d :: cs) with
              | [] => [([c], none)]
              | (w, sep) :: rs => (c :: w, sep) :: rs := by
            simp [runs, h, hd]
          rw [this, hr]
        simp [rest_output, e, hr, emit_runs, pending_space, hd]

theorem runs_eq_nil_of_all_space : ∀ (s : List Char), (∀ c ∈ s, is_space c = true) →
    runs s = [] := by
  intro s
  induction s with
  | nil => intro _; rfl
  | cons c cs ih =>
    intro h
    rw [runs_cons_space c cs (h c (List.mem_cons_self c cs))]
    exact ih (fun x hx => h x (List.mem_cons_of_mem c hx))

theorem runs_ne_nil_of_non_space : ∀ (s : List Char), (∃ c ∈ s, is_space c = false) →
    runs s ≠ [] := by
  intro s
  induction s with
  | nil => rintro ⟨c, hc, -⟩; simp at hc
  | cons c cs ih =>
    rintro ⟨x, hx, hxs⟩
    by_cases hc : is_space c = true
    · rw [runs_cons_space c cs hc]
      rcases List.mem_cons.1 hx with e | e
      · rw [e, hc] at hxs; exact Bool.noConfusion hxs
      · exact ih ⟨x, e, hxs⟩
    · exact runs_cons_ne_nil c cs (by simpa using hc)

theorem emit_runs_eq_join_runs : ∀ (rs : List (List Char × Option Char)) (w : List Char)
    (sep : Option Char), (rs.getLast? = some (w, sep)) →
    emit_runs rs = join_runs rs ++ sep.toList := by
  intro rs
  induction rs with
  | nil => intro w sep h; simp at h
  | cons p rs ih =>
    intro w sep h
    obtain ⟨w0, sep0⟩ := p
    cases rs with
    | nil =>
      simp only [List.getLast?_singleton, Option.some.injEq, Prod.mk.injEq] at h
      obtain ⟨rfl, rfl⟩ := h
      simp [emit_runs, join_runs]
    | cons r rs =>
      have h2 : (r :: rs).getLast? = some (w, sep) := by
        rw [List.getLast?_cons_cons] at h; exact h
      simp only [emit_runs, join_runs] at ih ⊢
      rw [ih w sep h2]
      simp [List.append_assoc]

theorem back_cons_cons (c d : Char) (cs : List Char) : back (c :: d :: cs) = back (d :: cs) := by
  simp [back]

/-- The last run is followed by a space iff the string ends with a space. -/
theorem last_run_sep : ∀ (s : List Char), runs s ≠ [] →
    ∃ w sep, (runs s).getLast? = some (w, sep) ∧ sep.isSome = is_space (back s) := by
  intro s
  induction s with
  | nil => intro h; exact absurd rfl h
  | cons c cs ih =>
    intro hne
    by_cases hc : is_space c = true
    · rw [runs_cons_space c cs hc] at hne ⊢
      obtain ⟨w, sep, h1, h2⟩ := ih hne
      refine ⟨w, sep, h1, ?_⟩
      cases cs with
      | nil => exact absurd rfl hne
      | cons d cs => rw [back_cons_cons]; exact h2
    · simp only [Bool.not_eq_true] at hc
      cases cs with
      | nil =>
        refine ⟨[c], none, by simp [runs, hc], ?_⟩
        simp [back, hc]
      | cons d cs =>
        rw [back_cons_cons]
        by_cases hd : is_space d = true
        · have e : runs (c :: d :: cs) = ([c], some d) :: runs (d :: cs) := by
            simp [runs, hc, hd]
          rw [e]
          by_cases hr : runs (d :: cs) = []
          · rw [hr]
            refine ⟨[c], some d, rfl, ?_⟩
            have hall : ∀ x ∈ d :: cs, is_space x = true := by
              intro x hx
              by_contra hxs
              exact runs_ne_nil_of_non_space (d :: cs) ⟨x, hx, by simpa using hxs⟩ hr
            have hlast : back (d :: cs) ∈ d :: cs := by
              unfold back
              rw [List.getLastD_eq_getLast?, List.getLast?_eq_getLast _ (List.cons_ne_nil d cs)]
              exact List.getLast_mem _
            rw [hall _ hlast]
            rfl
          · obtain ⟨w, sep, h1, h2⟩ := ih hr
            refine ⟨w, sep, ?_, h2⟩
            cases hrs : runs (d :: cs) with
            | nil => exact absurd hrs hr
            | cons p rs => rw [List.getLast?_cons_cons, ← hrs]; exact h1
        · simp only [Bool.not_eq_true] at hd
          have hr := runs_cons_ne_nil d cs hd
          obtain ⟨w, sep, h1, h2⟩ := ih hr
          cases hrs : runs (d :: cs) with
          | nil => exact absurd hrs hr
          | cons p rs =>
            obtain ⟨w0, sep0⟩ := p
            have e : runs (c :: d :: cs) = (c :: w0, sep0) :: rs := by
              have : runs (c :: d :: cs) =
                  match runs (d :: cs) with
                  | [] => [([c], none)]
                  | (w, sep) :: rs => (c :: w, sep) :: rs := by
                simp [runs, hc, hd]
              rw [this, hrs]
            rw [e]
            rw [hrs] at h1
            cases rs with
            | nil =>
              simp only [List.getLast?_singleton, Option.some.injEq, Prod.mk.injEq] at h1
              obtain ⟨rfl, rfl⟩ := h1
              exact ⟨c :: w0, sep0, rfl, h2⟩
            | cons r rs =>
              refine ⟨w, sep, ?_, h2⟩
              rw [List.getLast?_cons_cons] at h1 ⊢
              exact h1

/-! ### The loops of `clean_spaces` -/

theorem char_at_eq_of_getElem_opt (str s : List Char) (i : Nat) (h : str[i]? = s[i]?) :
    char_at str i = char_at s i := by
  unfold char_at
  rw [List.getD_eq_getElem?_getD, List.getD_eq_getElem?_getD, h]

theorem getElem_opt_eq_some_char_at (s : List Char) (i : Nat) (h : i < s.length) :
    s[i]? = some (char_at s i) := by
  unfold char_at
  rw [List.getD_eq_getElem?_getD, List.getElem?_eq_getElem h]
  rfl

theorem drop_eq_char_at_cons (s : List Char) (i : Nat) (h : i < s.length) :
    s.drop i = char_at s i :: s.drop (i + 1) := by
  rw [List.drop_eq_getElem_cons h]
  congr 1
  have := getElem_opt_eq_some_char_at s i h
  rw [List.getElem?_eq_getElem h] at this
  exact Option.some.inj this

/-- One write of the loops: the character at `check_position` is copied to `insert_position`,
which is not after `check_position`. -/
theorem loop_invariant_write (s : List Char) (st : State) (out : List Char)
    (hinv : loop_invariant s st out) (hle : st.insert_position ≤ st.check_position)
    (hlt : st.check_position < s.length) (check1 : Nat)
    (hc : check1 = st.check_position ∨ check1 = st.check_position + 1) :
    char_at st.str_with_spaces st.check_position = char_at s st.check_position ∧
    loop_invariant s
      { str_with_spaces := st.str_with_spaces.set st.insert_position
          (char_at st.str_with_spaces st.check_position),
        insert_position := st.insert_position + 1,
        check_position := check1 }
      (out ++ [char_at s st.check_position]) := by
  obtain ⟨hlen, hins, htake, hchk, hrest, hlast⟩ := hinv
  have hc0 : char_at st.str_with_spaces st.check_position = char_at s st.check_position :=
    char_at_eq_of_getElem_opt _ _ _ (hrest _ (le_refl _))
  refine ⟨hc0, ?_⟩
  rw [hc0]
  have hil : st.insert_position < st.str_with_spaces.length := by omega
  have hget : ∀ i, (st.str_with_spaces.set st.insert_position (char_at s st.check_position))[i]? =
      if st.insert_position = i then some (char_at s st.check_position)
      else st.str_with_spaces[i]? := by
    intro i
    rw [List.getElem?_set]
    simp [hil]
  refine ⟨by simp [hlen], by simp [hins], ?_, by rcases hc with h | h <;> simp [h] <;> omega,
    ?_, ?_⟩
  · simp only [List.length_append, List.length_singleton]
    apply List.ext_getElem?
    intro i
    rw [List.getElem?_take, hget]
    by_cases hi : i < out.length
    · have h1 : i < out.length + 1 := by omega
      have h2 : st.insert_position ≠ i := by omega
      rw [if_pos h1, if_neg h2, List.getElem?_append_left hi]
      have := congrArg (fun l => l[i]?) htake
      simp only [List.getElem?_take, hi, if_true] at this
      exact this
    · by_cases hi2 : i = out.length
      · have h1 : i < out.length + 1 := by omega
        have h2 : st.insert_position = i := by omega
        rw [if_pos h1, if_pos h2, List.getElem?_append_right (by omega), hi2]
        simp
      · have h1 : ¬ i < out.length + 1 := by omega
        rw [if_neg h1, List.getElem?_eq_none]
        simp only [List.length_append, List.length_singleton]
        omega
  · intro i hi
    simp only at hi
    rw [hget]
    have hci : st.check_position ≤ i := by rcases hc with h | h <;> omega
    by_cases h2 : st.insert_position = i
    · have h3 : i = st.check_position := by omega
      rw [if_pos h2, h3, getElem_opt_eq_some_char_at s _ hlt]
    · rw [if_neg h2]
      exact hrest i hci
  · rw [hget]
    by_cases h2 : st.insert_position = s.length - 1
    · have h3 : s.length - 1 = st.check_position := by omega
      rw [if_pos h2, h3, getElem_opt_eq_some_char_at s _ hlt]
    · rw [if_neg h2]
      exact hlast

/-- The first inner loop stops at the first character from `check_position` on that is not a
space, or at the end of the string. -/
theorem skip_spaces_spec (s str : List Char) (hlen : str.length = s.length) :
    ∀ (bound check : Nat), (∀ i, check ≤ i → str[i]? = s[i]?) → check ≤ s.length →
    s.length - check ≤ bound →
    check ≤ skip_spaces str bound check ∧ skip_spaces str bound check ≤ s.length ∧
    rest_output (s.drop (skip_spaces str bound check)) = rest_output (s.drop check) ∧
    (skip_spaces str bound check < s.length →
      is_space (char_at s (skip_spaces str bound check)) = false) ∧
    (check < s.length → is_space (char_at s check) = true →
      check < skip_spaces str bound check) := by
  intro bound
  induction bound with
  | zero =>
    intro check _ hle hb
    have : check = s.length := by omega
    subst this
    simp [skip_spaces]
  | succ bound ih =>
    intro check hrest hle hb
    have hc0 : char_at str check = char_at s check :=
      char_at_eq_of_getElem_opt _ _ _ (hrest _ (le_refl _))
    by_cases hlt : check < s.length
    · by_cases hsp : is_space (char_at s check) = true
      · have e : skip_spaces str (bound + 1) check = skip_spaces str bound (check + 1) := by
          simp [skip_spaces, hlen, hc0, hlt, hsp]
        rw [e]
        obtain ⟨h1, h2, h3, h4, -⟩ := ih (check + 1) (fun i hi => hrest i (by omega))
          (by omega) (by omega)
        refine ⟨by omega, h2, ?_, h4, fun _ _ => by omega⟩
        rw [h3, drop_eq_char_at_cons s check hlt, rest_output_cons_space _ _ hsp]
      · have hsp1 : is_space (char_at s check) = false := by
          cases hx : is_space (char_at s check)
          · rfl
          · exact absurd hx hsp
        have e : skip_spaces str (bound + 1) check = check := by
          simp [skip_spaces, hlen, hc0, hsp1]
        rw [e]
        exact ⟨le_refl _, hle, rfl, fun _ => hsp1, fun _ h => absurd h hsp⟩
    · have e : skip_spaces str (bound + 1) check = check := by
        simp [skip_spaces, hlen, hlt]
      rw [e]
      exact ⟨le_refl _, hle, rfl, fun h => absurd h hlt, fun h => absurd h hlt⟩

theorem copy_non_spaces_mono : ∀ (bound : Nat) (st : State),
    st.check_position ≤ (copy_non_spaces bound st).check_position := by
  intro bound
  induction bound with
  | zero => intro st; exact le_refl _
  | succ bound ih =>
    intro st
    simp only [copy_non_spaces]
    split_ifs
    · have := ih
        { str_with_spaces := st.str_with_spaces.set st.insert_position
            (char_at st.str_with_spaces st.check_position),
          insert_position := st.insert_position + 1,
          check_position := st.check_position + 1 }
      simp only at this
      omega
    · exact le_refl _

/-- The second inner loop copies the non-spaces from `check_position` up to the next space or
the end of the string. -/
theorem copy_non_spaces_spec (s : List Char) : ∀ (bound : Nat) (st : State) (out : List Char),
    loop_invariant s st out → st.insert_position ≤ st.check_position →
    s.length - st.check_position ≤ bound →
    ∃ out', loop_invariant s (copy_non_spaces bound st) out' ∧
      (copy_non_spaces bound st).insert_position ≤ (copy_non_spaces bound st).check_position ∧
      out' ++ (pending_space (s.drop (copy_non_spaces bound st).check_position) ++
          rest_output (s.drop (copy_non_spaces bound st).check_position)) =
        out ++ (pending_space (s.drop st.check_position) ++
          rest_output (s.drop st.check_position)) ∧
      ((copy_non_spaces bound st).check_position < s.length →
        is_space (char_at s (copy_non_spaces bound st).check_position) = true) ∧
      (st.check_position < s.length → is_space (char_at s st.check_position) = false →
        st.check_position < (copy_non_spaces bound st).check_position) := by
  intro bound
  induction bound with
  | zero =>
    intro st out hinv hle hb
    have hchk : st.check_position ≤ s.length := hinv.2.2.2.1
    have : ¬ st.check_position < s.length := by omega
    exact ⟨out, hinv, hle, rfl, fun h => absurd h this, fun h => absurd h this⟩
  | succ bound ih =>
    intro st out hinv hle hb
    have hlen : st.str_with_spaces.length = s.length := hinv.1
    have hchk : st.check_position ≤ s.length := hinv.2.2.2.1
    have hc0 : char_at st.str_with_spaces st.check_position = char_at s st.check_position :=
      char_at_eq_of_getElem_opt _ _ _ (hinv.2.2.2.2.1 _ (le_refl _))
    by_cases hlt : st.check_position < s.length
    · by_cases hsp : is_space (char_at s st.check_position) = true
      · have e : copy_non_spaces (bound + 1) st = st := by
          simp [copy_non_spaces, hlen, hc0, hsp]
        rw [e]
        exact ⟨out, hinv, hle, rfl, fun _ => hsp, fun _ h => by rw [hsp] at h; cases h⟩
      · have hsp' : is_space (char_at s st.check_position) = false := by simpa using hsp
        have e : copy_non_spaces (bound + 1) st =
            copy_non_spaces bound
              { str_with_spaces := st.str_with_spaces.set st.insert_position
                  (char_at st.str_with_spaces st.check_position),
                insert_position := st.insert_position + 1,
                check_position := st.check_position + 1 } := by
          simp [copy_non_spaces, hlen, hc0, hsp', hlt]
        rw [e]
        obtain ⟨-, hinv1⟩ := loop_invariant_write s st out hinv hle hlt (st.check_position + 1)
          (Or.inr rfl)
        obtain ⟨out', h1, h2, h3, h4, -⟩ := ih _ _ hinv1 (by simp only; omega)
          (by simp only; omega)
        refine ⟨out', h1, h2, ?_, h4, fun _ _ => ?_⟩
        · rw [h3, drop_eq_char_at_cons s st.check_position hlt,
            rest_output_cons_non_space _ _ hsp']
          simp [pending_space, hsp']
        · have hmono := copy_non_spaces_mono bound
            { str_with_spaces := st.str_with_spaces.set st.insert_position
                (char_at st.str_with_spaces st.check_position),
              insert_position := st.insert_position + 1,
              check_position := st.check_position + 1 }
          simp only at hmono
          omega
    · have e : copy_non_spaces (bound + 1) st = st := by
        simp [copy_non_spaces, hlen, hlt]
      rw [e]
      exact ⟨out, hinv, hle, rfl, fun h => absurd h hlt, fun h => absurd h hlt⟩

theorem pending_space_drop (s : List Char) (i : Nat) (h : i < s.length → is_space (char_at s i) = false) :
    pending_space (s.drop i) = [] := by
  by_cases hi : i < s.length
  · rw [drop_eq_char_at_cons s i hi]
    simp [pending_space, h hi]
  · rw [List.drop_eq_nil_of_le (by omega)]
    rfl

/-- The `if` that ends the body of the outer loop writes the space at `check_position`. -/
theorem keep_one_space_spec (s : List Char) (st : State) (out : List Char)
    (hinv : loop_invariant s st out) (hle : st.insert_position ≤ st.check_position)
    (hsp : st.check_position < s.length → is_space (char_at s st.check_position) = true) :
    ∃ out', loop_invariant s (keep_one_space st) out' ∧
      (keep_one_space st).check_position = st.check_position ∧
      (keep_one_space st).insert_position ≤ st.check_position + 1 ∧
      ((keep_one_space st).insert_position = st.check_position + 1 →
        st.check_position < s.length) ∧
      out' ++ rest_output (s.drop st.check_position) =
        out ++ (pending_space (s.drop st.check_position) ++
          rest_output (s.drop st.check_position)) := by
  have hlen : st.str_with_spaces.length = s.length := hinv.1
  by_cases hlt : st.check_position < s.length
  · obtain ⟨-, hinv1⟩ := loop_invariant_write s st out hinv hle hlt st.check_position (Or.inl rfl)
    have e : keep_one_space st =
        { str_with_spaces := st.str_with_spaces.set st.insert_position
            (char_at st.str_with_spaces st.check_position),
          insert_position := st.insert_position + 1,
          check_position := st.check_position } := by
      simp [keep_one_space, hlen, hlt]
    rw [e]
    refine ⟨_, hinv1, rfl, by simp only; omega, fun _ => hlt, ?_⟩
    have hp : pending_space (s.drop st.check_position) = [char_at s st.check_position] := by
      rw [drop_eq_char_at_cons s _ hlt]
      simp [pending_space, hsp hlt]
    rw [hp]
    simp
  · have e : keep_one_space st = st := by
      simp [keep_one_space, hlen, hlt]
    rw [e]
    refine ⟨out, hinv, rfl, by omega, fun h => by omega, ?_⟩
    rw [pending_space_drop s _ (fun h => absurd h hlt)]
    simp

theorem outer_loop_succ (bound : Nat) (st : State) :
    outer_loop (bound + 1) st =
      if st.check_position < st.str_with_spaces.length then
        outer_loop bound
          (keep_one_space
            (copy_non_spaces st.str_with_spaces.length
              { str_with_spaces := st.str_with_spaces,
                insert_position := st.insert_position,
                check_position :=
                  skip_spaces st.str_with_spaces st.str_with_spaces.length st.check_position }))
      else st := rfl

/-- The outer loop ends with `check_position` at the end of the string, having written the
runs of the part of the input that was not read, each followed by the space after it. -/
theorem outer_loop_spec (s : List Char) : ∀ (bound : Nat) (st : State) (out : List Char),
    loop_invariant s st out → st.insert_position ≤ st.check_position + 1 →
    (st.insert_position = st.check_position + 1 →
      st.check_position < s.length ∧ is_space (char_at s st.check_position) = true) →
    s.length - st.check_position ≤ bound →
    loop_invariant s (outer_loop bound st) (out ++ rest_output (s.drop st.check_position)) ∧
      (outer_loop bound st).check_position = s.length := by
  intro bound
  induction bound with
  | zero =>
    intro st out hinv _ _ hb
    have hchk : st.check_position ≤ s.length := hinv.2.2.2.1
    have e : st.check_position = s.length := by omega
    have hdrop : rest_output (s.drop st.check_position) = [] := by
      rw [e, List.drop_length]; rfl
    rw [hdrop, List.append_nil]
    exact ⟨hinv, e⟩
  | succ bound ih =>
    intro st out hinv hle hsep hb
    obtain ⟨hlen, hins, htake, hchk, hrest, hlast⟩ := hinv
    rw [outer_loop_succ, hlen]
    by_cases hlt : st.check_position < s.length
    · rw [if_pos hlt]
      obtain ⟨k1, k2, k3, k4, k5⟩ := skip_spaces_spec s st.str_with_spaces hlen s.length
        st.check_position hrest hchk (by omega)
      generalize hc1 : skip_spaces st.str_with_spaces s.length st.check_position = check1
        at k1 k2 k3 k4 k5
      have hinv1 : loop_invariant s
          { str_with_spaces := st.str_with_spaces, insert_position := st.insert_position,
            check_position := check1 } out :=
        ⟨hlen, hins, htake, k2, fun i hi => hrest i (by simp only at hi; omega), hlast⟩
      have hle1 : st.insert_position ≤ check1 := by
        by_cases h : st.insert_position = st.check_position + 1
        · have := k5 hlt (hsep h).2
          omega
        · omega
      obtain ⟨out2, c1, c2, c3, c4, c5⟩ := copy_non_spaces_spec s s.length _ out hinv1 hle1
        (by simp only; omega)
      have hmono := copy_non_spaces_mono s.length
        { str_with_spaces := st.str_with_spaces, insert_position := st.insert_position,
          check_position := check1 }
      simp only at c3 c5 hmono
      generalize copy_non_spaces s.length
        { str_with_spaces := st.str_with_spaces, insert_position := st.insert_position,
          check_position := check1 } = st2 at c1 c2 c3 c4 c5 hmono
      obtain ⟨out3, d1, d2, d3, d4, d5⟩ := keep_one_space_spec s st2 out2 c1 c2 c4
      have hprog : st.check_position < st2.check_position := by
        by_cases hsp : is_space (char_at s st.check_position) = true
        · have := k5 hlt hsp
          omega
        · have h8 : is_space (char_at s st.check_position) = false := by
            cases hx : is_space (char_at s st.check_position)
            · rfl
            · exact absurd hx hsp
          by_cases h9 : check1 = st.check_position
          · rw [h9] at c5
            exact c5 hlt h8
          · omega
      obtain ⟨f1, f2⟩ := ih (keep_one_space st2) out3 d1 (by rw [d2]; exact d3)
        (fun h => by
          rw [d2] at h ⊢
          exact ⟨d4 h, c4 (d4 h)⟩)
        (by rw [d2]; omega)
      rw [d2] at f1
      refine ⟨?_, f2⟩
      have e : out3 ++ rest_output (s.drop st2.check_position) =
          out ++ rest_output (s.drop st.check_position) := by
        rw [d5, c3, pending_space_drop s check1 k4, List.nil_append, k3]
      rw [← e]
      exact f1
    · rw [if_neg hlt]
      have e : st.check_position = s.length := by omega
      have hdrop : rest_output (s.drop st.check_position) = [] := by
        rw [e, List.drop_length]; rfl
      rw [hdrop, List.append_nil]
      exact ⟨⟨hlen, hins, htake, hchk, hrest, hlast⟩, e⟩

theorem back_eq_of_getElem_opt (str s : List Char) (hlen : str.length = s.length)
    (h : str[s.length - 1]? = s[s.length - 1]?) : back str = back s := by
  unfold back
  rw [List.getLastD_eq_getLast?, List.getLastD_eq_getLast?, List.getLast?_eq_getElem?,
    List.getLast?_eq_getElem?, hlen, h]

/-- `clean_spaces` computes the runs of the string joined by the spaces that followed them. -/
theorem clean_spaces_eq_spec (s : List Char) (hsize : s.length < 2 ^ 64)
    (h : ∃ c ∈ s, is_space c = false) :
    clean_spaces s = clean_spaces_spec s ∧
    (outer_loop s.length
      { str_with_spaces := s, insert_position := 0, check_position := 0 }).check_position =
        s.length := by
  have hinv0 : loop_invariant s
      { str_with_spaces := s, insert_position := 0, check_position := 0 } [] :=
    ⟨rfl, rfl, rfl, Nat.zero_le _, fun _ _ => rfl, rfl⟩
  obtain ⟨hf, hchk⟩ := outer_loop_spec s s.length _ [] hinv0 (Nat.zero_le _)
    (fun h => by simp at h) (by simp)
  refine ⟨?_, hchk⟩
  simp only [List.nil_append, List.drop_zero] at hf
  unfold clean_spaces
  simp only
  generalize outer_loop s.length
    { str_with_spaces := s, insert_position := 0, check_position := 0 } = st at hf
  obtain ⟨hlen, hins, htake, -, -, hlast⟩ := hf
  rw [back_eq_of_getElem_opt _ s hlen hlast, hins]
  have hne := runs_ne_nil_of_non_space s h
  obtain ⟨w, sep, hl, hs⟩ := last_run_sep s hne
  have hE : rest_output s = join_runs (runs s) ++ sep.toList :=
    emit_runs_eq_join_runs (runs s) w sep hl
  have hEn : (rest_output s).length ≤ s.length := by
    have := congrArg List.length htake
    rw [List.length_take, hlen] at this
    omega
  unfold clean_spaces_spec resize
  cases hb : is_space (back s)
  · rw [hb] at hs
    cases sep with
    | some d => simp at hs
    | none =>
      simp only [Bool.false_eq_true, if_false]
      rw [htake, hlen, Nat.sub_eq_zero_of_le hEn, hE]
      simp
  · rw [hb] at hs
    cases sep with
    | none => simp at hs
    | some d =>
      simp only [if_true]
      have hlenE : (rest_output s).length = (join_runs (runs s)).length + 1 := by
        rw [hE]; simp
      have hmod : ((rest_output s).length + 2 ^ 64 - 1) % 2 ^ 64 = (join_runs (runs s)).length := by
        rw [hlenE]
        have : (join_runs (runs s)).length + 1 + 2 ^ 64 - 1 =
            (join_runs (runs s)).length + 2 ^ 64 := by omega
        rw [this, Nat.add_mod_right, Nat.mod_eq_of_lt (by omega)]
      rw [hmod, hlen, Nat.sub_eq_zero_of_le (by omega)]
      have ht : List.take (join_runs (runs s)).length st.str_with_spaces = join_runs (runs s) := by
        have h1 : List.take (join_runs (runs s)).length (List.take (rest_output s).length
            st.str_with_spaces) = List.take (join_runs (runs s)).length st.str_with_spaces := by
          rw [List.take_take, Nat.min_eq_left (by omega)]
        rw [← h1, htake, hE, List.take_left]
      rw [ht]
      simp

/-- Leading spaces do not contribute to the runs. -/
theorem runs_append_spaces : ∀ (pad t : List Char), (∀ c ∈ pad, is_space c = true) →
    runs (pad ++ t) = runs t := by
  intro pad
  induction pad with
  | nil => intro t _; rfl
  | cons c pad ih =>
    intro t h
    rw [List.cons_append, runs_cons_space c _ (h c (List.mem_cons_self c pad))]
    exact ih t (fun x hx => h x (List.mem_cons_of_mem c hx))

/-- The runs are the maximal runs: a non-empty block `w` of non-spaces that is followed by
the end of the string or by a space is the first run, recorded with the character that
follows it, and the other runs are those of what follows. -/
theorem runs_append_run : ∀ (w t : List Char), w ≠ [] → (∀ c ∈ w, is_space c = false) →
    (∀ d ∈ t.head?, is_space d = true) → runs (w ++ t) = (w, t.head?) :: runs t := by
  intro w
  induction w with
  | nil => intro t h; exact absurd rfl h
  | cons c w ih =>
    intro t _ hw ht
    have hc : is_space c = false := hw c (List.mem_cons_self c w)
    cases w with
    | nil =>
      cases t with
      | nil => simp [runs, hc]
      | cons d t =>
        have hd : is_space d = true := ht d (by simp)
        simp [runs, hc, hd]
    | cons c1 w =>
      have hc1 : is_space c1 = false := hw c1 (by simp)
      have ih' := ih t (List.cons_ne_nil c1 w) (fun x hx => hw x (List.mem_cons_of_mem c hx)) ht
      have e : runs (c :: c1 :: w ++ t) =
          match runs (c1 :: w ++ t) with
          | [] => [([c], none)]
          | (w, sep) :: rs => (c :: w, sep) :: rs := by
        simp [runs, hc, hc1]
      rw [e, ih']

/-- Claim C10: for every string with at least one character that is not a space (a space being
`' '` or `'_'`), `clean_spaces` leaves the maximal runs of non-space characters of the string,
in their order, with exactly one space between two consecutive runs, namely the first space
that followed the earlier run in the input, and no space before the first or after the last
run. -/
theorem c10_clean_spaces (str : List Char) (hsize : str.length < 2 ^ 64)
    (h : ∃ c ∈ str, is_space c = false) :
    clean_spaces str = join_runs (runs str) :=
  (clean_spaces_eq_spec str hsize h).1

/-- Witness of `c10_clean_spaces`: the second test of the source. -/
theorem c10_clean_spaces_witness :
    "_On__my___home_world__".toList.length < 2 ^ 64 ∧
    (∃ c ∈ "_On__my___home_world__".toList, is_space c = false) ∧
    clean_spaces "_On__my___home_world__".toList =
      join_runs (runs "_On__my___home_world__".toList) :=
  ⟨by decide, by decide,
   c10_clean_spaces "_On__my___home_world__".toList (by decide) (by decide)⟩

/-- The two tests of the source. -/
theorem clean_spaces_tests :
    clean_spaces " On  my   home world  ".toList = "On my home world".toList ∧
    clean_spaces "_On__my___home_world__".toList = "On_my_home_world".toList := by
  decide

end Medium1


/-! ## Theorems about the chain of acquaintances -/

namespace Medium2

/-! ### Acquaintances and chains -/

theorem acquainted_iff (peoples : List (String × List String)) (p q : String) :
    acquainted peoples p q = true ↔ ∃ l, peoples.lookup p = some l ∧ q ∈ l := by
  unfold acquainted
  cases h : peoples.lookup p with
  | none => simp
  | some l => simp

theorem peoples_at_ok (peoples : List (String × List String)) (v : String) (l : List String)
    (h : peoples_at peoples v = .ok l) : peoples.lookup v = some l := by
  unfold peoples_at at h
  cases hl : peoples.lookup v with
  | none => rw [hl] at h; exact Except.noConfusion h
  | some l' =>
    rw [hl] at h
    injection h with h
    rw [h]

theorem lookup_mem (peoples : List (String × List String)) (v : String) (l : List String)
    (h : peoples.lookup v = some l) : ∃ a, (a, l) ∈ peoples := by
  induction peoples with
  | nil => simp [List.lookup] at h
  | cons p ps ih =>
    obtain ⟨a, b⟩ := p
    simp only [List.lookup] at h
    split at h
    · injection h with h
      subst h
      exact ⟨a, List.mem_cons_self _ _⟩
    · obtain ⟨a', ha⟩ := ih h
      exact ⟨a', List.mem_cons_of_mem _ ha⟩

theorem mem_listed (peoples : List (String × List String)) (v x : String) (l : List String)
    (h : peoples.lookup v = some l) (hx : x ∈ l) : x ∈ listed peoples := by
  obtain ⟨a, ha⟩ := lookup_mem peoples v l h
  unfold listed
  rw [List.mem_flatten]
  exact ⟨l, List.mem_map.2 ⟨(a, l), ha, rfl⟩, hx⟩

theorem length_listed (peoples : List (String × List String)) :
    (listed peoples).length + 2 = iterations peoples := by
  unfold listed iterations
  rw [List.length_flatten, List.map_map]
  rfl

/-- A chain from `a` gives the steps from `a`: the steps can be extended at the start. -/
theorem reach_cons (peoples : List (String × List String)) (a b : String)
    (hab : acquainted peoples a b = true) :
    ∀ (n : Nat) (y : String), Reach peoples b n y → Reach peoples a (n + 1) y := by
  intro n y h
  induction h with
  | zero => exact Reach.step Reach.zero hab
  | step _ hxy ih => exact Reach.step ih hxy

theorem reach_of_chain (peoples : List (String × List String)) :
    ∀ (chain : List String) (first second : String), is_chain peoples first second chain →
      Reach peoples first (chain.length - 1) second := by
  intro chain
  induction chain with
  | nil => intro first second h; simp [is_chain] at h
  | cons a rest ih =>
    intro first second ⟨hh, hl, hc⟩
    simp only [List.head?_cons, Option.some.injEq] at hh
    subst hh
    cases rest with
    | nil =>
      simp only [List.getLast?_singleton, Option.some.injEq] at hl
      subst hl
      exact Reach.zero
    | cons b rest' =>
      rw [List.chain'_cons] at hc
      rw [List.getLast?_cons_cons] at hl
      have := ih b second ⟨rfl, hl, hc.2⟩
      have h2 := reach_cons peoples a b hc.1 _ _ this
      simpa using h2

/-! ### The invariant of the search -/

/-- Every person reached in `n` steps is used and numbered at most `n`, unless a pending
person is numbered less than `n`. -/
theorem frontier {peoples : List (String × List String)} {first : String} {dist : String → Nat}
    {used : String → Bool} {parents : String → String} {pending : String → Prop} {d : Nat}
    (hI : Inv peoples first dist used parents pending d) :
    ∀ (n : Nat) (y : String), Reach peoples first n y →
      (used y = true ∧ dist y ≤ n) ∨ ∃ z, pending z ∧ dist z < n := by
  intro n y h
  induction h with
  | zero => exact Or.inl ⟨hI.used_first, by rw [hI.dist_first]⟩
  | @step n x y _ hxy ih =>
    rcases ih with ⟨hu, hd⟩ | ⟨z, hz, hlt⟩
    · by_cases hp : pending x
      · exact Or.inr ⟨x, hp, by omega⟩
      · obtain ⟨h1, h2⟩ := hI.done x hu hp y hxy
        exact Or.inl ⟨h1, by omega⟩
    · exact Or.inr ⟨z, hz, by omega⟩

/-- The invariant is kept when the person `t`, an acquaintance of `v` not used so far, is
marked, pushed on the queue, given the parent `v` and numbered one more than `v`. -/
theorem inv_discover {peoples : List (String × List String)} {first : String}
    {dist : String → Nat} {used : String → Bool} {parents : String → String}
    {q : List String} {v t : String}
    (hI : Inv peoples first dist used parents (fun x => x ∈ q ∨ x = v) (dist v))
    (ht : used t = false) (hvt : acquainted peoples v t = true) :
    Inv peoples first (fun x => if x = t then dist v + 1 else dist x)
      (fun x => if x = t then true else used x)
      (fun x => if x = t then v else parents x)
      (fun x => x ∈ q ++ [t] ∨ x = v) (dist v) := by
  have hne : ∀ x, used x = true → x ≠ t := by
    intro x hx e
    rw [e, ht] at hx
    exact Bool.noConfusion hx
  have hv : used v = true := (hI.pend v (Or.inr rfl)).1
  have hvt' : v ≠ t := hne v hv
  have hft : first ≠ t := hne first hI.used_first
  refine ⟨⟨?_, ?_, ?_, ?_⟩, ?_, ?_, ?_⟩
  · show (if first = t then true else used first) = true
    rw [if_neg hft]; exact hI.used_first
  · show (if first = t then dist v + 1 else dist first) = 0
    rw [if_neg hft]; exact hI.dist_first
  · show (if first = t then v else parents first) = first
    rw [if_neg hft]; exact hI.parents_first
  · intro x hx hxf
    by_cases hxt : x = t
    · subst hxt
      simp only [if_true, if_neg hvt']
      exact ⟨hv, hvt, trivial⟩
    · simp only [if_neg hxt] at hx ⊢
      obtain ⟨h1, h2, h3⟩ := hI.par x hx hxf
      rw [if_neg (hne _ h1), if_neg (hne _ h1)]
      exact ⟨h1, h2, h3⟩
  · intro x hx hnp y hxy
    have hxt : x ≠ t := fun e => hnp (Or.inl (by rw [e]; simp))
    simp only [if_neg hxt] at hx ⊢
    have hnp' : ¬ (x ∈ q ∨ x = v) := by
      rintro (h | h)
      · exact hnp (Or.inl (List.mem_append_left _ h))
      · exact hnp (Or.inr h)
    obtain ⟨h1, h2⟩ := hI.done x hx hnp' y hxy
    rw [if_neg (hne _ h1), if_neg (hne _ h1)]
    exact ⟨h1, h2⟩
  · intro x hp
    by_cases hxt : x = t
    · subst hxt
      simp only [if_true]
      exact ⟨trivial, Nat.le_succ _⟩
    · simp only [if_neg hxt]
      apply hI.pend x
      rcases hp with h | h
      · rcases List.mem_append.1 h with h | h
        · exact Or.inl h
        · exact absurd (List.mem_singleton.1 h) hxt
      · exact Or.inr h
  · intro x hx
    by_cases hxt : x = t
    · subst hxt
      simp only [if_true]
      exact le_refl _
    · simp only [if_neg hxt] at hx ⊢
      exact hI.upper x hx

/-- The `for` loop over the acquaintances of `v` keeps the invariant, or finds `second` at the
least number of steps from `first`. -/
theorem visit_spec (peoples : List (String × List String)) (first second v : String) :
    ∀ (tos pre : List String) (s : State) (dist : String → Nat),
    peoples.lookup v = some (pre ++ tos) →
    Inv peoples first dist s.used s.parents (fun x => x ∈ s.q ∨ x = v) (dist v) →
    s.q.Pairwise (fun a b => dist a ≤ dist b) →
    (∀ y ∈ pre, s.used y = true ∧ dist y ≤ dist v + 1) →
    s.success = false → (s.used second = true → second = first) →
    ((visit second v tos s).success = false ∧
      ((visit second v tos s).used second = true → second = first) ∧
      ∃ dist1 d, Inv peoples first dist1 (visit second v tos s).used
          (visit second v tos s).parents (fun x => x ∈ (visit second v tos s).q) d ∧
        (visit second v tos s).q.Pairwise (fun a b => dist1 a ≤ dist1 b)) ∨
    ((visit second v tos s).success = true ∧ (visit second v tos s).q = [] ∧
      ∃ dist1, Par peoples first dist1 (visit second v tos s).used
          (visit second v tos s).parents ∧
        (visit second v tos s).used second = true ∧
        ∀ n, Reach peoples first n second → dist1 second ≤ n) := by
  intro tos
  induction tos with
  | nil =>
    intro pre s dist hl hI hp hpre hs h2
    left
    refine ⟨hs, h2, dist, dist v, ⟨hI.toPar, ?_, ?_, hI.upper⟩, hp⟩
    · intro x hx hnp y hxy
      by_cases hxv : x = v
      · subst hxv
        obtain ⟨l, hl', hy⟩ := (acquainted_iff peoples x y).1 hxy
        rw [hl] at hl'
        injection hl' with hl'
        rw [← hl', List.append_nil] at hy
        exact hpre y hy
      · exact hI.done x hx (fun h => h.elim hnp hxv) y hxy
    · intro x hx
      exact hI.pend x (Or.inl hx)
  | cons t tos ih =>
    intro pre s dist hl hI hp hpre hs h2
    have hvt : acquainted peoples v t = true :=
      (acquainted_iff peoples v t).2 ⟨_, hl, by simp⟩
    have hl' : peoples.lookup v = some ((pre ++ [t]) ++ tos) := by
      rw [hl, List.append_assoc]; rfl
    by_cases hu : s.used t = false
    · have hI1 := inv_discover hI hu hvt
      have hne : ∀ x, s.used x = true → x ≠ t := by
        intro x hx e
        rw [e, hu] at hx
        exact Bool.noConfusion hx
      have hv : s.used v = true := (hI.pend v (Or.inr rfl)).1
      by_cases hts : t = second
      · right
        subst hts
        have e : visit t v (t :: tos) s =
            { q := [],
              used := fun x => if x = t then true else s.used x,
              parents := fun x => if x = t then v else s.parents x,
              success := true } := by
          simp only [visit, hu, if_true]
        rw [e]
        refine ⟨rfl, rfl, _, hI1.toPar, ?_, ?_⟩
        · show (if t = t then true else s.used t) = true
          rw [if_pos rfl]
        · intro n hR
          show (if t = t then dist v + 1 else dist t) ≤ n
          rw [if_pos rfl]
          rcases frontier hI n t hR with ⟨h, -⟩ | ⟨z, hz, hlt⟩
          · exact absurd rfl (hne t h)
          · have := (hI.pend z hz).2
            omega
      · have e : visit second v (t :: tos) s =
            visit second v tos
              { q := s.q ++ [t],
                used := fun x => if x = t then true else s.used x,
                parents := fun x => if x = t then v else s.parents x,
                success := s.success } := by
          simp only [visit, hu, hts, if_true, if_false]
        rw [e]
        apply ih (pre ++ [t]) _ (fun x => if x = t then dist v + 1 else dist x) hl'
        · show Inv peoples first _ _ _ _ (if v = t then dist v + 1 else dist v)
          rw [if_neg (hne v hv)]
          exact hI1
        · show (s.q ++ [t]).Pairwise _
          rw [List.pairwise_append]
          refine ⟨?_, List.pairwise_singleton _ _, ?_⟩
          · apply hp.imp_of_mem
            intro a b ha hb hab
            have ha' := hne a (hI.pend a (Or.inl ha)).1
            have hb' := hne b (hI.pend b (Or.inl hb)).1
            simp only [if_neg ha', if_neg hb']
            exact hab
          · intro a ha b hb
            rw [List.mem_singleton.1 hb]
            have ha' := hne a (hI.pend a (Or.inl ha)).1
            simp only [if_neg ha', if_true]
            exact hI.upper a (hI.pend a (Or.inl ha)).1
        · intro y hy
          show (if y = t then true else s.used y) = true ∧
            (if y = t then dist v + 1 else dist y) ≤ (if v = t then dist v + 1 else dist v) + 1
          rw [if_neg (hne v hv)]
          by_cases hyt : y = t
          · simp only [if_pos hyt]
            exact ⟨trivial, le_refl _⟩
          · simp only [if_neg hyt]
            rcases List.mem_append.1 hy with h | h
            · exact hpre y h
            · exact absurd (List.mem_singleton.1 h) hyt
        · exact hs
        · show (if second = t then true else s.used second) = true → second = first
          rw [if_neg (fun e => hts e.symm)]
          exact h2
    · have hu' : s.used t = true := by simpa using hu
      have e : visit second v (t :: tos) s = visit second v tos s := by
        simp only [visit, hu', Bool.true_eq_false, if_false]
      rw [e]
      apply ih (pre ++ [t]) s dist hl' hI hp _ hs h2
      intro y hy
      rcases List.mem_append.1 hy with h | h
      · exact hpre y h
      · rw [List.mem_singleton.1 h]
        exact ⟨hu', hI.upper t hu'⟩

theorem search_loop_nil (peoples : List (String × List String)) (second : String) (fuel : Nat)
    (s : State) (h : s.q = []) : search_loop peoples second (fuel + 1) s = some (.ok s) := by
  simp only [search_loop, h]

theorem search_loop_cons (peoples : List (String × List String)) (second : String) (fuel : Nat)
    (s : State) (v : String) (rest : List String) (h : s.q = v :: rest) :
    search_loop peoples second (fuel + 1) s =
      match peoples_at peoples v with
      | .error e => some (.error e)
      | .ok acquaintances =>
        search_loop peoples second fuel
          (visit second v acquaintances
            { q := rest, used := s.used, parents := s.parents, success := s.success }) := by
  simp only [search_loop, h]

/-- When the loop of the search ends, either `second` was not found, every person is used or
unused for good and nobody is pending; or `second` was found at the least number of steps. -/
theorem search_loop_spec (peoples : List (String × List String)) (first second : String) :
    ∀ (fuel : Nat) (s s1 : State),
    s.success = false → (s.used second = true → second = first) →
    (∃ dist d, Inv peoples first dist s.used s.parents (fun x => x ∈ s.q) d ∧
      s.q.Pairwise (fun a b => dist a ≤ dist b)) →
    search_loop peoples second fuel s = some (.ok s1) →
    (s1.success = false ∧ (s1.used second = true → second = first) ∧
      ∃ dist d, Inv peoples first dist s1.used s1.parents (fun _ => False) d) ∨
    (s1.success = true ∧
      ∃ dist, Par peoples first dist s1.used s1.parents ∧ s1.used second = true ∧
        ∀ n, Reach peoples first n second → dist second ≤ n) := by
  intro fuel
  induction fuel with
  | zero => intro s s1 _ _ _ h; simp [search_loop] at h
  | succ fuel ih =>
    intro s s1 hs h2 ⟨dist, d, hI, hp⟩ h
    cases hq : s.q with
    | nil =>
      rw [search_loop_nil peoples second fuel s hq] at h
      injection h with h
      injection h with h
      subst h
      left
      refine ⟨hs, h2, dist, d, ⟨hI.toPar, ?_, ?_, hI.upper⟩⟩
      · intro x hx _ y hxy
        exact hI.done x hx (by rw [hq]; simp) y hxy
      · intro x hx
        exact False.elim hx
    | cons v rest =>
      rw [search_loop_cons peoples second fuel s v rest hq] at h
      rw [hq] at hI hp
      cases hat : peoples_at peoples v with
      | error e => rw [hat] at h; simp at h
      | ok l =>
        rw [hat] at h
        simp only at h
        have hl := peoples_at_ok peoples v l hat
        have hdv : d ≤ dist v := (hI.pend v (List.mem_cons_self _ _)).2
        have hI0 : Inv peoples first dist s.used s.parents (fun x => x ∈ rest ∨ x = v)
            (dist v) := by
          refine ⟨hI.toPar, ?_, ?_, ?_⟩
          · intro x hx hnp y hxy
            refine hI.done x hx ?_ y hxy
            intro hm
            rcases List.mem_cons.1 hm with e | e
            · exact hnp (Or.inr e)
            · exact hnp (Or.inl e)
          · intro x hx
            rcases hx with hx | hx
            · exact ⟨(hI.pend x (List.mem_cons_of_mem _ hx)).1, (List.pairwise_cons.1 hp).1 x hx⟩
            · rw [hx]
              exact ⟨(hI.pend v (List.mem_cons_self _ _)).1, le_refl _⟩
          · intro x hx
            have := hI.upper x hx
            omega
        rcases visit_spec peoples first second v l []
            { q := rest, used := s.used, parents := s.parents, success := s.success } dist
            (by simpa using hl) hI0 (List.pairwise_cons.1 hp).2 (by simp) hs h2 with
          ⟨h3, h4, h5⟩ | ⟨h3, h4, h5⟩
        · exact ih _ s1 h3 h4 h5 h
        · right
          cases fuel with
          | zero => simp [search_loop] at h
          | succ fuel =>
            rw [search_loop_nil peoples second fuel _ h4] at h
            injection h with h
            injection h with h
            subst h
            exact ⟨h3, h5⟩

/-! ### The chain read from `parents` -/

/-- The loop that follows `parents` from a used person `x` ends when its fuel exceeds the
number of `x`, and puts before `x` the chain from `first` to `x`. -/
theorem restore_spec {peoples : List (String × List String)} {first : String}
    {dist : String → Nat} {used : String → Bool} {parents : String → String}
    (hP : Par peoples first dist used parents) :
    ∀ (fuel : Nat) (x : String) (rest : List String), used x = true → dist x < fuel →
    ∃ pre, restore parents fuel (x :: rest) = some (pre ++ x :: rest) ∧
      (pre ++ [x]).head? = some first ∧
      (pre ++ [x]).Chain' (fun p q => acquainted peoples p q = true) ∧
      pre.length = dist x := by
  intro fuel
  induction fuel with
  | zero => intro x rest _ h; exact absurd h (Nat.not_lt_zero _)
  | succ fuel ih =>
    intro x rest hu hd
    by_cases hx : parents x = x
    · have hxf : x = first := by
        by_contra hxf
        have := (hP.par x hu hxf).2.2
        rw [hx] at this
        omega
      refine ⟨[], ?_, ?_, ?_, ?_⟩
      · simp only [restore, hx, ne_eq, not_true_eq_false, if_false, List.nil_append]
      · rw [hxf]; rfl
      · exact List.chain'_singleton _
      · rw [hxf, hP.dist_first]; rfl
    · have hxf : x ≠ first := by
        intro e
        rw [e] at hx
        exact hx hP.parents_first
      obtain ⟨h1, h2, h3⟩ := hP.par x hu hxf
      obtain ⟨pre, e, hh, hc, hlen⟩ := ih (parents x) (x :: rest) h1 (by omega)
      refine ⟨pre ++ [parents x], ?_, ?_, ?_, ?_⟩
      · simp only [restore, ne_eq, hx, not_false_eq_true, if_true, e, List.append_assoc,
          List.singleton_append]
      · rw [List.head?_append_of_ne_nil _ (by simp)]
        exact hh
      · apply List.Chain'.append hc (List.chain'_singleton _)
        intro a ha b hb
        have hl : (pre ++ [parents x]).getLast? = some (parents x) := by simp
        rw [Option.mem_def, hl] at ha
        rw [Option.mem_def, List.head?_cons] at hb
        injection ha with ha
        injection hb with hb
        rw [← ha, ← hb]
        exact h2
      · rw [List.length_append, hlen, h3]
        rfl

/-- The number of a used person is at most the number of listed acquaintances: the persons on
the way from `first` are distinct and, `first` apart, all listed. -/
theorem dist_le_listed {peoples : List (String × List String)} {first : String}
    {dist : String → Nat} {used : String → Bool} {parents : String → String}
    (hP : Par peoples first dist used parents) (x : String) (hu : used x = true) :
    dist x ≤ (listed peoples).length := by
  have key : ∀ (n : Nat) (x : String), used x = true → dist x = n →
      ∃ l : List String, l.Nodup ∧ l.length = n ∧
        ∀ y ∈ l, y ∈ listed peoples ∧ dist y ≤ n := by
    intro n
    induction n with
    | zero => intro x _ _; exact ⟨[], List.nodup_nil, rfl, fun y hy => by simp at hy⟩
    | succ n ih =>
      intro x hu hd
      have hxf : x ≠ first := by
        intro e
        rw [e, hP.dist_first] at hd
        omega
      obtain ⟨h1, h2, h3⟩ := hP.par x hu hxf
      obtain ⟨l, hnd, hlen, hl⟩ := ih (parents x) h1 (by omega)
      refine ⟨x :: l, List.nodup_cons.2 ⟨?_, hnd⟩, by rw [List.length_cons, hlen], ?_⟩
      · intro hx
        have := (hl x hx).2
        omega
      · intro y hy
        rcases List.mem_cons.1 hy with e | e
        · rw [e]
          obtain ⟨lst, hlst, hmem⟩ := (acquainted_iff peoples _ _).1 h2
          exact ⟨mem_listed peoples _ x lst hlst hmem, by omega⟩
        · exact ⟨(hl y e).1, by have := (hl y e).2; omega⟩
  obtain ⟨l, hnd, hlen, hl⟩ := key (dist x) x hu rfl
  rw [← hlen]
  exact (List.subperm_of_subset hnd (fun y hy => (hl y hy).1)).length_le

/-! ### The loops end -/

theorem countP_discover (l : List String) (used : String → Bool) (t : String)
    (ht : used t = false) :
    l.countP (fun x => !(if x = t then true else used x)) + l.count t =
      l.countP (fun x => !used x) := by
  induction l with
  | nil => rfl
  | cons a l ih =>
    by_cases hat : a = t
    · subst hat
      simp only [List.countP_cons, List.count_cons_self, if_true, Bool.not_true, ht,
        Bool.not_false, Bool.false_eq_true, if_false]
      omega
    · have : (a == t) = false := by simpa using hat
      simp only [List.countP_cons, List.count_cons, if_neg hat, this, Bool.false_eq_true,
        if_false]
      omega

/-- The `for` loop does not increase the length of the queue plus the number of listed
acquaintances that are not used. -/
theorem visit_potential (listed_all : List String) (second v : String) :
    ∀ (tos : List String) (s : State), (∀ x ∈ tos, x ∈ listed_all) →
    (visit second v tos s).q.length +
        listed_all.countP (fun x => !(visit second v tos s).used x) ≤
      s.q.length + listed_all.countP (fun x => !s.used x) := by
  intro tos
  induction tos with
  | nil => intro s _; exact le_refl _
  | cons t tos ih =>
    intro s hm
    have htl : t ∈ listed_all := hm t (List.mem_cons_self _ _)
    have hm' : ∀ x ∈ tos, x ∈ listed_all := fun x hx => hm x (List.mem_cons_of_mem _ hx)
    by_cases hu : s.used t = false
    · have hc := countP_discover listed_all s.used t hu
      have h1 : 1 ≤ listed_all.count t := List.count_pos_iff.2 htl
      by_cases hts : t = second
      · subst hts
        simp only [visit, hu, if_true, List.length_nil]
        omega
      · simp only [visit, hu, hts, if_true, if_false]
        have := ih { q := s.q ++ [t],
                     used := fun x => if x = t then true else s.used x,
                     parents := fun x => if x = t then v else s.parents x,
                     success := s.success } hm'
        simp only [List.length_append, List.length_singleton] at this
        omega
    · have hu' : s.used t = true := by simpa using hu
      simp only [visit, hu', Bool.true_eq_false, if_false]
      exact ih s hm'

theorem visit_keys (key : String → Prop) (second v : String) :
    ∀ (tos : List String) (s : State), (∀ x ∈ tos, key x) → (∀ x ∈ s.q, key x) →
    ∀ x ∈ (visit second v tos s).q, key x := by
  intro tos
  induction tos with
  | nil => intro s _ hq; exact hq
  | cons t tos ih =>
    intro s hm hq
    have hm' : ∀ x ∈ tos, key x := fun x hx => hm x (List.mem_cons_of_mem _ hx)
    by_cases hu : s.used t = false
    · by_cases hts : t = second
      · subst hts
        simp only [visit, hu, if_true]
        intro x hx
        simp at hx
      · simp only [visit, hu, hts, if_true, if_false]
        apply ih _ hm'
        intro x hx
        rcases List.mem_append.1 hx with h | h
        · exact hq x h
        · rw [List.mem_singleton.1 h]
          exact hm t (List.mem_cons_self _ _)
    · have hu' : s.used t = true := by simpa using hu
      simp only [visit, hu', Bool.true_eq_false, if_false]
      exact ih s hm' hq

/-- The loop of the search ends within its fuel when the fuel exceeds the length of the queue
plus the number of listed acquaintances not used; it throws only when it pops a person that
is not a key. -/
theorem search_loop_total (peoples : List (String × List String)) (second : String) :
    ∀ (fuel : Nat) (s : State),
    s.q.length + (listed peoples).countP (fun x => !s.used x) < fuel →
    ∃ r, search_loop peoples second fuel s = some r ∧
      ((∀ v l, peoples.lookup v = some l → ∀ x ∈ l, (peoples.lookup x).isSome = true) →
        (∀ x ∈ s.q, (peoples.lookup x).isSome = true) → ∃ s1, r = .ok s1) := by
  intro fuel
  induction fuel with
  | zero => intro s h; exact absurd h (Nat.not_lt_zero _)
  | succ fuel ih =>
    intro s h
    cases hq : s.q with
    | nil =>
      rw [search_loop_nil peoples second fuel s hq]
      exact ⟨_, rfl, fun _ _ => ⟨s, rfl⟩⟩
    | cons v rest =>
      rw [search_loop_cons peoples second fuel s v rest hq]
      rw [hq] at h
      cases hat : peoples_at peoples v with
      | error e =>
        refine ⟨_, rfl, fun _ hk => ?_⟩
        have hv := hk v (List.mem_cons_self _ _)
        unfold peoples_at at hat
        cases hl : peoples.lookup v with
        | none => rw [hl] at hv; simp at hv
        | some l => rw [hl] at hat; simp at hat
      | ok l =>
        simp only
        have hl := peoples_at_ok peoples v l hat
        have hpot := visit_potential (listed peoples) second v l
          { q := rest, used := s.used, parents := s.parents, success := s.success }
          (fun x hx => mem_listed peoples v x l hl hx)
        simp only [List.length_cons] at h
        obtain ⟨r, hr, hok⟩ := ih
          (visit second v l
            { q := rest, used := s.used, parents := s.parents, success := s.success })
          (by simp only at hpot; omega)
        refine ⟨r, hr, fun hkeys hk => hok hkeys ?_⟩
        apply visit_keys (fun x => (peoples.lookup x).isSome = true) second v l _
          (hkeys v l hl)
        intro x hx
        exact hk x (List.mem_cons_of_mem _ hx)

/-! ### The outcome of `searchAcquaintancesChain` -/

/-- The outcome of `searchAcquaintancesChain`: it returns; it throws only when a person popped
from the queue is not a key; the empty chain is returned when nobody but `first` itself can be
`second`; otherwise it returns a chain from `first` to `second` that has at most `n + 1`
elements whenever `second` can be reached in `n` steps. -/
theorem search_outcome (peoples : List (String × List String)) (first second : String) :
    ((∃ e, searchAcquaintancesChain peoples first second = some (.error e)) ∧
      ¬ ((∀ v l, peoples.lookup v = some l → ∀ x ∈ l, (peoples.lookup x).isSome = true) ∧
        (peoples.lookup first).isSome = true)) ∨
    (searchAcquaintancesChain peoples first second = some (.ok []) ∧
      (second ≠ first → ∀ n, ¬ Reach peoples first n second)) ∨
    (∃ c, searchAcquaintancesChain peoples first second = some (.ok c) ∧
      is_chain peoples first second c ∧
      ∀ n, Reach peoples first n second → c.length ≤ n + 1) := by
  have hfuel : ([first] : List String).length +
      (listed peoples).countP (fun x => !(if x = first then true else false)) <
        iterations peoples := by
    have := List.countP_le_length (fun x => !(if x = first then true else false))
      (l := listed peoples)
    have := length_listed peoples
    simp only [List.length_singleton]
    omega
  obtain ⟨r, hr, hok⟩ := search_loop_total peoples second (iterations peoples)
    { q := [first],
      used := fun x => if x = first then true else false,
      parents := fun x => if x = first then first else "",
      success := false } hfuel
  cases r with
  | error e =>
    left
    refine ⟨⟨e, ?_⟩, ?_⟩
    · simp only [searchAcquaintancesChain, hr]
    · rintro ⟨hkeys, hfirst⟩
      obtain ⟨s1, hs1⟩ := hok hkeys (fun x hx => by rw [List.mem_singleton.1 hx]; exact hfirst)
      exact Except.noConfusion hs1
  | ok s1 =>
    right
    have hI0 : Inv peoples first (fun _ => 0) (fun x => if x = first then true else false)
        (fun x => if x = first then first else "") (fun x => x ∈ [first]) 0 := by
      refine ⟨⟨by simp, rfl, by simp, ?_⟩, ?_, ?_, ?_⟩
      · intro x hx hxf
        simp [hxf] at hx
      · intro x hx hnp
        by_cases hxf : x = first
        · exact absurd (by simp [hxf]) hnp
        · simp [hxf] at hx
      · intro x hx
        simp only [List.mem_singleton] at hx
        simp [hx]
      · intro x _
        exact Nat.zero_le _
    rcases search_loop_spec peoples first second (iterations peoples) _ s1 rfl
        (by
          show (if second = first then true else false) = true → second = first
          intro h
          by_contra hne
          rw [if_neg hne] at h
          exact Bool.noConfusion h)
        ⟨fun _ => 0, 0, hI0, List.pairwise_singleton _ _⟩ hr with
      ⟨h1, h2, dist, d, hI⟩ | ⟨h1, dist, hP, hu, hmin⟩
    · left
      refine ⟨?_, ?_⟩
      · simp only [searchAcquaintancesChain, hr, h1, if_true]
      · intro hne n hR
        rcases frontier hI n second hR with ⟨h, -⟩ | ⟨z, hz, -⟩
        · exact hne (h2 h)
        · exact hz
    · right
      have hd : dist second < iterations peoples := by
        have := dist_le_listed hP second hu
        have := length_listed peoples
        omega
      obtain ⟨pre, e, hh, hc, hlen⟩ := restore_spec hP (iterations peoples) second [] hu hd
      refine ⟨pre ++ [second], ?_, ⟨hh, by simp, hc⟩, ?_⟩
      · simp only [searchAcquaintancesChain, hr, h1, Bool.true_eq_false, if_false, e]
      · intro n hR
        have := hmin n hR
        rw [List.length_append, hlen, List.length_singleton]
        omega

theorem keys_of_entries (peoples : List (String × List String))
    (h : ∀ people ∈ peoples, ∀ x ∈ people.2, (peoples.lookup x).isSome = true) :
    ∀ v l, peoples.lookup v = some l → ∀ x ∈ l, (peoples.lookup x).isSome = true := by
  intro v l hl x hx
  obtain ⟨a, ha⟩ := lookup_mem peoples v l hl
  exact h (a, l) ha x hx

theorem is_chain_ne_nil {peoples : List (String × List String)} {first second : String}
    {chain : List String} (h : is_chain peoples first second chain) : 1 ≤ chain.length := by
  cases chain with
  | nil => simp [is_chain] at h
  | cons a rest => simp

/-- Claim C11: `searchAcquaintancesChain(peoples, first, second)` returns (the loops end), and
whenever it returns a non-empty chain, the chain starts with `first`, ends with `second`, every
element of it is followed by one of its acquaintances (`q` in `peoples[p]` for consecutive `p`,
`q`), and no chain of acquaintances from `first` to `second` has fewer elements. -/
theorem c11_chain_is_shortest (peoples : List (String × List String))
    (first second : String) :
    (∃ r, searchAcquaintancesChain peoples first second = some r) ∧
    ∀ chain, searchAcquaintancesChain peoples first second = some (.ok chain) → chain ≠ [] →
      chain.head? = some first ∧ chain.getLast? = some second ∧
      chain.Chain' (fun p q => acquainted peoples p q = true) ∧
      ∀ other, is_chain peoples first second other → chain.length ≤ other.length := by
  rcases search_outcome peoples first second with ⟨⟨e, he⟩, -⟩ | ⟨he, -⟩ | ⟨c, he, hc, hmin⟩
  · refine ⟨⟨_, he⟩, fun chain h _ => ?_⟩
    rw [he] at h
    injection h with h
    exact Except.noConfusion h
  · refine ⟨⟨_, he⟩, fun chain h hne => ?_⟩
    rw [he] at h
    injection h with h
    injection h with h
    exact absurd h.symm hne
  · refine ⟨⟨_, he⟩, fun chain h _ => ?_⟩
    rw [he] at h
    injection h with h
    injection h with h
    subst h
    refine ⟨hc.1, hc.2.1, hc.2.2, fun other ho => ?_⟩
    have h1 := hmin _ (reach_of_chain peoples other first second ho)
    have h2 := is_chain_ne_nil ho
    omega

/-- Witness of `c11_chain_is_shortest`: the map of `test2`; the chain returned from `a` to `e`
is `a`, `b`, `d`, `e`, and no chain from `a` to `e` has fewer than 4 elements. -/
theorem c11_chain_is_shortest_witness :
    searchAcquaintancesChain
      [("a", ["b", "c"]), ("b", ["c", "d"]), ("c", ["d", "a"]), ("d", ["e", "b"])] "a" "e" =
        some (.ok ["a", "b", "d", "e"]) ∧
    ∀ other,
      is_chain [("a", ["b", "c"]), ("b", ["c", "d"]), ("c", ["d", "a"]), ("d", ["e", "b"])]
        "a" "e" other → 4 ≤ other.length :=
  ⟨by decide,
   ((c11_chain_is_shortest
      [("a", ["b", "c"]), ("b", ["c", "d"]), ("c", ["d", "a"]), ("d", ["e", "b"])] "a" "e").2
      ["a", "b", "d", "e"] (by decide) (by decide)).2.2.2⟩

/-- Claim C12: when `first` and every listed acquaintance are keys of the map and
`first != second`, `searchAcquaintancesChain` returns a chain (it does not throw), and the chain
is empty iff `second` cannot be reached from `first` by following the lists of acquaintances,
that is iff there is no chain of acquaintances from `first` to `second`. -/
theorem c12_empty_iff_unreachable (peoples : List (String × List String))
    (first second : String)
    (hfirst : (peoples.lookup first).isSome = true)
    (hlisted : ∀ people ∈ peoples, ∀ x ∈ people.2, (peoples.lookup x).isSome = true)
    (hne : first ≠ second) :
    ∃ chain, searchAcquaintancesChain peoples first second = some (.ok chain) ∧
      (chain = [] ↔ ¬ ∃ other, is_chain peoples first second other) := by
  rcases search_outcome peoples first second with ⟨-, hk⟩ | ⟨he, hno⟩ | ⟨c, he, hc, -⟩
  · exact absurd ⟨keys_of_entries peoples hlisted, hfirst⟩ hk
  · refine ⟨[], he, fun _ => ?_, fun _ => rfl⟩
    rintro ⟨other, ho⟩
    exact hno (fun e => hne e.symm) _ (reach_of_chain peoples other first second ho)
  · refine ⟨c, he, fun h => ?_, fun h => absurd ⟨c, hc⟩ h⟩
    have := is_chain_ne_nil hc
    rw [h] at this
    simp at this

/-- Witness of `c12_empty_iff_unreachable`: in the map `a -> b`, `b -> c`, `c ->`, `d -> a`
every listed person is a key; `d` cannot be reached from `a`, and the empty chain is
returned. -/
theorem c12_empty_iff_unreachable_witness :
    searchAcquaintancesChain [("a", ["b"]), ("b", ["c"]), ("c", []), ("d", ["a"])] "a" "d" =
      some (.ok []) ∧
    ¬ ∃ other, is_chain [("a", ["b"]), ("b", ["c"]), ("c", []), ("d", ["a"])] "a" "d" other := by
  obtain ⟨chain, hc, hiff⟩ := c12_empty_iff_unreachable
    [("a", ["b"]), ("b", ["c"]), ("c", []), ("d", ["a"])] "a" "d"
    (by decide) (by decide) (by decide)
  have e : searchAcquaintancesChain [("a", ["b"]), ("b", ["c"]), ("c", []), ("d", ["a"])]
      "a" "d" = some (.ok []) := by decide
  rw [e] at hc
  injection hc with hc
  injection hc with hc
  exact ⟨e, hiff.1 hc.symm⟩

end Medium2
